import Mathlib

/-!
# Derivative: expression trees and the recursive-descent parser

A shallow embedding of `expression.hpp` (the class template `Expression<T>` with
its node classes and the four operations `eval`, `to_string`, `diff`,
`simplify`) and of `parser.cpp` (the class `Parser`).

* The template parameter `T` of `Expression<T>` is a type parameter here; what the
  template asks of `T` (the arithmetic operators, `==`, the `<cmath>` functions,
  stream output, construction from the literals `0.0`, `1.0`, `-1.0`) is collected
  in the structure `Numeric T`.
* A thrown `std::runtime_error` is a value of `EvalError` / `ParseError`; `what`
  gives the message of the exception.
* `std::map<std::string, T>` is an association list searched from the front.
-/

namespace Derivative

/-! ## The numeric type parameter -/

/-- Operations that `Expression<T>` uses on its template parameter `T`. -/
structure Numeric (T : Type) where
  /-- The value `T(0.0)`, also written `T(0)`. -/
  zero : T
  /-- The value `T(1.0)`. -/
  one : T
  /-- The value `T(-1.0)`. -/
  negOne : T
  /-- The operator `+` of `T`. -/
  add : T → T → T
  /-- The operator `-` of `T`. -/
  sub : T → T → T
  /-- The operator `*` of `T`. -/
  mul : T → T → T
  /-- The operator `/` of `T`. -/
  div : T → T → T
  /-- The operator `==` of `T`. -/
  eq : T → T → Bool
  /-- The function `std::pow`. -/
  pow : T → T → T
  /-- The function `std::sin`. -/
  sin : T → T
  /-- The function `std::cos`. -/
  cos : T → T
  /-- The function `std::log`. -/
  log : T → T
  /-- The function `std::exp`. -/
  exp : T → T
  /-- The text that `Value::to_string` writes for a payload: `oss << value_` for a
  real payload, `"(" << re << " + " << im << "i)"` for a complex one. -/
  render : T → String
  /-- The conversion done by `std::stod` once the numeral has been read: the value
  of `T` for an exact decimal quantity, or `none` when it is out of range
  (`std::out_of_range`). -/
  ofDecimal : ℚ → Option T

/-! ## An executable instantiation: exact rationals

`ratNumeric` instantiates the template at `ℚ`, so that the definitions can be run on
concrete inputs. Its `+ - * /` and `==` are exact. Values print as the default
stream format of a real value does (`%g`, six significant digits). -/

/-- Number of decimal digits of `n` (one for `0`). -/
def numDigits (n : Nat) : Nat := (Nat.toDigits 10 n).length

/-- Decimal digits of `n`, padded with leading zeros to at least `width` characters. -/
def padDigits (width n : Nat) : List Char :=
  let ds := Nat.toDigits 10 n
  List.replicate (width - ds.length) '0' ++ ds

/-- Remove the zeros at the end of a run of digits. -/
def stripZeros (ds : List Char) : List Char :=
  (ds.reverse.dropWhile (fun c => c == '0')).reverse

/-- The decimal exponent `X` of a positive quotient `num / den`:
`10 ^ X ≤ num / den < 10 ^ (X + 1)`. -/
def decimalExponent (num den : Nat) : Int :=
  let e : Int := (numDigits num : Int) - (numDigits den : Int)
  let reaches : Bool :=
    if 0 ≤ e then decide (10 ^ e.toNat * den ≤ num) else decide (den ≤ 10 ^ (-e).toNat * num)
  if reaches then e else e - 1

/-- The quotient `n / d` rounded to the nearest integer, ties to even. -/
def roundHalfEven (n d : Nat) : Nat :=
  let q := n / d
  let r := n % d
  if d < 2 * r ∨ (2 * r = d ∧ q % 2 = 1) then q + 1 else q

/-- The six significant digits `m` and the decimal exponent `X` of the positive
quotient `num / den`, so that `num / den` rounds to `m * 10 ^ (X - 5)` with
`10 ^ 5 ≤ m < 10 ^ 6`. -/
def sixDigits (num den : Nat) : Nat × Int :=
  let X := decimalExponent num den
  let m := roundHalfEven (num * 10 ^ (5 - X).toNat) (den * 10 ^ (X - 5).toNat)
  if m = 10 ^ 6 then (10 ^ 5, X + 1) else (m, X)

/-- The format `%g` with precision six applied to the positive quotient `num / den`. -/
def formatG (num den : Nat) : List Char :=
  let (m, X) := sixDigits num den
  let ds := padDigits 6 m
  if X < -4 ∨ 6 ≤ X then
    let frac := stripZeros (ds.drop 1)
    let mant := if frac = [] then ds.take 1 else ds.take 1 ++ '.' :: frac
    mant ++ 'e' :: (if X < 0 then '-' else '+') :: padDigits 2 X.natAbs
  else if 0 ≤ X then
    let frac := stripZeros (ds.drop (X.toNat + 1))
    if frac = [] then ds.take (X.toNat + 1) else ds.take (X.toNat + 1) ++ '.' :: frac
  else
    '0' :: '.' :: (List.replicate ((-X).toNat - 1) '0' ++ stripZeros ds)

/-- The text written by `oss << value_` for a real value, in the default state of the
stream. -/
def renderReal (q : ℚ) : String :=
  if q.num = 0 then "0"
  else if q.num < 0 then String.mk ('-' :: formatG q.num.natAbs q.den)
  else String.mk (formatG q.num.natAbs q.den)

/-- Partial sum `Σ k < n, x ^ k / k!`. -/
def expSeries (x : ℚ) : Nat → ℚ
  | 0 => 0
  | n + 1 => expSeries x n + x ^ n / (Nat.factorial n : ℚ)

/-- Partial sum `Σ k < n, (-1) ^ k * x ^ (2 k + 1) / (2 k + 1)!`. -/
def sinSeries (x : ℚ) : Nat → ℚ
  | 0 => 0
  | n + 1 => sinSeries x n + (-1) ^ n * x ^ (2 * n + 1) / (Nat.factorial (2 * n + 1) : ℚ)

/-- Partial sum `Σ k < n, (-1) ^ k * x ^ (2 k) / (2 k)!`. -/
def cosSeries (x : ℚ) : Nat → ℚ
  | 0 => 0
  | n + 1 => cosSeries x n + (-1) ^ n * x ^ (2 * n) / (Nat.factorial (2 * n) : ℚ)

/-- Partial sum `Σ k < n, 2 * u ^ (2 k + 1) / (2 k + 1)` with `u = (x - 1) / (x + 1)`. -/
def logSeries (x : ℚ) : Nat → ℚ
  | 0 => 0
  | n + 1 => logSeries x n + 2 * ((x - 1) / (x + 1)) ^ (2 * n + 1) / ((2 * n + 1 : Nat) : ℚ)

/-- The instantiation of the template at the exact rationals. The four field
operations and `==` are exact and every decimal numeral converts exactly; `sin`,
`cos`, `log`, `exp` are eight terms of their series (exact at `sin 0`, `cos 0`,
`exp 0`, `log 1`), and `pow` is the exact power for an integer exponent. -/
def ratNumeric : Numeric ℚ where
  zero := 0
  one := 1
  negOne := -1
  add := fun a b => a + b
  sub := fun a b => a - b
  mul := fun a b => a * b
  div := fun a b => a / b
  eq := fun a b => decide (a = b)
  pow := fun a b => if b.den = 1 then a ^ b.num else expSeries (b * logSeries a 8) 8
  sin := fun a => sinSeries a 8
  cos := fun a => cosSeries a 8
  log := fun a => logSeries a 8
  exp := fun a => expSeries a 8
  render := renderReal
  ofDecimal := fun q => some q

/-! ## The expression tree -/

/-- The node classes of `Expression<T>::ExpressionImpl`. -/
inductive Expression (T : Type) where
  | Value (value : T)
  | Variable (name : String)
  | OperationAdd (left right : Expression T)
  | OperationMul (left right : Expression T)
  | OperationSub (left right : Expression T)
  | OperationDiv (left right : Expression T)
  | OperationPow (base exponent : Expression T)
  | OperationSin (arg : Expression T)
  | OperationCos (arg : Expression T)
  | OperationLn (arg : Expression T)
  | OperationExp (arg : Expression T)
  deriving DecidableEq

/-- The evaluation context `std::map<std::string, T>`. -/
abbrev Context (T : Type) := List (String × T)

/-- The lookup `context.find(name)`; `none` stands for `context.end()`. -/
def Context.find {T : Type} (context : Context T) (name : String) : Option T :=
  context.lookup name

/-- The exceptions thrown by `eval`. -/
inductive EvalError where
  | UndefinedVariable (name : String)
  | DivisionByZero
  deriving DecidableEq

/-- The message of the `std::runtime_error`. -/
def EvalError.what : EvalError → String
  | .UndefinedVariable name => "Variable \"" ++ name ++ "\" not present in evaluation context"
  | .DivisionByZero => "Division by zero"

namespace Expression

variable {T : Type}

/-- The method `eval`. Operands of a binary node are evaluated left to right,
except in `OperationDiv`, which evaluates and tests the denominator first. -/
def eval (A : Numeric T) : Expression T → Context T → Except EvalError T
  | Value value, _ => .ok value
  | Variable name, context =>
    match context.find name with
    | none => .error (.UndefinedVariable name)
    | some v => .ok v
  | OperationAdd left right, context =>
    match eval A left context with
    | .error e => .error e
    | .ok a =>
      match eval A right context with
      | .error e => .error e
      | .ok b => .ok (A.add a b)
  | OperationMul left right, context =>
    match eval A left context with
    | .error e => .error e
    | .ok a =>
      match eval A right context with
      | .error e => .error e
      | .ok b => .ok (A.mul a b)
  | OperationSub left right, context =>
    match eval A left context with
    | .error e => .error e
    | .ok a =>
      match eval A right context with
      | .error e => .error e
      | .ok b => .ok (A.sub a b)
  | OperationDiv left right, context =>
    match eval A right context with
    | .error e => .error e
    | .ok denominator =>
      if A.eq denominator A.zero then .error .DivisionByZero
      else
        match eval A left context with
        | .error e => .error e
        | .ok a => .ok (A.div a denominator)
  | OperationPow base exponent, context =>
    match eval A base context with
    | .error e => .error e
    | .ok a =>
      match eval A exponent context with
      | .error e => .error e
      | .ok b => .ok (A.pow a b)
  | OperationSin arg, context =>
    match eval A arg context with
    | .error e => .error e
    | .ok a => .ok (A.sin a)
  | OperationCos arg, context =>
    match eval A arg context with
    | .error e => .error e
    | .ok a => .ok (A.cos a)
  | OperationLn arg, context =>
    match eval A arg context with
    | .error e => .error e
    | .ok a => .ok (A.log a)
  | OperationExp arg, context =>
    match eval A arg context with
    | .error e => .error e
    | .ok a => .ok (A.exp a)

/-- The method `to_string`. -/
def to_string (A : Numeric T) : Expression T → String
  | Value value => A.render value
  | Variable name => name
  | OperationAdd left right => "(" ++ to_string A left ++ " + " ++ to_string A right ++ ")"
  | OperationMul left right => "(" ++ to_string A left ++ " * " ++ to_string A right ++ ")"
  | OperationSub left right => "(" ++ to_string A left ++ " - " ++ to_string A right ++ ")"
  | OperationDiv left right => "(" ++ to_string A left ++ " / " ++ to_string A right ++ ")"
  | OperationPow base exponent =>
    "(" ++ to_string A base ++ " ^ " ++ to_string A exponent ++ ")"
  | OperationSin arg => "sin(" ++ to_string A arg ++ ")"
  | OperationCos arg => "cos(" ++ to_string A arg ++ ")"
  | OperationLn arg => "ln(" ++ to_string A arg ++ ")"
  | OperationExp arg => "exp(" ++ to_string A arg ++ ")"

/-- The method `diff`. -/
def diff (A : Numeric T) : Expression T → String → Expression T
  | Value _, _ => Value A.zero
  | Variable name, variable_ =>
    if name = variable_ then Value A.one else Value A.zero
  | OperationAdd left right, variable_ =>
    OperationAdd (diff A left variable_) (diff A right variable_)
  | OperationMul left right, variable_ =>
    OperationAdd (OperationMul (diff A left variable_) right)
      (OperationMul left (diff A right variable_))
  | OperationSub left right, variable_ =>
    OperationSub (diff A left variable_) (diff A right variable_)
  | OperationDiv left right, variable_ =>
    OperationDiv
      (OperationSub (OperationMul (diff A left variable_) right)
        (OperationMul left (diff A right variable_)))
      (OperationMul right right)
  | OperationPow base exponent, variable_ =>
    let base_derivative := diff A base variable_
    let exponent_derivative := diff A exponent variable_
    let part1 := OperationMul exponent_derivative (OperationLn base)
    let part2 := OperationMul exponent (OperationDiv base_derivative base)
    OperationMul (OperationPow base exponent) (OperationAdd part1 part2)
  | OperationSin arg, variable_ => OperationMul (OperationCos arg) (diff A arg variable_)
  | OperationCos arg, variable_ =>
    OperationMul (OperationMul (Value A.negOne) (OperationSin arg)) (diff A arg variable_)
  | OperationLn arg, variable_ =>
    OperationMul (OperationDiv (Value A.one) arg) (diff A arg variable_)
  | OperationExp arg, variable_ => OperationMul (OperationExp arg) (diff A arg variable_)

/-- The method `simplify`. -/
def simplify (A : Numeric T) : Expression T → Expression T
  | Value value => Value value
  | Variable name => Variable name
  | OperationAdd left_ right_ =>
    let left := simplify A left_
    let right := simplify A right_
    if to_string A left = "0" then right
    else if to_string A right = "0" then left
    else OperationAdd left right
  | OperationMul left_ right_ =>
    let left := simplify A left_
    let right := simplify A right_
    if to_string A left = "0" ∨ to_string A right = "0" then Value A.zero
    else if to_string A left = "1" then right
    else if to_string A right = "1" then left
    else OperationMul left right
  | OperationSub left_ right_ =>
    let left := simplify A left_
    let right := simplify A right_
    if to_string A right = "0" then left
    else OperationSub left right
  | OperationDiv left_ right_ =>
    let left := simplify A left_
    let right := simplify A right_
    if to_string A left = "0" then Value A.zero
    else if to_string A right = "1" then left
    else OperationDiv left right
  | OperationPow base_ exponent_ =>
    let base := simplify A base_
    let exponent := simplify A exponent_
    if to_string A exponent = "0" then Value A.one
    else if to_string A base = "0" then Value A.zero
    else OperationPow base exponent
  | OperationSin arg => OperationSin (simplify A arg)
  | OperationCos arg => OperationCos (simplify A arg)
  | OperationLn arg => OperationLn (simplify A arg)
  | OperationExp arg => OperationExp (simplify A arg)

end Expression

/-- Results of the operations that can throw are compared by deciding equality. -/
instance instDecidableEqExcept {ε α : Type} [DecidableEq ε] [DecidableEq α] :
    DecidableEq (Except ε α)
  | .ok a, .ok b => if h : a = b then isTrue (by rw [h]) else isFalse (fun e => h (by cases e; rfl))
  | .error a, .error b =>
    if h : a = b then isTrue (by rw [h]) else isFalse (fun e => h (by cases e; rfl))
  | .ok _, .error _ => isFalse (fun e => by cases e)
  | .error _, .ok _ => isFalse (fun e => by cases e)

/-! ## The parser -/

/-- The exceptions that leave `Parser::parse`: the `std::runtime_error`s thrown by
the parser and the two exceptions of `std::stod`. `OutOfFuel` is not an exception of
the program: it marks a run of the embedding whose recursion budget was too small. -/
inductive ParseError where
  | UnexpectedEndOfInput
  | ExpectedCloseParen
  | UnknownFunction (name : String)
  | UnexpectedCharacter
  | InvalidNumber
  | NumberOutOfRange
  | OutOfFuel
  deriving DecidableEq

/-- The message of the exception. -/
def ParseError.what : ParseError → String
  | .UnexpectedEndOfInput => "Unexpected end of input"
  | .ExpectedCloseParen => "Expected ')'"
  | .UnknownFunction name => "Unknown function: " ++ name
  | .UnexpectedCharacter => "Unexpected character"
  | .InvalidNumber => "stod"
  | .NumberOutOfRange => "stod"
  | .OutOfFuel => ""

/-- The classification `std::isspace` in the "C" locale: space, `\t`, `\n`, `\v`,
`\f`, `\r`. -/
def isspace (c : Char) : Bool :=
  c.toNat == 32 || (9 ≤ c.toNat && c.toNat ≤ 13)

/-- The classification `std::isalpha` in the "C" locale. -/
def isalpha (c : Char) : Bool :=
  (65 ≤ c.toNat && c.toNat ≤ 90) || (97 ≤ c.toNat && c.toNat ≤ 122)

/-- The classification `std::isdigit`. -/
def isdigit (c : Char) : Bool :=
  48 ≤ c.toNat && c.toNat ≤ 57

/-- The number written by a run of decimal digits. -/
def digitsValue (ds : List Char) : Nat :=
  ds.foldl (fun acc c => 10 * acc + (c.toNat - 48)) 0

/-- The function `std::stod` on the text collected by `parse_number`, which holds only
digits and dots: it converts the longest prefix of the form `digits [. digits]` holding
at least one digit, throws `std::invalid_argument` when there is none and
`std::out_of_range` when the quantity has no value in `T`. -/
def stod {T : Type} (A : Numeric T) (num : List Char) : Except ParseError T :=
  let intPart := num.takeWhile isdigit
  let fracPart :=
    match num.dropWhile isdigit with
    | c :: rest => if c = '.' then rest.takeWhile isdigit else []
    | [] => []
  if intPart = [] ∧ fracPart = [] then .error .InvalidNumber
  else
    match A.ofDecimal ((digitsValue (intPart ++ fracPart) : ℚ) / 10 ^ fracPart.length) with
    | some value => .ok value
    | none => .error .NumberOutOfRange

/-- The state of a `Parser`: the input string and the scan cursor. -/
structure Parser where
  input : List Char
  pos : Nat
  deriving DecidableEq

namespace Parser

variable {T : Type}

/-- The loop of `skip_whitespace`, run for at most `n` iterations from `pos`; the
result is the cursor at which the loop stops. -/
def skip_whitespace_loop (input : List Char) : Nat → Nat → Nat
  | 0, pos => pos
  | n + 1, pos =>
    match input[pos]? with
    | some c => if isspace c then skip_whitespace_loop input n (pos + 1) else pos
    | none => pos

/-- The method `skip_whitespace`. The loop moves the cursor by one in each iteration
and stops at the end of the input, so `input.size() - pos` iterations are all it can
make. -/
def skip_whitespace (p : Parser) : Parser :=
  { p with pos := skip_whitespace_loop p.input (p.input.length - p.pos) p.pos }

/-- The method `peek`: the character returned and the state left behind. -/
def peek (p : Parser) : Char × Parser :=
  let p := p.skip_whitespace
  match p.input[p.pos]? with
  | some c => (c, p)
  | none => (Char.ofNat 0, p)

/-- The method `consume`. -/
def consume (p : Parser) : Except ParseError (Char × Parser) :=
  let p := p.skip_whitespace
  match p.input[p.pos]? with
  | none => .error .UnexpectedEndOfInput
  | some c => .ok (c, { p with pos := p.pos + 1 })

/-- The method `match`. -/
def match_ (p : Parser) (expected : Char) : Bool × Parser :=
  let p := p.skip_whitespace
  match p.input[p.pos]? with
  | some c => if c = expected then (true, { p with pos := p.pos + 1 }) else (false, p)
  | none => (false, p)

/-- The method `parse_variable`. -/
def parse_variable (p : Parser) : Except ParseError (Expression T × Parser) :=
  match p.consume with
  | .error e => .error e
  | .ok (c, p) => .ok (.Variable (String.mk [c]), p)

/-- The loop condition `std::isdigit(peek()) || peek() == '.'`. -/
def peek_digit_or_dot (p : Parser) : Bool × Parser :=
  let (c, p) := p.peek
  if isdigit c then (true, p)
  else
    let (c, p) := p.peek
    (c == '.', p)

/-- The loop of `parse_number`, run for at most `n` iterations with `num` collected so
far. Each iteration consumes a character, so after `input.size() - pos` iterations the
cursor is at the end of the input and the condition is false. -/
def parse_number_loop : Nat → List Char → Parser → Except ParseError (List Char × Parser)
  | 0, num, p => .ok (num, p.peek_digit_or_dot.2)
  | n + 1, num, p =>
    let (more, p) := p.peek_digit_or_dot
    if more then
      match p.consume with
      | .error e => .error e
      | .ok (c, p) => parse_number_loop n (num ++ [c]) p
    else .ok (num, p)

/-- The method `parse_number`. -/
def parse_number (A : Numeric T) (p : Parser) : Except ParseError (Expression T × Parser) :=
  match parse_number_loop (p.input.length - p.pos) [] p with
  | .error e => .error e
  | .ok (num, p) =>
    match stod A num with
    | .error e => .error e
    | .ok value => .ok (.Value value, p)

/-- The loop of `parse_function` that collects the name, run for at most `n`
iterations with `func` collected so far. -/
def parse_function_loop : Nat → List Char → Parser → Except ParseError (List Char × Parser)
  | 0, func, p => .ok (func, p.peek.2)
  | n + 1, func, p =>
    let (c, p) := p.peek
    if isalpha c then
      match p.consume with
      | .error e => .error e
      | .ok (c, p) => parse_function_loop n (func ++ [c]) p
    else .ok (func, p)

mutual

/-- The method `parse_expression`; `fuel` bounds the depth of the calls. -/
def parse_expression (A : Numeric T) :
    Nat → Parser → Except ParseError (Expression T × Parser)
  | 0, _ => .error .OutOfFuel
  | fuel + 1, p =>
    match parse_term A fuel p with
    | .error e => .error e
    | .ok (left, p) => parse_expression_loop A fuel left p

/-- The `while (true)` loop of `parse_expression`. -/
def parse_expression_loop (A : Numeric T) :
    Nat → Expression T → Parser → Except ParseError (Expression T × Parser)
  | 0, _, _ => .error .OutOfFuel
  | fuel + 1, left, p =>
    let (plus, p) := p.match_ '+'
    if plus then
      match parse_term A fuel p with
      | .error e => .error e
      | .ok (right, p) => parse_expression_loop A fuel (.OperationAdd left right) p
    else
      let (minus, p) := p.match_ '-'
      if minus then
        match parse_term A fuel p with
        | .error e => .error e
        | .ok (right, p) => parse_expression_loop A fuel (.OperationSub left right) p
      else .ok (left, p)

/-- The method `parse_term`. -/
def parse_term (A : Numeric T) :
    Nat → Parser → Except ParseError (Expression T × Parser)
  | 0, _ => .error .OutOfFuel
  | fuel + 1, p =>
    match parse_factor A fuel p with
    | .error e => .error e
    | .ok (left, p) => parse_term_loop A fuel left p

/-- The `while (true)` loop of `parse_term`. -/
def parse_term_loop (A : Numeric T) :
    Nat → Expression T → Parser → Except ParseError (Expression T × Parser)
  | 0, _, _ => .error .OutOfFuel
  | fuel + 1, left, p =>
    let (star, p) := p.match_ '*'
    if star then
      match parse_factor A fuel p with
      | .error e => .error e
      | .ok (right, p) => parse_term_loop A fuel (.OperationMul left right) p
    else
      let (slash, p) := p.match_ '/'
      if slash then
        match parse_factor A fuel p with
        | .error e => .error e
        | .ok (right, p) => parse_term_loop A fuel (.OperationDiv left right) p
      else .ok (left, p)

/-- The method `parse_factor`. -/
def parse_factor (A : Numeric T) :
    Nat → Parser → Except ParseError (Expression T × Parser)
  | 0, _ => .error .OutOfFuel
  | fuel + 1, p =>
    match parse_primary A fuel p with
    | .error e => .error e
    | .ok (left, p) =>
      let (caret, p) := p.match_ '^'
      if caret then
        match parse_factor A fuel p with
        | .error e => .error e
        | .ok (right, p) => .ok (.OperationPow left right, p)
      else .ok (left, p)

/-- The method `parse_primary`. -/
def parse_primary (A : Numeric T) :
    Nat → Parser → Except ParseError (Expression T × Parser)
  | 0, _ => .error .OutOfFuel
  | fuel + 1, p =>
    let (paren, p) := p.match_ '('
    if paren then
      match parse_expression A fuel p with
      | .error e => .error e
      | .ok (expr, p) =>
        let (close, p) := p.match_ ')'
        if !close then .error .ExpectedCloseParen else .ok (expr, p)
    else
      let (c, p) := p.peek
      if isalpha c then
        let (nextChar, p) := p.peek
        if nextChar = 'x' ∨ nextChar = 'y' then parse_variable p
        else parse_function A fuel p
      else
        let (number, p) := p.peek_digit_or_dot
        if number then parse_number A p
        else .error .UnexpectedCharacter

/-- The method `parse_function`. -/
def parse_function (A : Numeric T) :
    Nat → Parser → Except ParseError (Expression T × Parser)
  | 0, _ => .error .OutOfFuel
  | fuel + 1, p =>
    match parse_function_loop (p.input.length - p.pos) [] p with
    | .error e => .error e
    | .ok (func, p) =>
      if func = "sin".toList then
        match parse_primary A fuel p with
        | .error e => .error e
        | .ok (arg, p) => .ok (.OperationSin arg, p)
      else if func = "cos".toList then
        match parse_primary A fuel p with
        | .error e => .error e
        | .ok (arg, p) => .ok (.OperationCos arg, p)
      else if func = "ln".toList then
        match parse_primary A fuel p with
        | .error e => .error e
        | .ok (arg, p) => .ok (.OperationLn arg, p)
      else if func = "exp".toList then
        match parse_primary A fuel p with
        | .error e => .error e
        | .ok (arg, p) => .ok (.OperationExp arg, p)
      else .error (.UnknownFunction (String.mk func))

end

/-- The method `parse`. Every call below `parse_expression` that goes one level deeper
has first consumed a character or is one of the four steps from `parse_expression` down
to `parse_primary`, so a depth of `4 * input.size() + 4` covers every run. -/
def parse (A : Numeric T) (p : Parser) : Except ParseError (Expression T × Parser) :=
  parse_expression A (4 * p.input.length + 4) p

end Parser

/-- The function `Expression<double>::from_string`: a `Parser` is constructed on the
input with the cursor at `0` and `parse` is called; the result is the expression
returned or the exception thrown. -/
def Expression.from_string {T : Type} (A : Numeric T) (input : String) :
    Except ParseError (Expression T) :=
  match Parser.parse A { input := input.toList, pos := 0 } with
  | .error e => .error e
  | .ok (expr, _) => .ok expr

/-! ## Notions used to state what the parser does -/

/-- The parser `p` sees the text `s`: what lies from the cursor on is `s` up to leading
whitespace. -/
def Sees (p : Parser) (s : List Char) : Prop :=
  (p.input.drop p.pos).dropWhile isspace = s.dropWhile isspace

/-- A parsing method `f` yields `a` on the text `s` and leaves `rest`: started in any
state that sees `s`, it returns `a` in a state that sees `rest`. -/
def Yields {α : Type} (f : Parser → Except ParseError (α × Parser)) (s : List Char) (a : α)
    (rest : List Char) : Prop :=
  ∀ p : Parser, Sees p s → ∃ q : Parser, f p = .ok (a, q) ∧ Sees q rest

/-- The first character of `s` after leading whitespace, if any. -/
def firstChar (s : List Char) : Option Char :=
  (s.dropWhile isspace).head?

/-- An operand of the parser with the expression it denotes: the variable `x`, the
variable `y`, or a number, that is a nonempty run of digits and dots that `std::stod`
converts to a value. -/
inductive Operand {T : Type} (A : Numeric T) : String → Expression T → Prop where
  | x : Operand A "x" (.Variable "x")
  | y : Operand A "y" (.Variable "y")
  | number (text : String) (value : T) (nonempty : text.toList ≠ [])
      (digits : ∀ c ∈ text.toList, isdigit c = true ∨ c = '.')
      (converts : stod A text.toList = .ok value) : Operand A text (.Value value)

/-! ## The tree transforms with a bound on the depth of the calls -/

namespace Expression

variable {T : Type}

/-- The number of nodes on the longest path from the root of the tree to a leaf. -/
def height : Expression T → Nat
  | Value _ => 1
  | Variable _ => 1
  | OperationAdd left right => max (height left) (height right) + 1
  | OperationMul left right => max (height left) (height right) + 1
  | OperationSub left right => max (height left) (height right) + 1
  | OperationDiv left right => max (height left) (height right) + 1
  | OperationPow base exponent => max (height base) (height exponent) + 1
  | OperationSin arg => height arg + 1
  | OperationCos arg => height arg + 1
  | OperationLn arg => height arg + 1
  | OperationExp arg => height arg + 1

/-- The method `diff` with its calls counted: every call of `diff` on an operand is made
one level deeper, and the result is `none` when a call would go deeper than `depth`
levels. -/
def diff_bounded (A : Numeric T) : Nat → Expression T → String → Option (Expression T)
  | 0, _, _ => none
  | _ + 1, Value _, _ => some (Value A.zero)
  | _ + 1, Variable name, variable_ =>
    some (if name = variable_ then Value A.one else Value A.zero)
  | depth + 1, OperationAdd left right, variable_ =>
    match diff_bounded A depth left variable_, diff_bounded A depth right variable_ with
    | some dl, some dr => some (OperationAdd dl dr)
    | _, _ => none
  | depth + 1, OperationMul left right, variable_ =>
    match diff_bounded A depth left variable_, diff_bounded A depth right variable_ with
    | some dl, some dr => some (OperationAdd (OperationMul dl right) (OperationMul left dr))
    | _, _ => none
  | depth + 1, OperationSub left right, variable_ =>
    match diff_bounded A depth left variable_, diff_bounded A depth right variable_ with
    | some dl, some dr => some (OperationSub dl dr)
    | _, _ => none
  | depth + 1, OperationDiv left right, variable_ =>
    match diff_bounded A depth left variable_, diff_bounded A depth right variable_ with
    | some dl, some dr =>
      some (OperationDiv (OperationSub (OperationMul dl right) (OperationMul left dr))
        (OperationMul right right))
    | _, _ => none
  | depth + 1, OperationPow base exponent, variable_ =>
    match diff_bounded A depth base variable_, diff_bounded A depth exponent variable_ with
    | some base_derivative, some exponent_derivative =>
      some (OperationMul (OperationPow base exponent)
        (OperationAdd (OperationMul exponent_derivative (OperationLn base))
          (OperationMul exponent (OperationDiv base_derivative base))))
    | _, _ => none
  | depth + 1, OperationSin arg, variable_ =>
    match diff_bounded A depth arg variable_ with
    | some d => some (OperationMul (OperationCos arg) d)
    | none => none
  | depth + 1, OperationCos arg, variable_ =>
    match diff_bounded A depth arg variable_ with
    | some d => some (OperationMul (OperationMul (Value A.negOne) (OperationSin arg)) d)
    | none => none
  | depth + 1, OperationLn arg, variable_ =>
    match diff_bounded A depth arg variable_ with
    | some d => some (OperationMul (OperationDiv (Value A.one) arg) d)
    | none => none
  | depth + 1, OperationExp arg, variable_ =>
    match diff_bounded A depth arg variable_ with
    | some d => some (OperationMul (OperationExp arg) d)
    | none => none

/-- The method `to_string` with its calls counted, as in `diff_bounded`. -/
def to_string_bounded (A : Numeric T) : Nat → Expression T → Option String
  | 0, _ => none
  | _ + 1, Value value => some (A.render value)
  | _ + 1, Variable name => some name
  | depth + 1, OperationAdd left right =>
    match to_string_bounded A depth left, to_string_bounded A depth right with
    | some l, some r => some ("(" ++ l ++ " + " ++ r ++ ")")
    | _, _ => none
  | depth + 1, OperationMul left right =>
    match to_string_bounded A depth left, to_string_bounded A depth right with
    | some l, some r => some ("(" ++ l ++ " * " ++ r ++ ")")
    | _, _ => none
  | depth + 1, OperationSub left right =>
    match to_string_bounded A depth left, to_string_bounded A depth right with
    | some l, some r => some ("(" ++ l ++ " - " ++ r ++ ")")
    | _, _ => none
  | depth + 1, OperationDiv left right =>
    match to_string_bounded A depth left, to_string_bounded A depth right with
    | some l, some r => some ("(" ++ l ++ " / " ++ r ++ ")")
    | _, _ => none
  | depth + 1, OperationPow base exponent =>
    match to_string_bounded A depth base, to_string_bounded A depth exponent with
    | some l, some r => some ("(" ++ l ++ " ^ " ++ r ++ ")")
    | _, _ => none
  | depth + 1, OperationSin arg =>
    match to_string_bounded A depth arg with
    | some a => some ("sin(" ++ a ++ ")")
    | none => none
  | depth + 1, OperationCos arg =>
    match to_string_bounded A depth arg with
    | some a => some ("cos(" ++ a ++ ")")
    | none => none
  | depth + 1, OperationLn arg =>
    match to_string_bounded A depth arg with
    | some a => some ("ln(" ++ a ++ ")")
    | none => none
  | depth + 1, OperationExp arg =>
    match to_string_bounded A depth arg with
    | some a => some ("exp(" ++ a ++ ")")
    | none => none

/-- The method `simplify` with its calls counted, as in `diff_bounded`; the renderings
of the simplified operands are taken with `to_string`. -/
def simplify_bounded (A : Numeric T) : Nat → Expression T → Option (Expression T)
  | 0, _ => none
  | _ + 1, Value value => some (Value value)
  | _ + 1, Variable name => some (Variable name)
  | depth + 1, OperationAdd left_ right_ =>
    match simplify_bounded A depth left_, simplify_bounded A depth right_ with
    | some left, some right =>
      some (if to_string A left = "0" then right
        else if to_string A right = "0" then left
        else OperationAdd left right)
    | _, _ => none
  | depth + 1, OperationMul left_ right_ =>
    match simplify_bounded A depth left_, simplify_bounded A depth right_ with
    | some left, some right =>
      some (if to_string A left = "0" ∨ to_string A right = "0" then Value A.zero
        else if to_string A left = "1" then right
        else if to_string A right = "1" then left
        else OperationMul left right)
    | _, _ => none
  | depth + 1, OperationSub left_ right_ =>
    match simplify_bounded A depth left_, simplify_bounded A depth right_ with
    | some left, some right =>
      some (if to_string A right = "0" then left else OperationSub left right)
    | _, _ => none
  | depth + 1, OperationDiv left_ right_ =>
    match simplify_bounded A depth left_, simplify_bounded A depth right_ with
    | some left, some right =>
      some (if to_string A left = "0" then Value A.zero
        else if to_string A right = "1" then left
        else OperationDiv left right)
    | _, _ => none
  | depth + 1, OperationPow base_ exponent_ =>
    match simplify_bounded A depth base_, simplify_bounded A depth exponent_ with
    | some base, some exponent =>
      some (if to_string A exponent = "0" then Value A.one
        else if to_string A base = "0" then Value A.zero
        else OperationPow base exponent)
    | _, _ => none
  | depth + 1, OperationSin arg =>
    match simplify_bounded A depth arg with
    | some a => some (OperationSin a)
    | none => none
  | depth + 1, OperationCos arg =>
    match simplify_bounded A depth arg with
    | some a => some (OperationCos a)
    | none => none
  | depth + 1, OperationLn arg =>
    match simplify_bounded A depth arg with
    | some a => some (OperationLn a)
    | none => none
  | depth + 1, OperationExp arg =>
    match simplify_bounded A depth arg with
    | some a => some (OperationExp a)
    | none => none

end Expression

namespace Parser

/-- The next character from the cursor on that is not whitespace, if there is one. -/
def next (p : Parser) : Option Char :=
  firstChar (p.input.drop p.pos)

/-- The state with the cursor just past the next character that is not whitespace. -/
def advance (p : Parser) : Parser :=
  { p.skip_whitespace with pos := p.skip_whitespace.pos + 1 }

/-- The number of characters from the cursor to the end of the input. -/
def remaining (p : Parser) : Nat :=
  p.input.length - p.pos

/-- The state `q` is reached from `p` by moving the cursor forward: same input, a cursor
that is not smaller, and a cursor within the input if it was so in `p`. -/
def Forward (p q : Parser) : Prop :=
  q.input = p.input ∧ p.pos ≤ q.pos ∧ (p.pos ≤ p.input.length → q.pos ≤ p.input.length)

end Parser

/-- The name that the loop of `parse_function` collects on the text `s`: the letters of
`s` that come before the first character that is neither a letter nor whitespace. -/
def letterRun (s : List Char) : List Char :=
  (s.takeWhile (fun c => isalpha c || isspace c)).filter isalpha

/-- The text that the loop of `parse_function` leaves on the text `s`: `s` from its
first character on that is neither a letter nor whitespace. -/
def afterLetters (s : List Char) : List Char :=
  s.dropWhile (fun c => isalpha c || isspace c)

/-- The four names that `parse_function` knows. -/
def functionNames : List (List Char) :=
  ["sin".toList, "cos".toList, "ln".toList, "exp".toList]

/-- The characters that the loop of `parse_number` collects. -/
def isNumberChar (c : Char) : Bool :=
  isdigit c || c == '.'

/-- The text that the loop of `parse_number` collects on the text `s`: the digits and
dots of `s` that come before the first character that is neither a digit, a dot nor
whitespace. -/
def numberRun (s : List Char) : List Char :=
  (s.takeWhile (fun c => isNumberChar c || isspace c)).filter isNumberChar

/-- The text that the loop of `parse_number` leaves on the text `s`. -/
def afterNumber (s : List Char) : List Char :=
  s.dropWhile (fun c => isNumberChar c || isspace c)

/-- The result of `std::stod` for an exact decimal quantity. -/
def convertDecimal {T : Type} (A : Numeric T) (q : ℚ) : Except ParseError T :=
  match A.ofDecimal q with
  | some value => .ok value
  | none => .error .NumberOutOfRange

namespace Parser

/-- The result `res` of a parsing method started in the state `p` is settled: the
recursion budget was not exhausted, and a state returned is reached from `p` by moving
the cursor forward. -/
def Settled {α : Type} (p : Parser) (res : Except ParseError (α × Parser)) : Prop :=
  res ≠ .error .OutOfFuel ∧ ∀ a q, res = .ok (a, q) → Forward p q

/-- The run `f` of a parsing method from the state `p` is settled, and the run `g` of
the same method with a larger recursion budget has the same result. -/
def Stable {α : Type} (f g : Parser → Except ParseError (α × Parser)) (p : Parser) : Prop :=
  Settled p (f p) ∧ g p = f p

end Parser

namespace Parser

/-- Two steps of a parsing method in sequence: the second step runs on the value and
the state returned by the first, and an exception of the first step is passed on. -/
def andThen {α β : Type} (res : Except ParseError (α × Parser))
    (k : α → Parser → Except ParseError (β × Parser)) : Except ParseError (β × Parser) :=
  match res with
  | .error e => .error e
  | .ok (a, q) => k a q

end Parser

namespace Parser

/-- The recursion budget `n` is large enough for every parsing method on every state it
may be started in: `4 * remaining + 1` for `parse_primary` and the two loops, one more
for each of `parse_factor`, `parse_term`, `parse_expression`, and `4 * remaining` for
`parse_function`, which is entered on a letter. -/
def Within {T : Type} (A : Numeric T) (n : Nat) : Prop :=
  (∀ p, 4 * p.remaining + 1 ≤ n → Stable (parse_primary A n) (parse_primary A (n + 1)) p)
  ∧ (∀ p, 4 * p.remaining + 2 ≤ n → Stable (parse_factor A n) (parse_factor A (n + 1)) p)
  ∧ (∀ p, 4 * p.remaining + 3 ≤ n → Stable (parse_term A n) (parse_term A (n + 1)) p)
  ∧ (∀ p, 4 * p.remaining + 4 ≤ n →
      Stable (parse_expression A n) (parse_expression A (n + 1)) p)
  ∧ (∀ left p, 4 * p.remaining + 1 ≤ n →
      Stable (parse_term_loop A n left) (parse_term_loop A (n + 1) left) p)
  ∧ (∀ left p, 4 * p.remaining + 1 ≤ n →
      Stable (parse_expression_loop A n left) (parse_expression_loop A (n + 1) left) p)
  ∧ (∀ p, 4 * p.remaining ≤ n → 1 ≤ n →
      Stable (parse_function A n) (parse_function A (n + 1)) p)

end Parser

/-! ## The instantiation at the real numbers -/

/-- The instantiation of the template at the real numbers, with the real functions
`sin`, `cos`, `log`, `exp` and the real power; the text written for a value is left as
a parameter. -/
noncomputable def realNumeric (render : ℝ → String) : Numeric ℝ where
  zero := 0
  one := 1
  negOne := -1
  add := fun a b => a + b
  sub := fun a b => a - b
  mul := fun a b => a * b
  div := fun a b => a / b
  eq := fun a b => decide (a = b)
  pow := fun a b => a ^ b
  sin := Real.sin
  cos := Real.cos
  log := Real.log
  exp := Real.exp
  render := render
  ofDecimal := fun q => some (q : ℝ)

namespace Expression

/-- The real number that an expression denotes in a context, with the total operations
of the real numbers; an unbound variable counts as `0`. -/
noncomputable def value : Expression ℝ → Context ℝ → ℝ
  | Value v, _ => v
  | Variable name, context => (context.find name).getD 0
  | OperationAdd left right, context => value left context + value right context
  | OperationMul left right, context => value left context * value right context
  | OperationSub left right, context => value left context - value right context
  | OperationDiv left right, context => value left context / value right context
  | OperationPow base exponent, context => value base context ^ value exponent context
  | OperationSin arg, context => Real.sin (value arg context)
  | OperationCos arg, context => Real.cos (value arg context)
  | OperationLn arg, context => Real.log (value arg context)
  | OperationExp arg, context => Real.exp (value arg context)

/-- The conditions under which the derivative is claimed: the context binds every
variable of the expression, every denominator of a `Div` evaluates to a value that is
not zero, and every argument of `Ln` and every base of `Pow` evaluates to a positive
value. -/
def Admissible (A : Numeric ℝ) : Expression ℝ → Context ℝ → Prop
  | Value _, _ => True
  | Variable name, context => context.find name ≠ none
  | OperationAdd left right, context => Admissible A left context ∧ Admissible A right context
  | OperationMul left right, context => Admissible A left context ∧ Admissible A right context
  | OperationSub left right, context => Admissible A left context ∧ Admissible A right context
  | OperationDiv left right, context =>
    Admissible A left context ∧ Admissible A right context
      ∧ ∃ d, eval A right context = .ok d ∧ d ≠ 0
  | OperationPow base exponent, context =>
    Admissible A base context ∧ Admissible A exponent context
      ∧ ∃ b, eval A base context = .ok b ∧ 0 < b
  | OperationSin arg, context => Admissible A arg context
  | OperationCos arg, context => Admissible A arg context
  | OperationLn arg, context =>
    Admissible A arg context ∧ ∃ a, eval A arg context = .ok a ∧ 0 < a
  | OperationExp arg, context => Admissible A arg context

/-- The value that `eval` returns, and `0` when it throws. -/
def evalOrZero (A : Numeric ℝ) (e : Expression ℝ) (context : Context ℝ) : ℝ :=
  match eval A e context with
  | .ok v => v
  | .error _ => 0

end Expression

/-! ## Notions used to state what the tree operations do -/

namespace Expression

variable {T : Type}

/-- The names of the `Variable` nodes of an expression, from left to right. -/
def variableNames : Expression T → List String
  | Value _ => []
  | Variable name => [name]
  | OperationAdd left right => variableNames left ++ variableNames right
  | OperationMul left right => variableNames left ++ variableNames right
  | OperationSub left right => variableNames left ++ variableNames right
  | OperationDiv left right => variableNames left ++ variableNames right
  | OperationPow base exponent => variableNames base ++ variableNames exponent
  | OperationSin arg => variableNames arg
  | OperationCos arg => variableNames arg
  | OperationLn arg => variableNames arg
  | OperationExp arg => variableNames arg

/-- The right operands of the `OperationDiv` nodes of an expression, the node itself
before the nodes below it. -/
def denominators : Expression T → List (Expression T)
  | Value _ => []
  | Variable _ => []
  | OperationAdd left right => denominators left ++ denominators right
  | OperationMul left right => denominators left ++ denominators right
  | OperationSub left right => denominators left ++ denominators right
  | OperationDiv left right => right :: (denominators left ++ denominators right)
  | OperationPow base exponent => denominators base ++ denominators exponent
  | OperationSin arg => denominators arg
  | OperationCos arg => denominators arg
  | OperationLn arg => denominators arg
  | OperationExp arg => denominators arg

/-- Whether an expression has an `OperationPow` node. -/
def hasPow : Expression T → Bool
  | Value _ => false
  | Variable _ => false
  | OperationAdd left right => hasPow left || hasPow right
  | OperationMul left right => hasPow left || hasPow right
  | OperationSub left right => hasPow left || hasPow right
  | OperationDiv left right => hasPow left || hasPow right
  | OperationPow _ _ => true
  | OperationSin arg => hasPow arg
  | OperationCos arg => hasPow arg
  | OperationLn arg => hasPow arg
  | OperationExp arg => hasPow arg

end Expression

/-- The arithmetic of the instantiation `A` is the exact arithmetic of the field `T`. -/
def Numeric.ExactField {T : Type} [Field T] (A : Numeric T) : Prop :=
  A.zero = 0 ∧ A.one = 1 ∧ (∀ a b, A.add a b = a + b) ∧ (∀ a b, A.sub a b = a - b)
    ∧ (∀ a b, A.mul a b = a * b) ∧ (∀ a b, A.div a b = a / b)

/-- A `Value` is written `0` only when it is zero and `1` only when it is one. -/
def Numeric.RendersExactly {T : Type} (A : Numeric T) : Prop :=
  (∀ v, A.render v = "0" → v = A.zero) ∧ (∀ v, A.render v = "1" → v = A.one)

/-- The text of an exact rational: the sign, the numerator in decimal and, for a value
that is not an integer, `/` and the denominator. -/
def renderExact (q : ℚ) : String :=
  String.mk ((if q.num < 0 then ['-'] else []) ++ Nat.toDigits 10 q.num.natAbs
    ++ (if q.den = 1 then [] else '/' :: Nat.toDigits 10 q.den))

/-- The instantiation at the exact rationals with a stream that writes every value
exactly, so that only zero is written `0` and only one is written `1`. -/
def exactNumeric : Numeric ℚ :=
  { ratNumeric with render := renderExact }

namespace Parser

/-- The number of whitespace characters from the cursor up to the next character that
is not whitespace, or up to the end of the input. -/
def gap (p : Parser) : Nat :=
  ((p.input.drop p.pos).takeWhile isspace).length

/-- The characters that the parser reads from the cursor on: the text from the cursor to
the end of the input, without its whitespace. -/
def view (p : Parser) : List Char :=
  (p.input.drop p.pos).filter (fun c => !isspace c)

/-- The text `tail` is empty or begins with `)`. -/
def Closing (tail : List Char) : Prop :=
  ∀ c, tail.head? = some c → c = ')'

/-- The result `rq` agrees with the result `rp` up to the text `tail`: where `rp` is a
value and a state, `rq` is the same value and a state that reads what the state of `rp`
reads and then `tail`; where `rp` is an exception and `tail` is empty, `rq` is the same
exception. -/
def Agrees {α : Type} (tail : List Char) (rp rq : Except ParseError (α × Parser)) : Prop :=
  match rp with
  | .ok (a, p) => ∃ q, rq = .ok (a, q) ∧ q.view = p.view ++ tail
  | .error e => tail = [] → rq = .error e

/-- With the recursion budget `n`, every parsing method, run in a state that reads the
text of another state and then `tail`, agrees up to `tail` with its run in that other
state. -/
def Simulates {T : Type} (A : Numeric T) (tail : List Char) (n : Nat) : Prop :=
  (∀ p q, q.view = p.view ++ tail →
      Agrees tail (parse_primary A n p) (parse_primary A n q))
  ∧ (∀ p q, q.view = p.view ++ tail →
      Agrees tail (parse_factor A n p) (parse_factor A n q))
  ∧ (∀ p q, q.view = p.view ++ tail →
      Agrees tail (parse_term A n p) (parse_term A n q))
  ∧ (∀ p q, q.view = p.view ++ tail →
      Agrees tail (parse_expression A n p) (parse_expression A n q))
  ∧ (∀ left p q, q.view = p.view ++ tail →
      Agrees tail (parse_term_loop A n left p) (parse_term_loop A n left q))
  ∧ (∀ left p q, q.view = p.view ++ tail →
      Agrees tail (parse_expression_loop A n left p) (parse_expression_loop A n left q))
  ∧ (∀ p q, q.view = p.view ++ tail →
      Agrees tail (parse_function A n p) (parse_function A n q))

end Parser

namespace Expression

variable {T : Type}

/-- The trees that the parser can express: every `Variable` node is named `x` or `y`,
and every `Value` renders as a run of digits, not empty, that `std::stod` converts back
to the same value. -/
def Expressible (A : Numeric T) : Expression T → Prop
  | Value value =>
    (A.render value).toList ≠ [] ∧ (∀ c ∈ (A.render value).toList, isdigit c = true)
      ∧ stod A (A.render value).toList = .ok value
  | Variable name => name = "x" ∨ name = "y"
  | OperationAdd left right => Expressible A left ∧ Expressible A right
  | OperationMul left right => Expressible A left ∧ Expressible A right
  | OperationSub left right => Expressible A left ∧ Expressible A right
  | OperationDiv left right => Expressible A left ∧ Expressible A right
  | OperationPow base exponent => Expressible A base ∧ Expressible A exponent
  | OperationSin arg => Expressible A arg
  | OperationCos arg => Expressible A arg
  | OperationLn arg => Expressible A arg
  | OperationExp arg => Expressible A arg

end Expression

/-! ## Theorems -/

namespace Expression

variable {T : Type}

/-- C1: `simplify` is idempotent up to rendering: for every instantiation of the
template (the real one included) and every expression `e`,
`simplify(simplify(e)).to_string()` equals `simplify(e).to_string()`. -/
theorem simplify_idempotent_to_string (A : Numeric T) (e : Expression T) :
    to_string A (simplify A (simplify A e)) = to_string A (simplify A e) := by
  induction e with
  | Value value => rfl
  | Variable name => rfl
  | OperationAdd l r ihl ihr =>
    simp only [simplify]
    split_ifs with h1 h2
    · exact ihr
    · exact ihl
    · simp only [simplify, ihl, ihr, h1, h2, if_false, to_string]
  | OperationMul l r ihl ihr =>
    simp only [simplify]
    split_ifs with h1 h2 h3
    · rfl
    · exact ihr
    · exact ihl
    · simp only [simplify, ihl, ihr, h1, h2, h3, if_false, to_string]
  | OperationSub l r ihl ihr =>
    simp only [simplify]
    split_ifs with h1
    · exact ihl
    · simp only [simplify, ihl, ihr, h1, if_false, to_string]
  | OperationDiv l r ihl ihr =>
    simp only [simplify]
    split_ifs with h1 h2
    · rfl
    · exact ihl
    · simp only [simplify, ihl, ihr, h1, h2, if_false, to_string]
  | OperationPow l r ihl ihr =>
    simp only [simplify]
    split_ifs with h1 h2
    · rfl
    · rfl
    · simp only [simplify, ihl, ihr, h1, h2, if_false, to_string]
  | OperationSin u ih => simp only [simplify, to_string, ih]
  | OperationCos u ih => simp only [simplify, to_string, ih]
  | OperationLn u ih => simp only [simplify, to_string, ih]
  | OperationExp u ih => simp only [simplify, to_string, ih]

/-- C2: generalized power rule. For all `l`, `r` and every variable name `x`,
`diff(Pow(l, r), x)` is the tree `Mul(Pow(l, r), Add(Mul(dr, Ln(l)), Mul(r, Div(dl, l))))`
with `dl = diff(l, x)` and `dr = diff(r, x)`; and in an instantiation that prints the
value `1.0` as `1` (the real one), `diff(x ^ x, "x")` renders as
`((x ^ x) * ((1 * ln(x)) + (x * (1 / x))))`. -/
theorem diff_pow_rule (A : Numeric T) (l r : Expression T) (x : String) :
    diff A (OperationPow l r) x =
        OperationMul (OperationPow l r)
          (OperationAdd (OperationMul (diff A r x) (OperationLn l))
            (OperationMul r (OperationDiv (diff A l x) l)))
      ∧ (A.render A.one = "1" →
          to_string A (diff A (OperationPow (Variable "x") (Variable "x")) "x")
            = "((x ^ x) * ((1 * ln(x)) + (x * (1 / x))))") := by
  refine ⟨rfl, fun h => ?_⟩
  simp only [diff, to_string, if_true, h]
  rfl

/-- Witness of C2 at the rational instantiation, whose `1` prints as `1`. -/
theorem diff_pow_rule_witness :
    ratNumeric.render ratNumeric.one = "1" ∧
      to_string ratNumeric (diff ratNumeric (OperationPow (Variable "x") (Variable "x")) "x")
        = "((x ^ x) * ((1 * ln(x)) + (x * (1 / x))))" :=
  ⟨by decide, (diff_pow_rule ratNumeric (Variable "x") (Variable "x") "x").2 (by decide)⟩

/-- C3: leaf and sum/difference rules of `diff`, nothing simplified. For every variable
name `x`: `diff(Value c, x)` is `Value 0`; `diff(Variable v, x)` is `Value 1` if `v == x`
and `Value 0` otherwise; `diff(Add(l, r), x)` is `Add(diff(l, x), diff(r, x))`;
`diff(Sub(l, r), x)` is `Sub(diff(l, x), diff(r, x))`. In an instantiation that prints
`1.0` as `1` and `0.0` as `0`, `diff(Variable "x" + Value c, "x")` renders as `(1 + 0)`. -/
theorem diff_leaf_sum_rules (A : Numeric T) (c : T) (v x : String) (l r : Expression T) :
    diff A (Value c) x = Value A.zero
      ∧ (v = x → diff A (Variable v) x = Value A.one)
      ∧ (v ≠ x → diff A (Variable v) x = Value A.zero)
      ∧ diff A (OperationAdd l r) x = OperationAdd (diff A l x) (diff A r x)
      ∧ diff A (OperationSub l r) x = OperationSub (diff A l x) (diff A r x)
      ∧ (A.render A.one = "1" → A.render A.zero = "0" →
          to_string A (diff A (OperationAdd (Variable "x") (Value c)) "x") = "(1 + 0)") := by
  refine ⟨rfl, fun h => ?_, fun h => ?_, rfl, rfl, fun h1 h0 => ?_⟩
  · simp only [diff, h, if_true]
  · simp only [diff, h, if_false]
  · simp only [diff, to_string, if_true, h1, h0]
    rfl

/-- Witness of C3 at the rational instantiation: `diff(Variable "x" + Value 2, "x")`
renders as `(1 + 0)`, and the two leaf rules are used at `x` and at `y`. -/
theorem diff_leaf_sum_rules_witness :
    diff ratNumeric (Variable "x") "x" = Value 1
      ∧ diff ratNumeric (Variable "y") "x" = Value 0
      ∧ ratNumeric.render ratNumeric.one = "1" ∧ ratNumeric.render ratNumeric.zero = "0"
      ∧ to_string ratNumeric (diff ratNumeric (OperationAdd (Variable "x") (Value 2)) "x")
          = "(1 + 0)" :=
  ⟨(diff_leaf_sum_rules ratNumeric 2 "x" "x" (Variable "x") (Value 2)).2.1 rfl,
   (diff_leaf_sum_rules ratNumeric 2 "y" "x" (Variable "x") (Value 2)).2.2.1 (by decide),
   by decide, by decide,
   (diff_leaf_sum_rules ratNumeric 2 "x" "x" (Variable "x") (Value 2)).2.2.2.2.2
     (by decide) (by decide)⟩

/-- C4: product, quotient and chain rules of `diff`. With `dl = diff(l, x)`,
`dr = diff(r, x)`, `du = diff(u, x)`: `diff(Mul(l, r), x) = Add(Mul(dl, r), Mul(l, dr))`;
`diff(Div(l, r), x) = Div(Sub(Mul(dl, r), Mul(l, dr)), Mul(r, r))`;
`diff(Sin(u), x) = Mul(Cos(u), du)`; `diff(Cos(u), x) = Mul(Mul(Value(-1), Sin(u)), du)`;
`diff(Ln(u), x) = Mul(Div(Value 1, u), du)`; `diff(Exp(u), x) = Mul(Exp(u), du)`. -/
theorem diff_product_quotient_chain_rules (A : Numeric T) (l r u : Expression T)
    (x : String) :
    diff A (OperationMul l r) x =
        OperationAdd (OperationMul (diff A l x) r) (OperationMul l (diff A r x))
      ∧ diff A (OperationDiv l r) x =
        OperationDiv
          (OperationSub (OperationMul (diff A l x) r) (OperationMul l (diff A r x)))
          (OperationMul r r)
      ∧ diff A (OperationSin u) x = OperationMul (OperationCos u) (diff A u x)
      ∧ diff A (OperationCos u) x =
        OperationMul (OperationMul (Value A.negOne) (OperationSin u)) (diff A u x)
      ∧ diff A (OperationLn u) x =
        OperationMul (OperationDiv (Value A.one) u) (diff A u x)
      ∧ diff A (OperationExp u) x = OperationMul (OperationExp u) (diff A u x) :=
  ⟨rfl, rfl, rfl, rfl, rfl, rfl⟩

/-- C7: evaluation of arithmetic on constants. For all values `a`, `b` and the empty
context, `eval` of `Add`, `Sub`, `Mul` of the two constants is `a + b`, `a - b`, `a * b`,
and, when `b == T(0)` is false, `eval` of `Div` is `a / b`, each with the operator of the
instantiation. -/
theorem eval_arithmetic_on_constants (A : Numeric T) (a b : T) :
    eval A (OperationAdd (Value a) (Value b)) [] = .ok (A.add a b)
      ∧ eval A (OperationSub (Value a) (Value b)) [] = .ok (A.sub a b)
      ∧ eval A (OperationMul (Value a) (Value b)) [] = .ok (A.mul a b)
      ∧ (A.eq b A.zero = false →
          eval A (OperationDiv (Value a) (Value b)) [] = .ok (A.div a b)) := by
  refine ⟨rfl, rfl, rfl, fun h => ?_⟩
  simp [eval, h]

/-- Witness of C7 at the rational instantiation: `6 / 3 = 2` with `3` not zero, and
`5 + 3 = 8`, `5 - 3 = 2`, `5 * 3 = 15`. -/
theorem eval_arithmetic_on_constants_witness :
    ratNumeric.eq 3 ratNumeric.zero = false
      ∧ eval ratNumeric (OperationDiv (Value 6) (Value 3)) [] = .ok 2
      ∧ eval ratNumeric (OperationAdd (Value 5) (Value 3)) [] = .ok 8
      ∧ eval ratNumeric (OperationSub (Value 5) (Value 3)) [] = .ok 2
      ∧ eval ratNumeric (OperationMul (Value 5) (Value 3)) [] = .ok 15 := by
  have h3 : ratNumeric.eq 3 ratNumeric.zero = false := by decide!
  refine ⟨h3, ?_, ?_, ?_, ?_⟩
  · rw [(eval_arithmetic_on_constants ratNumeric 6 3).2.2.2 h3]
    norm_num [ratNumeric]
  · rw [(eval_arithmetic_on_constants ratNumeric 5 3).1]
    norm_num [ratNumeric]
  · rw [(eval_arithmetic_on_constants ratNumeric 5 3).2.1]
    norm_num [ratNumeric]
  · rw [(eval_arithmetic_on_constants ratNumeric 5 3).2.2.1]
    norm_num [ratNumeric]

/-- The lookup fails exactly on the names that are not keys. -/
theorem Context_find_eq_none_iff (ctx : Context T) (v : String) :
    ctx.find v = none ↔ v ∉ ctx.map Prod.fst := by
  induction ctx with
  | nil => simp [Context.find, List.lookup]
  | cons kv rest ih =>
    obtain ⟨k, val⟩ := kv
    by_cases h : v = k
    · subst h
      simp [Context.find, List.lookup]
    · have hb : (v == k) = false := by simpa using h
      simp only [Context.find, List.lookup, hb, List.map_cons, List.mem_cons, h, false_or]
      exact ih

/-- A value found under a name is an entry of the context under that name. -/
theorem Context_mem_of_find (ctx : Context T) (v : String) (val : T)
    (h : ctx.find v = some val) : (v, val) ∈ ctx := by
  induction ctx with
  | nil => simp [Context.find, List.lookup] at h
  | cons kv rest ih =>
    obtain ⟨k, w⟩ := kv
    by_cases hk : v = k
    · subst hk
      simp [Context.find, List.lookup] at h
      simp [h]
    · have hb : (v == k) = false := by simpa using hk
      simp only [Context.find, List.lookup, hb] at h
      exact List.mem_cons_of_mem _ (ih h)

/-- C8: variable lookup. For every name `v` and context `ctx`: when `v` is a key of
`ctx`, `eval(Variable v, ctx)` returns the value `ctx[v]` stored under exactly that
name; when `v` is not a key, it fails with `UndefinedVariable` carrying `v`. -/
theorem eval_variable_lookup (A : Numeric T) (v : String) (ctx : Context T) :
    (v ∈ ctx.map Prod.fst →
        ∃ val, ctx.find v = some val ∧ (v, val) ∈ ctx ∧ eval A (Variable v) ctx = .ok val)
      ∧ (v ∉ ctx.map Prod.fst →
        eval A (Variable v) ctx = .error (.UndefinedVariable v)) := by
  constructor
  · intro hk
    cases hf : ctx.find v with
    | none => exact absurd hk ((Context_find_eq_none_iff ctx v).1 hf)
    | some val =>
      refine ⟨val, rfl, ?_, ?_⟩
      · exact Context_mem_of_find ctx v val hf
      · simp [eval, hf]
  · intro hk
    have hf := (Context_find_eq_none_iff ctx v).2 hk
    simp [eval, hf]

/-- Witness of C8: in the context `{x ↦ 2}` the variable `x` evaluates to `2` and the
variable `y` fails with `UndefinedVariable "y"`. -/
theorem eval_variable_lookup_witness :
    (∃ val, Context.find [("x", (2 : ℚ))] "x" = some val ∧ ("x", val) ∈ [("x", (2 : ℚ))]
        ∧ eval ratNumeric (Variable "x") [("x", 2)] = .ok val)
      ∧ eval ratNumeric (Variable "y") [("x", 2)] = .error (.UndefinedVariable "y") :=
  ⟨(eval_variable_lookup ratNumeric "x" [("x", 2)]).1 (by decide),
   (eval_variable_lookup ratNumeric "y" [("x", 2)]).2 (by decide)⟩

/-- C9: division by zero. For all `l`, `r` and every context in which `r` evaluates to
`d`: if `d == T(0)` holds then `eval(Div(l, r))` fails with `DivisionByZero`, whatever
`l` is; if it does not hold and `l` evaluates to `n`, the result is `n / d`. In
particular `eval(Value 1 / Value 0)` fails with `DivisionByZero` in the empty context. -/
theorem eval_division_by_zero (A : Numeric T) (l r : Expression T) (ctx : Context T)
    (d : T) (hr : eval A r ctx = .ok d) :
    (A.eq d A.zero = true → eval A (OperationDiv l r) ctx = .error .DivisionByZero)
      ∧ (A.eq d A.zero = false → ∀ n, eval A l ctx = .ok n →
          eval A (OperationDiv l r) ctx = .ok (A.div n d))
      ∧ (A.eq A.zero A.zero = true →
          eval A (OperationDiv (Value A.one) (Value A.zero)) [] = .error .DivisionByZero) := by
  refine ⟨fun hz => ?_, fun hz n hl => ?_, fun hz => ?_⟩
  · simp [eval, hr, hz]
  · simp [eval, hr, hz, hl]
  · simp [eval, hz]

/-- Witness of C9 at the rational instantiation: `1 / 0` fails with `DivisionByZero`
even under an undefined numerator, and `6 / 3` is `2`. -/
theorem eval_division_by_zero_witness :
    eval ratNumeric (OperationDiv (Value 1) (Value 0)) [] = .error .DivisionByZero
      ∧ eval ratNumeric (OperationDiv (Variable "u") (Value 0)) [] = .error .DivisionByZero
      ∧ eval ratNumeric (OperationDiv (Value 6) (Value 3)) [] = .ok 2 := by
  refine ⟨?_, ?_, ?_⟩
  · exact (eval_division_by_zero ratNumeric (Value 1) (Value 0) [] 0 rfl).1 (by decide!)
  · exact (eval_division_by_zero ratNumeric (Variable "u") (Value 0) [] 0 rfl).1 (by decide!)
  · rw [(eval_division_by_zero ratNumeric (Value 6) (Value 3) [] 3 rfl).2.1 (by decide!) 6 rfl]
    norm_num [ratNumeric]

/-- C10: canonical rendering. A binary node renders as
`"(" + to_string(l) + " " + op + " " + to_string(r) + ")"` with `op` being `+ - * / ^`
for `Add`, `Sub`, `Mul`, `Div`, `Pow`; a unary node renders as
`name + "(" + to_string(u) + ")"` with `name` being `sin cos ln exp`; a `Variable` renders
as its bare name; and in the real instantiation `Value 5 * Value 3` renders as
`(5 * 3)`. -/
theorem to_string_canonical (A : Numeric T) (l r u : Expression T) (name : String) :
    to_string A (OperationAdd l r) = "(" ++ to_string A l ++ " " ++ "+" ++ " " ++ to_string A r ++ ")"
      ∧ to_string A (OperationSub l r)
          = "(" ++ to_string A l ++ " " ++ "-" ++ " " ++ to_string A r ++ ")"
      ∧ to_string A (OperationMul l r)
          = "(" ++ to_string A l ++ " " ++ "*" ++ " " ++ to_string A r ++ ")"
      ∧ to_string A (OperationDiv l r)
          = "(" ++ to_string A l ++ " " ++ "/" ++ " " ++ to_string A r ++ ")"
      ∧ to_string A (OperationPow l r)
          = "(" ++ to_string A l ++ " " ++ "^" ++ " " ++ to_string A r ++ ")"
      ∧ to_string A (OperationSin u) = "sin" ++ "(" ++ to_string A u ++ ")"
      ∧ to_string A (OperationCos u) = "cos" ++ "(" ++ to_string A u ++ ")"
      ∧ to_string A (OperationLn u) = "ln" ++ "(" ++ to_string A u ++ ")"
      ∧ to_string A (OperationExp u) = "exp" ++ "(" ++ to_string A u ++ ")"
      ∧ to_string A (Variable name) = name
      ∧ to_string ratNumeric (OperationMul (Value 5) (Value 3)) = "(5 * 3)" := by
  have sep : ∀ (a op b : String), a ++ " " ++ op ++ " " ++ b = a ++ (" " ++ op ++ " ") ++ b := by
    intro a op b
    simp only [String.append_assoc]
  refine ⟨?_, ?_, ?_, ?_, ?_, ?_, ?_, ?_, ?_, rfl, by decide⟩
  · rw [sep]; rfl
  · rw [sep]; rfl
  · rw [sep]; rfl
  · rw [sep]; rfl
  · rw [sep]; rfl
  · simp only [to_string, String.append_assoc]; rfl
  · simp only [to_string, String.append_assoc]; rfl
  · simp only [to_string, String.append_assoc]; rfl
  · simp only [to_string, String.append_assoc]; rfl

end Expression

namespace Parser

variable {T : Type}

/-! ### The scanning primitives in terms of the text seen -/

theorem skip_whitespace_loop_drop (input : List Char) :
    ∀ (n pos : Nat), input.length - pos ≤ n →
      input.drop (skip_whitespace_loop input n pos) = (input.drop pos).dropWhile isspace := by
  intro n
  induction n with
  | zero =>
    intro pos h
    have hle : input.length ≤ pos := by omega
    simp [skip_whitespace_loop, List.drop_eq_nil_of_le hle]
  | succ n ih =>
    intro pos h
    unfold skip_whitespace_loop
    cases hc : input[pos]? with
    | none =>
      have hle : input.length ≤ pos := List.getElem?_eq_none_iff.1 hc
      simp [List.drop_eq_nil_of_le hle]
    | some c =>
      obtain ⟨hlt, hget⟩ := List.getElem?_eq_some_iff.1 hc
      have hd : input.drop pos = c :: input.drop (pos + 1) := by
        rw [List.drop_eq_getElem_cons hlt, hget]
      by_cases hs : isspace c = true
      · simp only [hs, if_true, hd, List.dropWhile_cons]
        exact ih (pos + 1) (by omega)
      · simp only [hs, if_false]
        conv_rhs => rw [hd, List.dropWhile_cons, if_neg hs]
        exact hd

/-- After `skip_whitespace` the text from the cursor on is the text seen before. -/
theorem skip_whitespace_drop (p : Parser) :
    p.skip_whitespace.input = p.input ∧
      p.skip_whitespace.input.drop p.skip_whitespace.pos
        = (p.input.drop p.pos).dropWhile isspace :=
  ⟨rfl, skip_whitespace_loop_drop p.input _ p.pos (Nat.le_refl _)⟩

theorem getElem?_eq_head?_drop (input : List Char) (pos : Nat) :
    input[pos]? = (input.drop pos).head? := by
  simp

theorem dropWhile_isspace_idem (l : List Char) :
    (l.dropWhile isspace).dropWhile isspace = l.dropWhile isspace :=
  List.dropWhile_idempotent isspace l

theorem Sees_skip_whitespace (p : Parser) (s : List Char) (h : Sees p s) :
    Sees p.skip_whitespace s := by
  unfold Sees at *
  rw [(skip_whitespace_drop p).2, dropWhile_isspace_idem, h]

/-- The method `peek` returns the first character seen, or `\0` at the end, and the
text seen stays the same. -/
theorem peek_spec (p : Parser) (s : List Char) (h : Sees p s) :
    ∃ q, p.peek = ((firstChar s).getD (Char.ofNat 0), q) ∧ Sees q s := by
  have hd := (skip_whitespace_drop p).2
  have hs := Sees_skip_whitespace p s h
  unfold Sees at h
  unfold peek
  simp only [getElem?_eq_head?_drop, hd, h, firstChar]
  cases hh : (s.dropWhile isspace).head? with
  | none => exact ⟨_, rfl, hs⟩
  | some c => exact ⟨_, rfl, hs⟩

/-- The method `consume` returns the first character seen and leaves what follows it. -/
theorem consume_spec (p : Parser) (s rest : List Char) (c : Char) (h : Sees p s)
    (hc : s.dropWhile isspace = c :: rest) :
    ∃ q, p.consume = .ok (c, q) ∧ Sees q rest := by
  have hd := (skip_whitespace_drop p).2
  unfold Sees at h
  rw [h, hc] at hd
  unfold consume
  simp only [getElem?_eq_head?_drop, hd, List.head?_cons]
  refine ⟨_, rfl, ?_⟩
  unfold Sees
  have : List.drop (p.skip_whitespace.pos + 1) p.skip_whitespace.input = rest := by
    rw [← List.drop_drop, hd]
    rfl
  simp only [this]

/-- The method `match` on the expected character: it is consumed. -/
theorem match_hit (p : Parser) (s rest : List Char) (c : Char) (h : Sees p s)
    (hc : s.dropWhile isspace = c :: rest) :
    ∃ q, p.match_ c = (true, q) ∧ Sees q rest := by
  have hd := (skip_whitespace_drop p).2
  unfold Sees at h
  rw [h, hc] at hd
  unfold match_
  simp only [getElem?_eq_head?_drop, hd, List.head?_cons, if_true]
  refine ⟨_, rfl, ?_⟩
  unfold Sees
  have : List.drop (p.skip_whitespace.pos + 1) p.skip_whitespace.input = rest := by
    rw [← List.drop_drop, hd]
    rfl
  simp only [this]

/-- The method `match` on another character or at the end: the text seen stays. -/
theorem match_miss (p : Parser) (s : List Char) (c : Char) (h : Sees p s)
    (hc : firstChar s ≠ some c) :
    ∃ q, p.match_ c = (false, q) ∧ Sees q s := by
  have hd := (skip_whitespace_drop p).2
  have hs := Sees_skip_whitespace p s h
  unfold Sees at h
  unfold match_
  simp only [getElem?_eq_head?_drop, hd, h]
  unfold firstChar at hc
  cases hh : (s.dropWhile isspace).head? with
  | none => exact ⟨_, rfl, hs⟩
  | some d =>
    have hne : d ≠ c := fun e => hc (by rw [hh, e])
    simp only [hne, if_false]
    exact ⟨_, rfl, hs⟩

end Parser

namespace Parser

variable {T : Type}

/-! ### The grammar levels as rules on the text seen -/

theorem factor_atom (A : Numeric T) (n : Nat) (s rest : List Char) (e : Expression T)
    (h : Yields (parse_primary A n) s e rest) (hc : firstChar rest ≠ some '^') :
    Yields (parse_factor A (n + 1)) s e rest := by
  intro p hp
  obtain ⟨q1, h1, hq1⟩ := h p hp
  obtain ⟨q2, h2, hq2⟩ := match_miss q1 rest '^' hq1 hc
  refine ⟨q2, ?_, hq2⟩
  simp only [parse_factor, h1, h2]
  rfl

theorem factor_pow (A : Numeric T) (n : Nat) (s r1 r2 r3 : List Char) (e1 e2 : Expression T)
    (h : Yields (parse_primary A n) s e1 r1) (hc : r1.dropWhile isspace = '^' :: r2)
    (h' : Yields (parse_factor A n) r2 e2 r3) :
    Yields (parse_factor A (n + 1)) s (.OperationPow e1 e2) r3 := by
  intro p hp
  obtain ⟨q1, h1, hq1⟩ := h p hp
  obtain ⟨q2, h2, hq2⟩ := match_hit q1 r1 r2 '^' hq1 hc
  obtain ⟨q3, h3, hq3⟩ := h' q2 hq2
  refine ⟨q3, ?_, hq3⟩
  simp only [parse_factor, h1, h2, h3]
  rfl

theorem term_loop_done (A : Numeric T) (n : Nat) (s : List Char) (left : Expression T)
    (hm : firstChar s ≠ some '*') (hd : firstChar s ≠ some '/') :
    Yields (parse_term_loop A (n + 1) left) s left s := by
  intro p hp
  obtain ⟨q1, h1, hq1⟩ := match_miss p s '*' hp hm
  obtain ⟨q2, h2, hq2⟩ := match_miss q1 s '/' hq1 hd
  refine ⟨q2, ?_, hq2⟩
  simp only [parse_term_loop, h1, h2]
  rfl

theorem firstChar_of_dropWhile (s rest : List Char) (c : Char)
    (h : s.dropWhile isspace = c :: rest) : firstChar s = some c := by
  simp [firstChar, h]

theorem term_loop_mul (A : Numeric T) (n : Nat) (s r1 r2 r3 : List Char)
    (left e e' : Expression T) (hc : s.dropWhile isspace = '*' :: r1)
    (h : Yields (parse_factor A n) r1 e r2)
    (h' : Yields (parse_term_loop A n (.OperationMul left e)) r2 e' r3) :
    Yields (parse_term_loop A (n + 1) left) s e' r3 := by
  intro p hp
  obtain ⟨q1, h1, hq1⟩ := match_hit p s r1 '*' hp hc
  obtain ⟨q2, h2, hq2⟩ := h q1 hq1
  obtain ⟨q3, h3, hq3⟩ := h' q2 hq2
  refine ⟨q3, ?_, hq3⟩
  simp only [parse_term_loop, h1, h2, h3]
  rfl

theorem term_loop_div (A : Numeric T) (n : Nat) (s r1 r2 r3 : List Char)
    (left e e' : Expression T) (hc : s.dropWhile isspace = '/' :: r1)
    (h : Yields (parse_factor A n) r1 e r2)
    (h' : Yields (parse_term_loop A n (.OperationDiv left e)) r2 e' r3) :
    Yields (parse_term_loop A (n + 1) left) s e' r3 := by
  intro p hp
  have hne : firstChar s ≠ some '*' := by
    rw [firstChar_of_dropWhile s r1 '/' hc]; decide
  obtain ⟨q0, h0, hq0⟩ := match_miss p s '*' hp hne
  obtain ⟨q1, h1, hq1⟩ := match_hit q0 s r1 '/' hq0 hc
  obtain ⟨q2, h2, hq2⟩ := h q1 hq1
  obtain ⟨q3, h3, hq3⟩ := h' q2 hq2
  refine ⟨q3, ?_, hq3⟩
  simp only [parse_term_loop, h0, h1, h2, h3]
  rfl

theorem term_rule (A : Numeric T) (n : Nat) (s r1 r2 : List Char) (l e : Expression T)
    (h : Yields (parse_factor A n) s l r1)
    (h' : Yields (parse_term_loop A n l) r1 e r2) :
    Yields (parse_term A (n + 1)) s e r2 := by
  intro p hp
  obtain ⟨q1, h1, hq1⟩ := h p hp
  obtain ⟨q2, h2, hq2⟩ := h' q1 hq1
  refine ⟨q2, ?_, hq2⟩
  simp only [parse_term, h1, h2]

theorem expression_loop_done (A : Numeric T) (n : Nat) (s : List Char) (left : Expression T)
    (hm : firstChar s ≠ some '+') (hd : firstChar s ≠ some '-') :
    Yields (parse_expression_loop A (n + 1) left) s left s := by
  intro p hp
  obtain ⟨q1, h1, hq1⟩ := match_miss p s '+' hp hm
  obtain ⟨q2, h2, hq2⟩ := match_miss q1 s '-' hq1 hd
  refine ⟨q2, ?_, hq2⟩
  simp only [parse_expression_loop, h1, h2]
  rfl

theorem expression_loop_add (A : Numeric T) (n : Nat) (s r1 r2 r3 : List Char)
    (left e e' : Expression T) (hc : s.dropWhile isspace = '+' :: r1)
    (h : Yields (parse_term A n) r1 e r2)
    (h' : Yields (parse_expression_loop A n (.OperationAdd left e)) r2 e' r3) :
    Yields (parse_expression_loop A (n + 1) left) s e' r3 := by
  intro p hp
  obtain ⟨q1, h1, hq1⟩ := match_hit p s r1 '+' hp hc
  obtain ⟨q2, h2, hq2⟩ := h q1 hq1
  obtain ⟨q3, h3, hq3⟩ := h' q2 hq2
  refine ⟨q3, ?_, hq3⟩
  simp only [parse_expression_loop, h1, h2, h3]
  rfl

theorem expression_loop_sub (A : Numeric T) (n : Nat) (s r1 r2 r3 : List Char)
    (left e e' : Expression T) (hc : s.dropWhile isspace = '-' :: r1)
    (h : Yields (parse_term A n) r1 e r2)
    (h' : Yields (parse_expression_loop A n (.OperationSub left e)) r2 e' r3) :
    Yields (parse_expression_loop A (n + 1) left) s e' r3 := by
  intro p hp
  have hne : firstChar s ≠ some '+' := by
    rw [firstChar_of_dropWhile s r1 '-' hc]; decide
  obtain ⟨q0, h0, hq0⟩ := match_miss p s '+' hp hne
  obtain ⟨q1, h1, hq1⟩ := match_hit q0 s r1 '-' hq0 hc
  obtain ⟨q2, h2, hq2⟩ := h q1 hq1
  obtain ⟨q3, h3, hq3⟩ := h' q2 hq2
  refine ⟨q3, ?_, hq3⟩
  simp only [parse_expression_loop, h0, h1, h2, h3]
  rfl

theorem expression_rule (A : Numeric T) (n : Nat) (s r1 r2 : List Char) (l e : Expression T)
    (h : Yields (parse_term A n) s l r1)
    (h' : Yields (parse_expression_loop A n l) r1 e r2) :
    Yields (parse_expression A (n + 1)) s e r2 := by
  intro p hp
  obtain ⟨q1, h1, hq1⟩ := h p hp
  obtain ⟨q2, h2, hq2⟩ := h' q1 hq1
  refine ⟨q2, ?_, hq2⟩
  simp only [parse_expression, h1, h2]

/-- What `parse_expression` yields on the whole input is what `from_string` returns. -/
theorem from_string_of_yields (A : Numeric T) (input : String) (e : Expression T)
    (rest : List Char)
    (h : Yields (parse_expression A (4 * input.toList.length + 4)) input.toList e rest) :
    Expression.from_string A input = .ok e := by
  obtain ⟨q, hq, _⟩ := h { input := input.toList, pos := 0 } rfl
  simp only [Expression.from_string, parse, hq]

end Parser

namespace Parser

variable {T : Type}

/-! ### Operands -/

/-- The loop condition of `parse_number` in terms of the first character seen. -/
theorem peek_digit_or_dot_spec (p : Parser) (s : List Char) (h : Sees p s) :
    ∃ q, p.peek_digit_or_dot
        = (isdigit ((firstChar s).getD (Char.ofNat 0))
            || (firstChar s).getD (Char.ofNat 0) == '.', q) ∧ Sees q s := by
  obtain ⟨q1, h1, hq1⟩ := peek_spec p s h
  obtain ⟨q2, h2, hq2⟩ := peek_spec q1 s hq1
  unfold peek_digit_or_dot
  simp only [h1]
  by_cases hd : isdigit ((firstChar s).getD (Char.ofNat 0)) = true
  · exact ⟨q1, by simp [hd], hq1⟩
  · exact ⟨q2, by simp [hd, h2], hq2⟩

theorem dropWhile_isspace_cons (c : Char) (l : List Char) (h : isspace c = false) :
    (c :: l).dropWhile isspace = c :: l := by
  simp [List.dropWhile_cons, h]

theorem isspace_of_digit_or_dot (c : Char) (h : isdigit c = true ∨ c = '.') :
    isspace c = false := by
  rcases h with h | h
  · simp only [isdigit, Bool.and_eq_true, decide_eq_true_eq] at h
    have h1 : ¬ c.toNat = 32 := by omega
    have h2 : ¬ c.toNat ≤ 13 := by omega
    simp [isspace, h1, h2]
  · subst h
    decide

/-- The loop of `parse_number` collects a run of digits and dots that is followed by
neither a digit nor a dot. -/
theorem parse_number_loop_spec (tail : List Char)
    (hd : isdigit ((firstChar tail).getD (Char.ofNat 0)) = false)
    (hdot : ((firstChar tail).getD (Char.ofNat 0) == '.') = false) :
    ∀ (t : List Char), (∀ c ∈ t, isdigit c = true ∨ c = '.') →
      ∀ (n : Nat) (num : List Char) (p : Parser), t.length ≤ n → Sees p (t ++ tail) →
        ∃ q, parse_number_loop n num p = .ok (num ++ t, q) ∧ Sees q tail := by
  intro t
  induction t with
  | nil =>
    intro _ n num p _ hp
    simp only [List.nil_append] at hp
    obtain ⟨q, hq, hs⟩ := peek_digit_or_dot_spec p tail hp
    cases n with
    | zero =>
      refine ⟨q, ?_, hs⟩
      simp [parse_number_loop, hq]
    | succ n =>
      refine ⟨q, ?_, hs⟩
      simp [parse_number_loop, hq, hd, hdot]
  | cons c t ih =>
    intro hall n num p hn hp
    have hc : isdigit c = true ∨ c = '.' := hall c (List.mem_cons_self _ _)
    have hsp : isspace c = false := isspace_of_digit_or_dot c hc
    have hdw : ((c :: t) ++ tail).dropWhile isspace = c :: (t ++ tail) := by
      rw [List.cons_append]
      exact dropWhile_isspace_cons c _ hsp
    have hfc : firstChar ((c :: t) ++ tail) = some c := firstChar_of_dropWhile _ _ _ hdw
    obtain ⟨q1, h1, hq1⟩ := peek_digit_or_dot_spec p _ hp
    obtain ⟨q2, h2, hq2⟩ := consume_spec q1 _ (t ++ tail) c hq1 hdw
    cases n with
    | zero => simp at hn
    | succ n =>
      obtain ⟨q3, h3, hq3⟩ := ih (fun d hd' => hall d (List.mem_cons_of_mem _ hd')) n
        (num ++ [c]) q2 (by simpa using hn) hq2
      refine ⟨q3, ?_, hq3⟩
      have hcond : (isdigit c || c == '.') = true := by
        rcases hc with hc | hc
        · simp [hc]
        · simp [hc]
      simp only [parse_number_loop, h1, hfc, Option.getD_some, hcond, if_true, h2, h3]
      simp

theorem Sees_length_le (p : Parser) (t tail : List Char) (c : Char) (hc : isspace c = false)
    (h : Sees p ((c :: t) ++ tail)) : (c :: t).length ≤ p.input.length - p.pos := by
  unfold Sees at h
  rw [List.cons_append, dropWhile_isspace_cons c _ hc] at h
  have h1 : ((p.input.drop p.pos).dropWhile isspace).length ≤ (p.input.drop p.pos).length :=
    (List.dropWhile_sublist isspace).length_le
  rw [h] at h1
  simp only [List.length_cons, List.length_append, List.length_drop] at h1
  simp only [List.length_cons]
  omega

/-- The method `parse_number` on a run of digits and dots that `std::stod` converts. -/
theorem parse_number_spec (A : Numeric T) (t tail : List Char) (v : T)
    (hne : t ≠ []) (hall : ∀ c ∈ t, isdigit c = true ∨ c = '.')
    (hv : stod A t = .ok v)
    (hd : isdigit ((firstChar tail).getD (Char.ofNat 0)) = false)
    (hdot : ((firstChar tail).getD (Char.ofNat 0) == '.') = false) :
    Yields (parse_number A) (t ++ tail) (.Value v) tail := by
  intro p hp
  cases t with
  | nil => exact absurd rfl hne
  | cons c t =>
    have hsp : isspace c = false :=
      isspace_of_digit_or_dot c (hall c (List.mem_cons_self _ _))
    have hlen := Sees_length_le p t tail c hsp hp
    obtain ⟨q, hq, hs⟩ := parse_number_loop_spec tail hd hdot (c :: t) hall
      (p.input.length - p.pos) [] p hlen hp
    refine ⟨q, ?_, hs⟩
    simp only [parse_number, hq, List.nil_append, hv]

/-- The method `parse_variable` on a character that is not whitespace. -/
theorem parse_variable_spec (c : Char) (tail : List Char) (hc : isspace c = false) :
    Yields (parse_variable (T := T)) (c :: tail) (.Variable (String.mk [c])) tail := by
  intro p hp
  obtain ⟨q, hq, hs⟩ := consume_spec p _ tail c hp (dropWhile_isspace_cons c tail hc)
  refine ⟨q, ?_, hs⟩
  simp only [parse_variable, hq]

/-- The method `parse_primary` on an operand followed by neither a digit nor a dot. -/
theorem primary_operand (A : Numeric T) (n : Nat) (a : String) (e : Expression T)
    (tail : List Char) (ha : Operand A a e)
    (hd : isdigit ((firstChar tail).getD (Char.ofNat 0)) = false)
    (hdot : ((firstChar tail).getD (Char.ofNat 0) == '.') = false) :
    Yields (parse_primary A (n + 1)) (a.toList ++ tail) e tail := by
  intro p hp
  cases ha with
  | x =>
    have hfc : firstChar ("x".toList ++ tail) = some 'x' := by
      apply firstChar_of_dropWhile _ tail
      exact dropWhile_isspace_cons 'x' tail (by decide)
    obtain ⟨q1, h1, hq1⟩ := match_miss p _ '(' hp (by rw [hfc]; decide)
    obtain ⟨q2, h2, hq2⟩ := peek_spec q1 _ hq1
    obtain ⟨q3, h3, hq3⟩ := peek_spec q2 _ hq2
    obtain ⟨q4, h4, hq4⟩ := parse_variable_spec (T := T) 'x' tail (by decide) q3 hq3
    refine ⟨q4, ?_, hq4⟩
    simp only [parse_primary, h1, h2, h3, hfc, Option.getD_some]
    simp [h4, isalpha]
  | y =>
    have hfc : firstChar ("y".toList ++ tail) = some 'y' := by
      apply firstChar_of_dropWhile _ tail
      exact dropWhile_isspace_cons 'y' tail (by decide)
    obtain ⟨q1, h1, hq1⟩ := match_miss p _ '(' hp (by rw [hfc]; decide)
    obtain ⟨q2, h2, hq2⟩ := peek_spec q1 _ hq1
    obtain ⟨q3, h3, hq3⟩ := peek_spec q2 _ hq2
    obtain ⟨q4, h4, hq4⟩ := parse_variable_spec (T := T) 'y' tail (by decide) q3 hq3
    refine ⟨q4, ?_, hq4⟩
    simp only [parse_primary, h1, h2, h3, hfc, Option.getD_some]
    simp [h4, isalpha]
  | number _ value nonempty digits converts =>
    cases ht : a.toList with
    | nil => exact absurd ht nonempty
    | cons c t =>
      rw [ht] at hp digits converts
      have hc : isdigit c = true ∨ c = '.' := digits c (List.mem_cons_self _ _)
      have hsp : isspace c = false := isspace_of_digit_or_dot c hc
      have hfc : firstChar ((c :: t) ++ tail) = some c := by
        apply firstChar_of_dropWhile _ (t ++ tail)
        rw [List.cons_append]
        exact dropWhile_isspace_cons c _ hsp
      have hparen : c ≠ '(' := by
        rcases hc with hc | hc
        · intro h; subst h; revert hc; decide
        · subst hc; decide
      have halpha : isalpha c = false := by
        rcases hc with hc | hc
        · simp only [isdigit, Bool.and_eq_true, decide_eq_true_eq] at hc
          have h1 : ¬ 65 ≤ c.toNat := by omega
          have h2 : ¬ 97 ≤ c.toNat := by omega
          simp [isalpha, h1, h2]
        · subst hc; decide
      have hcond : (isdigit c || c == '.') = true := by
        rcases hc with hc | hc
        · simp [hc]
        · simp [hc]
      obtain ⟨q1, h1, hq1⟩ := match_miss p _ '(' hp
        (by rw [hfc]; exact fun h => hparen (Option.some.inj h))
      obtain ⟨q2, h2, hq2⟩ := peek_spec q1 _ hq1
      obtain ⟨q3, h3, hq3⟩ := peek_digit_or_dot_spec q2 _ hq2
      obtain ⟨q4, h4, hq4⟩ := parse_number_spec A (c :: t) tail value (List.cons_ne_nil _ _)
        digits converts hd hdot q3 hq3
      refine ⟨q4, ?_, hq4⟩
      simp only [parse_primary, h1, h2, h3, hfc, Option.getD_some]
      simp [h4, halpha, hcond]

end Parser

namespace Parser

variable {T : Type}

/-! ### Three operands and two operators -/

theorem Yields_space {α : Type} (f : Parser → Except ParseError (α × Parser))
    (s rest : List Char) (a : α) (h : Yields f s a rest) : Yields f (' ' :: s) a rest := by
  intro p hp
  apply h p
  unfold Sees at *
  rw [hp]
  rfl

theorem dropWhile_space_op (o : Char) (rest : List Char) (h : isspace o = false) :
    (' ' :: o :: rest).dropWhile isspace = o :: rest := by
  rw [List.dropWhile_cons, if_pos (by decide), dropWhile_isspace_cons o rest h]

theorem firstChar_space_op (o : Char) (rest : List Char) (h : isspace o = false) :
    firstChar (' ' :: o :: rest) = some o :=
  firstChar_of_dropWhile _ rest o (dropWhile_space_op o rest h)

theorem firstChar_nil : firstChar [] = none := rfl

theorem Operand_length {A : Numeric T} {a : String} {e : Expression T} (h : Operand A a e) :
    1 ≤ a.toList.length := by
  cases h with
  | x => decide
  | y => decide
  | number _ value nonempty digits converts =>
    cases ht : a.toList with
    | nil => exact absurd ht nonempty
    | cons c t => simp

theorem toList_three (a o1 b o2 c : String) :
    (a ++ o1 ++ b ++ o2 ++ c).toList
      = a.toList ++ (o1.toList ++ (b.toList ++ (o2.toList ++ (c.toList ++ [])))) := by
  simp [String.toList, String.data_append]

/-- An operand at the end of the input, as a factor. -/
theorem factor_last (A : Numeric T) (n : Nat) (c : String) (ec : Expression T)
    (hc : Operand A c ec) : Yields (parse_factor A (n + 2)) (c.toList ++ []) ec [] :=
  factor_atom A _ _ _ _ (primary_operand A n c ec [] hc (by decide) (by decide)) (by decide)

/-- An operand followed by an operator other than `^`, as a factor. -/
theorem factor_before (A : Numeric T) (n : Nat) (a : String) (ea : Expression T) (o : Char)
    (rest : List Char) (ha : Operand A a ea) (ho : isspace o = false)
    (hd : isdigit o = false) (hdot : (o == '.') = false) (hcaret : o ≠ '^') :
    Yields (parse_factor A (n + 2)) (a.toList ++ ' ' :: o :: rest) ea (' ' :: o :: rest) := by
  apply factor_atom
  · apply primary_operand A n a ea _ ha
    · rw [firstChar_space_op o rest ho]; exact hd
    · rw [firstChar_space_op o rest ho]; exact hdot
  · rw [firstChar_space_op o rest ho]
    exact fun h => hcaret (Option.some.inj h)

end Parser

namespace Parser

variable {T : Type}

/-- An operand at the end of the input, as a term. -/
theorem term_last (A : Numeric T) (n : Nat) (c : String) (ec : Expression T)
    (hc : Operand A c ec) : Yields (parse_term A (n + 3)) (c.toList ++ []) ec [] :=
  term_rule A _ _ _ _ _ _ (factor_last A n c ec hc)
    (term_loop_done A (n + 1) [] ec (by decide) (by decide))

/-- An operand followed by `+` or `-`, as a term. -/
theorem term_before (A : Numeric T) (n : Nat) (a : String) (ea : Expression T) (o : Char)
    (rest : List Char) (ha : Operand A a ea) (ho : o = '+' ∨ o = '-') :
    Yields (parse_term A (n + 3)) (a.toList ++ ' ' :: o :: rest) ea (' ' :: o :: rest) := by
  have hsp : isspace o = false := by rcases ho with h | h <;> subst h <;> decide
  refine term_rule A _ _ _ _ _ _
    (factor_before A n a ea o rest ha hsp ?_ ?_ ?_) (term_loop_done A (n + 1) _ ea ?_ ?_)
  · rcases ho with h | h <;> subst h <;> decide
  · rcases ho with h | h <;> subst h <;> decide
  · rcases ho with h | h <;> subst h <;> decide
  · rw [firstChar_space_op o rest hsp]
    rcases ho with h | h <;> subst h <;> decide
  · rw [firstChar_space_op o rest hsp]
    rcases ho with h | h <;> subst h <;> decide

/-- The text `a + b * c`. -/
theorem yields_add_mul (A : Numeric T) (n : Nat) (a b c : String) (ea eb ec : Expression T)
    (ha : Operand A a ea) (hb : Operand A b eb) (hc : Operand A c ec) :
    Yields (parse_expression A (n + 7))
      (a.toList ++ (" + ".toList ++ (b.toList ++ (" * ".toList ++ (c.toList ++ [])))))
      (.OperationAdd ea (.OperationMul eb ec)) [] := by
  refine expression_rule A _ _ _ _ _ _ (term_before A _ a ea '+' _ ha (Or.inl rfl))
    (expression_loop_add A _ _ _ _ _ _ _ _ (dropWhile_space_op '+' _ (by decide))
      (Yields_space _ _ _ _ (term_rule A _ _ _ _ _ _
        (factor_before A _ b eb '*' _ hb (by decide) (by decide) (by decide) (by decide))
        (term_loop_mul A _ _ _ _ _ _ _ _ (dropWhile_space_op '*' _ (by decide))
          (Yields_space _ _ _ _ (factor_last A _ c ec hc))
          (term_loop_done A _ [] _ (by decide) (by decide)))))
      (expression_loop_done A _ [] _ (by decide) (by decide)))

end Parser

namespace Parser

variable {T : Type}

/-- The text `a * b + c`. -/
theorem yields_mul_add (A : Numeric T) (n : Nat) (a b c : String) (ea eb ec : Expression T)
    (ha : Operand A a ea) (hb : Operand A b eb) (hc : Operand A c ec) :
    Yields (parse_expression A (n + 7))
      (a.toList ++ (" * ".toList ++ (b.toList ++ (" + ".toList ++ (c.toList ++ [])))))
      (.OperationAdd (.OperationMul ea eb) ec) [] := by
  refine expression_rule A _ _ _ _ _ _
    (term_rule A _ _ _ _ _ _
      (factor_before A _ a ea '*' _ ha (by decide) (by decide) (by decide) (by decide))
      (term_loop_mul A _ _ _ _ _ _ _ _ (dropWhile_space_op '*' _ (by decide))
        (Yields_space _ _ _ _
          (factor_before A _ b eb '+' _ hb (by decide) (by decide) (by decide) (by decide)))
        (term_loop_done A _ _ _
          (by rw [firstChar_space_op '+' _ (by decide)]; decide)
          (by rw [firstChar_space_op '+' _ (by decide)]; decide))))
    (expression_loop_add A _ _ _ _ _ _ _ _ (dropWhile_space_op '+' _ (by decide))
      (Yields_space _ _ _ _ (term_last A _ c ec hc))
      (expression_loop_done A _ [] _ (by decide) (by decide)))

/-- The text `b ^ c` at the end of the input, as a factor. -/
theorem factor_pow_last (A : Numeric T) (n : Nat) (b c : String) (eb ec : Expression T)
    (hb : Operand A b eb) (hc : Operand A c ec) :
    Yields (parse_factor A (n + 3)) (b.toList ++ (" ^ ".toList ++ (c.toList ++ [])))
      (.OperationPow eb ec) [] := by
  refine factor_pow A _ _ _ _ _ _ _
    (primary_operand A _ b eb _ hb ?_ ?_) (dropWhile_space_op '^' _ (by decide))
    (Yields_space _ _ _ _ (factor_last A _ c ec hc))
  · show isdigit ((firstChar (' ' :: '^' :: _)).getD (Char.ofNat 0)) = false
    rw [firstChar_space_op '^' _ (by decide)]; decide
  · show ((firstChar (' ' :: '^' :: _)).getD (Char.ofNat 0) == '.') = false
    rw [firstChar_space_op '^' _ (by decide)]; decide

/-- The text `a * b ^ c`. -/
theorem yields_mul_pow (A : Numeric T) (n : Nat) (a b c : String) (ea eb ec : Expression T)
    (ha : Operand A a ea) (hb : Operand A b eb) (hc : Operand A c ec) :
    Yields (parse_expression A (n + 7))
      (a.toList ++ (" * ".toList ++ (b.toList ++ (" ^ ".toList ++ (c.toList ++ [])))))
      (.OperationMul ea (.OperationPow eb ec)) [] := by
  refine expression_rule A _ _ _ _ _ _
    (term_rule A _ _ _ _ _ _
      (factor_before A _ a ea '*' _ ha (by decide) (by decide) (by decide) (by decide))
      (term_loop_mul A _ _ _ _ _ _ _ _ (dropWhile_space_op '*' _ (by decide))
        (Yields_space _ _ _ _ (factor_pow_last A _ b c eb ec hb hc))
        (term_loop_done A _ [] _ (by decide) (by decide))))
    (expression_loop_done A _ [] _ (by decide) (by decide))

/-- The text `a ^ b ^ c`. -/
theorem yields_pow_pow (A : Numeric T) (n : Nat) (a b c : String) (ea eb ec : Expression T)
    (ha : Operand A a ea) (hb : Operand A b eb) (hc : Operand A c ec) :
    Yields (parse_expression A (n + 7))
      (a.toList ++ (" ^ ".toList ++ (b.toList ++ (" ^ ".toList ++ (c.toList ++ [])))))
      (.OperationPow ea (.OperationPow eb ec)) [] := by
  refine expression_rule A _ _ _ _ _ _
    (term_rule A _ _ _ _ _ _
      (factor_pow A _ _ _ _ _ _ _
        (primary_operand A _ a ea _ ha ?_ ?_) (dropWhile_space_op '^' _ (by decide))
        (Yields_space _ _ _ _ (factor_pow_last A _ b c eb ec hb hc)))
      (term_loop_done A _ [] _ (by decide) (by decide)))
    (expression_loop_done A _ [] _ (by decide) (by decide))
  · show isdigit ((firstChar (' ' :: '^' :: _)).getD (Char.ofNat 0)) = false
    rw [firstChar_space_op '^' _ (by decide)]; decide
  · show ((firstChar (' ' :: '^' :: _)).getD (Char.ofNat 0) == '.') = false
    rw [firstChar_space_op '^' _ (by decide)]; decide

/-- The texts `a - b - c` and `a - b + c`. -/
theorem yields_sub_then (A : Numeric T) (n : Nat) (a b c : String) (ea eb ec : Expression T)
    (ha : Operand A a ea) (hb : Operand A b eb) (hc : Operand A c ec) :
    Yields (parse_expression A (n + 7))
        (a.toList ++ (" - ".toList ++ (b.toList ++ (" - ".toList ++ (c.toList ++ [])))))
        (.OperationSub (.OperationSub ea eb) ec) []
      ∧ Yields (parse_expression A (n + 7))
        (a.toList ++ (" - ".toList ++ (b.toList ++ (" + ".toList ++ (c.toList ++ [])))))
        (.OperationAdd (.OperationSub ea eb) ec) [] := by
  constructor
  · exact expression_rule A _ _ _ _ _ _ (term_before A _ a ea '-' _ ha (Or.inr rfl))
      (expression_loop_sub A _ _ _ _ _ _ _ _ (dropWhile_space_op '-' _ (by decide))
        (Yields_space _ _ _ _ (term_before A _ b eb '-' _ hb (Or.inr rfl)))
        (expression_loop_sub A _ _ _ _ _ _ _ _ (dropWhile_space_op '-' _ (by decide))
          (Yields_space _ _ _ _ (term_last A _ c ec hc))
          (expression_loop_done A _ [] _ (by decide) (by decide))))
  · exact expression_rule A _ _ _ _ _ _ (term_before A _ a ea '-' _ ha (Or.inr rfl))
      (expression_loop_sub A _ _ _ _ _ _ _ _ (dropWhile_space_op '-' _ (by decide))
        (Yields_space _ _ _ _ (term_before A _ b eb '+' _ hb (Or.inl rfl)))
        (expression_loop_add A _ _ _ _ _ _ _ _ (dropWhile_space_op '+' _ (by decide))
          (Yields_space _ _ _ _ (term_last A _ c ec hc))
          (expression_loop_done A _ [] _ (by decide) (by decide))))

/-- The text `a / b / c`. -/
theorem yields_div_div (A : Numeric T) (n : Nat) (a b c : String) (ea eb ec : Expression T)
    (ha : Operand A a ea) (hb : Operand A b eb) (hc : Operand A c ec) :
    Yields (parse_expression A (n + 7))
      (a.toList ++ (" / ".toList ++ (b.toList ++ (" / ".toList ++ (c.toList ++ [])))))
      (.OperationDiv (.OperationDiv ea eb) ec) [] := by
  refine expression_rule A _ _ _ _ _ _
    (term_rule A _ _ _ _ _ _
      (factor_before A _ a ea '/' _ ha (by decide) (by decide) (by decide) (by decide))
      (term_loop_div A _ _ _ _ _ _ _ _ (dropWhile_space_op '/' _ (by decide))
        (Yields_space _ _ _ _
          (factor_before A _ b eb '/' _ hb (by decide) (by decide) (by decide) (by decide)))
        (term_loop_div A _ _ _ _ _ _ _ _ (dropWhile_space_op '/' _ (by decide))
          (Yields_space _ _ _ _ (factor_last A _ c ec hc))
          (term_loop_done A _ [] _ (by decide) (by decide)))))
    (expression_loop_done A _ [] _ (by decide) (by decide))

/-- From a rule on the text of three operands and two operators to `from_string`. -/
theorem from_string_three (A : Numeric T) (a o1 b o2 c : String) (ea eb ec e : Expression T)
    (ha : Operand A a ea) (hb : Operand A b eb) (hc : Operand A c ec)
    (h : ∀ n, Yields (parse_expression A (n + 7))
      (a.toList ++ (o1.toList ++ (b.toList ++ (o2.toList ++ (c.toList ++ []))))) e []) :
    Expression.from_string A (a ++ o1 ++ b ++ o2 ++ c) = .ok e := by
  apply from_string_of_yields A _ e []
  rw [toList_three]
  have h1 := Operand_length ha
  have h2 := Operand_length hb
  have h3 := Operand_length hc
  obtain ⟨m, hm⟩ : ∃ m, 4 * (a.toList ++ (o1.toList ++ (b.toList ++ (o2.toList
      ++ (c.toList ++ []))))).length + 4 = m + 7 := by
    refine ⟨4 * (a.toList ++ (o1.toList ++ (b.toList ++ (o2.toList
      ++ (c.toList ++ []))))).length - 3, ?_⟩
    simp only [List.length_append]
    omega
  rw [hm]
  exact h m

end Parser

namespace Expression

variable {T : Type}

/-- C5: parser precedence. For all operands `a`, `b`, `c`, each a number or the variable
`x` or `y`: `"a + b * c"` parses to `Add(a, Mul(b, c))`, `"a * b + c"` parses to
`Add(Mul(a, b), c)` and `"a * b ^ c"` parses to `Mul(a, Pow(b, c))`; in the real
instantiation `parse("3 + 5 * x")` renders as `(3 + (5 * x))`. -/
theorem parse_precedence (A : Numeric T) (a b c : String) (ea eb ec : Expression T)
    (ha : Operand A a ea) (hb : Operand A b eb) (hc : Operand A c ec) :
    from_string A (a ++ " + " ++ b ++ " * " ++ c) = .ok (OperationAdd ea (OperationMul eb ec))
      ∧ from_string A (a ++ " * " ++ b ++ " + " ++ c)
          = .ok (OperationAdd (OperationMul ea eb) ec)
      ∧ from_string A (a ++ " * " ++ b ++ " ^ " ++ c)
          = .ok (OperationMul ea (OperationPow eb ec))
      ∧ (from_string ratNumeric "3 + 5 * x").map (to_string ratNumeric)
          = .ok "(3 + (5 * x))" :=
  ⟨Parser.from_string_three A a " + " b " * " c ea eb ec _ ha hb hc
      (fun n => Parser.yields_add_mul A n a b c ea eb ec ha hb hc),
   Parser.from_string_three A a " * " b " + " c ea eb ec _ ha hb hc
      (fun n => Parser.yields_mul_add A n a b c ea eb ec ha hb hc),
   Parser.from_string_three A a " * " b " ^ " c ea eb ec _ ha hb hc
      (fun n => Parser.yields_mul_pow A n a b c ea eb ec ha hb hc),
   by decide!⟩

end Expression

namespace Expression

variable {T : Type}

/-- Witness of C5 with the operands `3`, `5` and `x` in the rational instantiation. -/
theorem parse_precedence_witness :
    Operand ratNumeric "3" (Value 3) ∧ Operand ratNumeric "5" (Value 5)
      ∧ Operand ratNumeric "x" (Variable "x")
      ∧ from_string ratNumeric "3 + 5 * x"
          = .ok (OperationAdd (Value 3) (OperationMul (Value 5) (Variable "x")))
      ∧ from_string ratNumeric "3 * 5 + x"
          = .ok (OperationAdd (OperationMul (Value 3) (Value 5)) (Variable "x"))
      ∧ from_string ratNumeric "3 * 5 ^ x"
          = .ok (OperationMul (Value 3) (OperationPow (Value 5) (Variable "x"))) :=
  have h3 : Operand ratNumeric "3" (Value 3) :=
    Operand.number "3" 3 (by decide) (by decide) (by decide!)
  have h5 : Operand ratNumeric "5" (Value 5) :=
    Operand.number "5" 5 (by decide) (by decide) (by decide!)
  ⟨h3, h5, Operand.x,
   (parse_precedence ratNumeric "3" "5" "x" _ _ _ h3 h5 Operand.x).1,
   (parse_precedence ratNumeric "3" "5" "x" _ _ _ h3 h5 Operand.x).2.1,
   (parse_precedence ratNumeric "3" "5" "x" _ _ _ h3 h5 Operand.x).2.2.1⟩

/-- C6: parser associativity. For all operands `a`, `b`, `c`, each a number or the
variable `x` or `y`: `"a ^ b ^ c"` parses to `Pow(a, Pow(b, c))`, `"a - b - c"` parses to
`Sub(Sub(a, b), c)`, `"a / b / c"` parses to `Div(Div(a, b), c)` and `"a - b + c"`
parses to `Add(Sub(a, b), c)`. -/
theorem parse_associativity (A : Numeric T) (a b c : String) (ea eb ec : Expression T)
    (ha : Operand A a ea) (hb : Operand A b eb) (hc : Operand A c ec) :
    from_string A (a ++ " ^ " ++ b ++ " ^ " ++ c) = .ok (OperationPow ea (OperationPow eb ec))
      ∧ from_string A (a ++ " - " ++ b ++ " - " ++ c)
          = .ok (OperationSub (OperationSub ea eb) ec)
      ∧ from_string A (a ++ " / " ++ b ++ " / " ++ c)
          = .ok (OperationDiv (OperationDiv ea eb) ec)
      ∧ from_string A (a ++ " - " ++ b ++ " + " ++ c)
          = .ok (OperationAdd (OperationSub ea eb) ec) :=
  ⟨Parser.from_string_three A a " ^ " b " ^ " c ea eb ec _ ha hb hc
      (fun n => Parser.yields_pow_pow A n a b c ea eb ec ha hb hc),
   Parser.from_string_three A a " - " b " - " c ea eb ec _ ha hb hc
      (fun n => (Parser.yields_sub_then A n a b c ea eb ec ha hb hc).1),
   Parser.from_string_three A a " / " b " / " c ea eb ec _ ha hb hc
      (fun n => Parser.yields_div_div A n a b c ea eb ec ha hb hc),
   Parser.from_string_three A a " - " b " + " c ea eb ec _ ha hb hc
      (fun n => (Parser.yields_sub_then A n a b c ea eb ec ha hb hc).2)⟩

/-- Witness of C6 with the operands `2.5`, `y` and `10` in the rational instantiation. -/
theorem parse_associativity_witness :
    Operand ratNumeric "2.5" (Value (5 / 2)) ∧ Operand ratNumeric "y" (Variable "y")
      ∧ Operand ratNumeric "10" (Value 10)
      ∧ from_string ratNumeric "2.5 ^ y ^ 10"
          = .ok (OperationPow (Value (5 / 2)) (OperationPow (Variable "y") (Value 10)))
      ∧ from_string ratNumeric "2.5 - y - 10"
          = .ok (OperationSub (OperationSub (Value (5 / 2)) (Variable "y")) (Value 10))
      ∧ from_string ratNumeric "2.5 / y / 10"
          = .ok (OperationDiv (OperationDiv (Value (5 / 2)) (Variable "y")) (Value 10))
      ∧ from_string ratNumeric "2.5 - y + 10"
          = .ok (OperationAdd (OperationSub (Value (5 / 2)) (Variable "y")) (Value 10)) :=
  have h1 : Operand ratNumeric "2.5" (Value (5 / 2)) :=
    Operand.number "2.5" (5 / 2) (by decide) (by decide) (by decide!)
  have h10 : Operand ratNumeric "10" (Value 10) :=
    Operand.number "10" 10 (by decide) (by decide) (by decide!)
  ⟨h1, Operand.y, h10,
   (parse_associativity ratNumeric "2.5" "y" "10" _ _ _ h1 Operand.y h10).1,
   (parse_associativity ratNumeric "2.5" "y" "10" _ _ _ h1 Operand.y h10).2.1,
   (parse_associativity ratNumeric "2.5" "y" "10" _ _ _ h1 Operand.y h10).2.2.1,
   (parse_associativity ratNumeric "2.5" "y" "10" _ _ _ h1 Operand.y h10).2.2.2⟩

end Expression

namespace Expression

variable {T : Type}

/-- C11: the rule table of `simplify`. With `L = simplify(l)`, `R = simplify(r)` and
"is 0" / "is 1" meaning that `to_string` is the literal `0` / `1`:
`simplify(Add(l, r))` is `R` if `L` is 0, else `L` if `R` is 0;
`simplify(Mul(l, r))` is `Value 0` if `L` or `R` is 0, else `R` if `L` is 1, else `L` if
`R` is 1; `simplify(Sub(l, r))` is `L` if `R` is 0; `simplify(Div(l, r))` is `Value 0` if
`L` is 0, else `L` if `R` is 1; `simplify(Pow(l, r))` is `Value 1` if `R` is 0, else
`Value 0` if `L` is 0; in every other case the operator is rebuilt over `L` and `R`, and
a unary node is rebuilt over its simplified operand. In the real instantiation
`Sub(Value 5, Value 5)` stays `(5 - 5)`. -/
theorem simplify_rule_table (A : Numeric T) (l r u : Expression T) :
    (to_string A (simplify A l) = "0" → simplify A (OperationAdd l r) = simplify A r)
      ∧ (to_string A (simplify A l) ≠ "0" → to_string A (simplify A r) = "0" →
          simplify A (OperationAdd l r) = simplify A l)
      ∧ (to_string A (simplify A l) ≠ "0" → to_string A (simplify A r) ≠ "0" →
          simplify A (OperationAdd l r) = OperationAdd (simplify A l) (simplify A r))
      ∧ (to_string A (simplify A l) = "0" ∨ to_string A (simplify A r) = "0" →
          simplify A (OperationMul l r) = Value A.zero)
      ∧ (to_string A (simplify A l) ≠ "0" → to_string A (simplify A r) ≠ "0" →
          to_string A (simplify A l) = "1" → simplify A (OperationMul l r) = simplify A r)
      ∧ (to_string A (simplify A l) ≠ "0" → to_string A (simplify A r) ≠ "0" →
          to_string A (simplify A l) ≠ "1" → to_string A (simplify A r) = "1" →
          simplify A (OperationMul l r) = simplify A l)
      ∧ (to_string A (simplify A l) ≠ "0" → to_string A (simplify A r) ≠ "0" →
          to_string A (simplify A l) ≠ "1" → to_string A (simplify A r) ≠ "1" →
          simplify A (OperationMul l r) = OperationMul (simplify A l) (simplify A r))
      ∧ (to_string A (simplify A r) = "0" → simplify A (OperationSub l r) = simplify A l)
      ∧ (to_string A (simplify A r) ≠ "0" →
          simplify A (OperationSub l r) = OperationSub (simplify A l) (simplify A r))
      ∧ (to_string A (simplify A l) = "0" → simplify A (OperationDiv l r) = Value A.zero)
      ∧ (to_string A (simplify A l) ≠ "0" → to_string A (simplify A r) = "1" →
          simplify A (OperationDiv l r) = simplify A l)
      ∧ (to_string A (simplify A l) ≠ "0" → to_string A (simplify A r) ≠ "1" →
          simplify A (OperationDiv l r) = OperationDiv (simplify A l) (simplify A r))
      ∧ (to_string A (simplify A r) = "0" → simplify A (OperationPow l r) = Value A.one)
      ∧ (to_string A (simplify A r) ≠ "0" → to_string A (simplify A l) = "0" →
          simplify A (OperationPow l r) = Value A.zero)
      ∧ (to_string A (simplify A r) ≠ "0" → to_string A (simplify A l) ≠ "0" →
          simplify A (OperationPow l r) = OperationPow (simplify A l) (simplify A r))
      ∧ simplify A (OperationSin u) = OperationSin (simplify A u)
      ∧ simplify A (OperationCos u) = OperationCos (simplify A u)
      ∧ simplify A (OperationLn u) = OperationLn (simplify A u)
      ∧ simplify A (OperationExp u) = OperationExp (simplify A u)
      ∧ to_string ratNumeric (simplify ratNumeric (OperationSub (Value 5) (Value 5)))
          = "(5 - 5)" := by
  refine ⟨?_, ?_, ?_, ?_, ?_, ?_, ?_, ?_, ?_, ?_, ?_, ?_, ?_, ?_, ?_, rfl, rfl, rfl, rfl,
    by decide⟩
  · intro h; simp only [simplify, h, if_true]
  · intro h1 h2; simp only [simplify, h1, h2, if_true, if_false]
  · intro h1 h2; simp only [simplify, h1, h2, if_false]
  · intro h; simp only [simplify, h, if_true]
  · intro h1 h2 h3
    simp only [simplify]
    rw [if_neg (not_or.mpr ⟨h1, h2⟩), if_pos h3]
  · intro h1 h2 h3 h4
    simp only [simplify]
    rw [if_neg (not_or.mpr ⟨h1, h2⟩), if_neg h3, if_pos h4]
  · intro h1 h2 h3 h4
    simp only [simplify]
    rw [if_neg (not_or.mpr ⟨h1, h2⟩), if_neg h3, if_neg h4]
  · intro h; simp only [simplify, h, if_true]
  · intro h; simp only [simplify, h, if_false]
  · intro h; simp only [simplify, h, if_true]
  · intro h1 h2; simp only [simplify, h1, h2, if_true, if_false]
  · intro h1 h2; simp only [simplify, h1, h2, if_false]
  · intro h; simp only [simplify, h, if_true]
  · intro h1 h2; simp only [simplify, h1, h2, if_true, if_false]
  · intro h1 h2; simp only [simplify, h1, h2, if_false]

/-- Witness of C11 in the rational instantiation: each rule that rewrites is used once,
on `0 + x`, `x + 0`, `0 * x`, `1 * x`, `x * 1`, `x - 0`, `0 / x`, `x / 1`, `x ^ 0`,
`0 ^ x`; `x + y` is rebuilt. -/
theorem simplify_rule_table_witness :
    simplify ratNumeric (OperationAdd (Value 0) (Variable "x")) = Variable "x"
      ∧ simplify ratNumeric (OperationAdd (Variable "x") (Value 0)) = Variable "x"
      ∧ simplify ratNumeric (OperationAdd (Variable "x") (Variable "y"))
          = OperationAdd (Variable "x") (Variable "y")
      ∧ simplify ratNumeric (OperationMul (Value 0) (Variable "x")) = Value 0
      ∧ simplify ratNumeric (OperationMul (Value 1) (Variable "x")) = Variable "x"
      ∧ simplify ratNumeric (OperationMul (Variable "x") (Value 1)) = Variable "x"
      ∧ simplify ratNumeric (OperationSub (Variable "x") (Value 0)) = Variable "x"
      ∧ simplify ratNumeric (OperationDiv (Value 0) (Variable "x")) = Value 0
      ∧ simplify ratNumeric (OperationDiv (Variable "x") (Value 1)) = Variable "x"
      ∧ simplify ratNumeric (OperationPow (Variable "x") (Value 0)) = Value 1
      ∧ simplify ratNumeric (OperationPow (Value 0) (Variable "x")) = Value 0 :=
  ⟨(simplify_rule_table ratNumeric (Value 0) (Variable "x") (Value 0)).1 (by decide),
   (simplify_rule_table ratNumeric (Variable "x") (Value 0) (Value 0)).2.1
     (by decide) (by decide),
   (simplify_rule_table ratNumeric (Variable "x") (Variable "y") (Value 0)).2.2.1
     (by decide) (by decide),
   (simplify_rule_table ratNumeric (Value 0) (Variable "x") (Value 0)).2.2.2.1
     (Or.inl (by decide)),
   (simplify_rule_table ratNumeric (Value 1) (Variable "x") (Value 0)).2.2.2.2.1
     (by decide) (by decide) (by decide),
   (simplify_rule_table ratNumeric (Variable "x") (Value 1) (Value 0)).2.2.2.2.2.1
     (by decide) (by decide) (by decide) (by decide),
   (simplify_rule_table ratNumeric (Variable "x") (Value 0) (Value 0)).2.2.2.2.2.2.2.1
     (by decide),
   (simplify_rule_table ratNumeric (Value 0) (Variable "x") (Value 0)).2.2.2.2.2.2.2.2.2.1
     (by decide),
   (simplify_rule_table ratNumeric (Variable "x") (Value 1) (Value 0)).2.2.2.2.2.2.2.2.2.2.1
     (by decide) (by decide),
   (simplify_rule_table ratNumeric (Variable "x") (Value 0)
     (Value 0)).2.2.2.2.2.2.2.2.2.2.2.2.1 (by decide),
   (simplify_rule_table ratNumeric (Value 0) (Variable "x")
     (Value 0)).2.2.2.2.2.2.2.2.2.2.2.2.2.1 (by decide) (by decide)⟩

end Expression

namespace Expression

variable {T : Type}

theorem diff_bounded_eq (A : Numeric T) (x : String) :
    ∀ (e : Expression T) (n : Nat), height e ≤ n → diff_bounded A n e x = some (diff A e x) := by
  intro e
  induction e with
  | Value value => intro n h; cases n with
    | zero => simp [height] at h
    | succ n => rfl
  | Variable name => intro n h; cases n with
    | zero => simp [height] at h
    | succ n => rfl
  | OperationAdd l r ihl ihr | OperationMul l r ihl ihr | OperationSub l r ihl ihr
  | OperationDiv l r ihl ihr | OperationPow l r ihl ihr =>
    intro n h
    cases n with
    | zero => simp [height] at h
    | succ n =>
      simp only [height, Nat.add_le_add_iff_right, max_le_iff] at h
      simp only [diff_bounded, ihl n h.1, ihr n h.2, diff]
  | OperationSin u ih | OperationCos u ih | OperationLn u ih | OperationExp u ih =>
    intro n h
    cases n with
    | zero => simp [height] at h
    | succ n =>
      simp only [height, Nat.add_le_add_iff_right] at h
      simp only [diff_bounded, ih n h, diff]

theorem to_string_bounded_eq (A : Numeric T) :
    ∀ (e : Expression T) (n : Nat), height e ≤ n →
      to_string_bounded A n e = some (to_string A e) := by
  intro e
  induction e with
  | Value value => intro n h; cases n with
    | zero => simp [height] at h
    | succ n => rfl
  | Variable name => intro n h; cases n with
    | zero => simp [height] at h
    | succ n => rfl
  | OperationAdd l r ihl ihr | OperationMul l r ihl ihr | OperationSub l r ihl ihr
  | OperationDiv l r ihl ihr | OperationPow l r ihl ihr =>
    intro n h
    cases n with
    | zero => simp [height] at h
    | succ n =>
      simp only [height, Nat.add_le_add_iff_right, max_le_iff] at h
      simp only [to_string_bounded, ihl n h.1, ihr n h.2, to_string]
  | OperationSin u ih | OperationCos u ih | OperationLn u ih | OperationExp u ih =>
    intro n h
    cases n with
    | zero => simp [height] at h
    | succ n =>
      simp only [height, Nat.add_le_add_iff_right] at h
      simp only [to_string_bounded, ih n h, to_string]

theorem simplify_bounded_eq (A : Numeric T) :
    ∀ (e : Expression T) (n : Nat), height e ≤ n →
      simplify_bounded A n e = some (simplify A e) := by
  intro e
  induction e with
  | Value value => intro n h; cases n with
    | zero => simp [height] at h
    | succ n => rfl
  | Variable name => intro n h; cases n with
    | zero => simp [height] at h
    | succ n => rfl
  | OperationAdd l r ihl ihr | OperationMul l r ihl ihr | OperationSub l r ihl ihr
  | OperationDiv l r ihl ihr | OperationPow l r ihl ihr =>
    intro n h
    cases n with
    | zero => simp [height] at h
    | succ n =>
      simp only [height, Nat.add_le_add_iff_right, max_le_iff] at h
      simp only [simplify_bounded, ihl n h.1, ihr n h.2, simplify]
  | OperationSin u ih | OperationCos u ih | OperationLn u ih | OperationExp u ih =>
    intro n h
    cases n with
    | zero => simp [height] at h
    | succ n =>
      simp only [height, Nat.add_le_add_iff_right] at h
      simp only [simplify_bounded, ih n h, simplify]

/-- C12: totality of the tree transforms. For every expression `e` and every variable
name `x`, `diff(e, x)`, `simplify(e)` and `to_string(e)` return a result and never fail:
their calls go only into the operands of a node, so a depth of `height e` nested calls
is enough for each of them to return its result. -/
theorem tree_transforms_total (A : Numeric T) (e : Expression T) (x : String) (n : Nat)
    (h : height e ≤ n) :
    diff_bounded A n e x = some (diff A e x)
      ∧ simplify_bounded A n e = some (simplify A e)
      ∧ to_string_bounded A n e = some (to_string A e) :=
  ⟨diff_bounded_eq A x e n h, simplify_bounded_eq A e n h, to_string_bounded_eq A e n h⟩

/-- Witness of C12 on `sin(x) * (x + 0)`, a tree of height three. -/
theorem tree_transforms_total_witness :
    height (OperationMul (OperationSin (Variable "x"))
        (OperationAdd (Variable "x") (Value (0 : ℚ)))) ≤ 3
      ∧ diff_bounded ratNumeric 3 (OperationMul (OperationSin (Variable "x"))
          (OperationAdd (Variable "x") (Value 0))) "x"
        = some (diff ratNumeric (OperationMul (OperationSin (Variable "x"))
          (OperationAdd (Variable "x") (Value 0))) "x")
      ∧ simplify_bounded ratNumeric 3 (OperationMul (OperationSin (Variable "x"))
          (OperationAdd (Variable "x") (Value 0)))
        = some (OperationMul (OperationSin (Variable "x")) (Variable "x"))
      ∧ to_string_bounded ratNumeric 3 (OperationMul (OperationSin (Variable "x"))
          (OperationAdd (Variable "x") (Value 0)))
        = some "(sin(x) * (x + 0))" :=
  have h := tree_transforms_total ratNumeric (OperationMul (OperationSin (Variable "x"))
    (OperationAdd (Variable "x") (Value 0))) "x" 3 (by decide)
  ⟨by decide, h.1, h.2.1.trans (by decide), h.2.2.trans (by decide)⟩

end Expression

namespace Parser

variable {T : Type}

/-! ### The scanning primitives as functions of the next character -/

theorem skip_whitespace_loop_ge (input : List Char) :
    ∀ (n pos : Nat), pos ≤ skip_whitespace_loop input n pos
      ∧ (pos ≤ input.length → skip_whitespace_loop input n pos ≤ input.length) := by
  intro n
  induction n with
  | zero => intro pos; exact ⟨Nat.le_refl _, fun h => h⟩
  | succ n ih =>
    intro pos
    unfold skip_whitespace_loop
    cases hc : input[pos]? with
    | none => exact ⟨Nat.le_refl _, fun h => h⟩
    | some c =>
      obtain ⟨hlt, _⟩ := List.getElem?_eq_some_iff.1 hc
      by_cases hs : isspace c = true
      · simp only [hs, if_true]
        exact ⟨Nat.le_trans (Nat.le_succ _) (ih (pos + 1)).1, fun _ => (ih (pos + 1)).2 hlt⟩
      · simp only [hs, if_false]
        exact ⟨Nat.le_refl _, fun h => h⟩

theorem Forward_refl (p : Parser) : Forward p p :=
  ⟨rfl, Nat.le_refl _, fun h => h⟩

theorem Forward_trans {p q r : Parser} (h1 : Forward p q) (h2 : Forward q r) : Forward p r :=
  ⟨h2.1.trans h1.1, Nat.le_trans h1.2.1 h2.2.1, fun h => by
    have := h2.2.2 (by rw [h1.1]; exact h1.2.2 h)
    rwa [h1.1] at this⟩

theorem Forward_remaining {p q : Parser} (h : Forward p q) : q.remaining ≤ p.remaining := by
  unfold remaining
  rw [h.1]
  have := h.2.1
  omega

theorem Forward_skip_whitespace (p : Parser) : Forward p p.skip_whitespace :=
  ⟨rfl, (skip_whitespace_loop_ge p.input _ p.pos).1, (skip_whitespace_loop_ge p.input _ p.pos).2⟩

/-- The next character is the one under the cursor after `skip_whitespace`. -/
theorem next_eq_getElem? (p : Parser) :
    p.next = p.skip_whitespace.input[p.skip_whitespace.pos]? := by
  rw [getElem?_eq_head?_drop, (skip_whitespace_drop p).2]
  rfl

theorem next_not_space (p : Parser) (c : Char) (h : p.next = some c) : isspace c = false := by
  have := List.head?_dropWhile_not isspace (p.input.drop p.pos)
  unfold next firstChar at h
  rw [h] at this
  simpa using this

theorem skip_whitespace_loop_stop (input : List Char) (n pos : Nat)
    (h : ∀ c, input[pos]? = some c → isspace c = false) :
    skip_whitespace_loop input n pos = pos := by
  cases n with
  | zero => rfl
  | succ n =>
    unfold skip_whitespace_loop
    cases hc : input[pos]? with
    | none => rfl
    | some c => simp [h c hc]

/-- A second `skip_whitespace` changes nothing. -/
theorem skip_whitespace_idem (p : Parser) :
    p.skip_whitespace.skip_whitespace = p.skip_whitespace := by
  have h : ∀ c, p.skip_whitespace.input[p.skip_whitespace.pos]? = some c → isspace c = false := by
    intro c hc
    rw [← next_eq_getElem?] at hc
    exact next_not_space p c hc
  show ({ input := p.skip_whitespace.input,
          pos := skip_whitespace_loop p.skip_whitespace.input
            (p.skip_whitespace.input.length - p.skip_whitespace.pos) p.skip_whitespace.pos }
        : Parser) = p.skip_whitespace
  rw [skip_whitespace_loop_stop _ _ _ h]

theorem next_skip_whitespace (p : Parser) : p.skip_whitespace.next = p.next := by
  rw [next_eq_getElem?, skip_whitespace_idem, ← next_eq_getElem?]

/-- The method `peek` returns the next character, or `\0` when there is none, and
leaves the state reached by `skip_whitespace`. -/
theorem peek_eq (p : Parser) : p.peek = (p.next.getD (Char.ofNat 0), p.skip_whitespace) := by
  unfold peek
  simp only [← next_eq_getElem?]
  cases p.next <;> rfl

/-- The method `consume` returns the next character and moves just past it; it throws
when there is none. -/
theorem consume_eq (p : Parser) :
    p.consume = match p.next with
      | none => .error .UnexpectedEndOfInput
      | some c => .ok (c, p.advance) := by
  unfold consume
  simp only [← next_eq_getElem?]
  cases p.next <;> rfl

/-- The method `match` moves just past the next character when it is the expected one,
and otherwise leaves the state reached by `skip_whitespace`. -/
theorem match_eq (p : Parser) (expected : Char) :
    p.match_ expected
      = if p.next = some expected then (true, p.advance) else (false, p.skip_whitespace) := by
  unfold match_
  simp only [← next_eq_getElem?]
  cases h : p.next with
  | none => simp
  | some c =>
    by_cases hc : c = expected
    · simp [hc, advance]
    · simp [hc]

theorem Forward_advance (p : Parser) (c : Char) (h : p.next = some c) :
    Forward p p.advance ∧ p.advance.remaining + 1 ≤ p.remaining := by
  rw [next_eq_getElem?] at h
  obtain ⟨hlt, _⟩ := List.getElem?_eq_some_iff.1 h
  have hf := Forward_skip_whitespace p
  have hin : p.skip_whitespace.input = p.input := rfl
  rw [hin] at hlt
  refine ⟨⟨rfl, ?_, fun _ => ?_⟩, ?_⟩
  · show p.pos ≤ p.skip_whitespace.pos + 1
    exact Nat.le_trans hf.2.1 (Nat.le_succ _)
  · show p.skip_whitespace.pos + 1 ≤ p.input.length
    exact hlt
  · show p.input.length - (p.skip_whitespace.pos + 1) + 1 ≤ p.input.length - p.pos
    have := hf.2.1
    omega

theorem Sees_next (p : Parser) (s : List Char) (h : Sees p s) : p.next = firstChar s := by
  unfold next firstChar
  unfold Sees at h
  rw [h]

theorem Sees_refl (p : Parser) : Sees p (p.input.drop p.pos) := rfl

theorem Sees_advance (p : Parser) (s rest : List Char) (c : Char) (h : Sees p s)
    (hc : s.dropWhile isspace = c :: rest) : Sees p.advance rest := by
  have hd := (skip_whitespace_drop p).2
  unfold Sees at h
  rw [h, hc] at hd
  unfold Sees
  have : List.drop (p.skip_whitespace.pos + 1) p.skip_whitespace.input = rest := by
    rw [← List.drop_drop, hd]
    rfl
  show List.dropWhile isspace (List.drop (p.skip_whitespace.pos + 1) p.skip_whitespace.input) = _
  rw [this]

end Parser

namespace Parser

variable {T : Type}

/-! ### Names of functions -/

theorem isalpha_not_space (c : Char) (h : isspace c = true) : isalpha c = false := by
  simp only [isspace, Bool.or_eq_true, beq_iff_eq, Bool.and_eq_true, decide_eq_true_eq] at h
  have h1 : ¬ 65 ≤ c.toNat := by omega
  have h2 : ¬ 97 ≤ c.toNat := by omega
  simp [isalpha, h1, h2]

theorem letterRun_cons_space (c : Char) (t : List Char) (h : isspace c = true) :
    letterRun (c :: t) = letterRun t ∧ afterLetters (c :: t) = afterLetters t := by
  have ha := isalpha_not_space c h
  simp [letterRun, afterLetters, List.takeWhile_cons, List.dropWhile_cons, h, ha,
    List.filter_cons]

theorem letterRun_cons_alpha (c : Char) (t : List Char) (h : isalpha c = true) :
    letterRun (c :: t) = c :: letterRun t ∧ afterLetters (c :: t) = afterLetters t := by
  simp [letterRun, afterLetters, List.takeWhile_cons, List.dropWhile_cons, h,
    List.filter_cons]

theorem letterRun_cons_other (c : Char) (t : List Char) (h : isalpha c = false)
    (hs : isspace c = false) :
    letterRun (c :: t) = [] ∧ afterLetters (c :: t) = c :: t := by
  simp [letterRun, afterLetters, List.takeWhile_cons, List.dropWhile_cons, h, hs]

theorem letterRun_dropWhile (s : List Char) :
    letterRun (s.dropWhile isspace) = letterRun s
      ∧ afterLetters (s.dropWhile isspace) = afterLetters s := by
  induction s with
  | nil => exact ⟨rfl, rfl⟩
  | cons c t ih =>
    by_cases hs : isspace c = true
    · rw [List.dropWhile_cons, if_pos hs, (letterRun_cons_space c t hs).1,
        (letterRun_cons_space c t hs).2]
      exact ih
    · rw [List.dropWhile_cons, if_neg hs]
      exact ⟨rfl, rfl⟩

theorem letterRun_length_le (s : List Char) : (letterRun s).length ≤ s.length := by
  unfold letterRun
  exact Nat.le_trans (List.length_filter_le _ _) (List.takeWhile_prefix _).length_le

theorem Sees_letterRun (p : Parser) (s : List Char) (h : Sees p s) :
    letterRun (p.input.drop p.pos) = letterRun s
      ∧ afterLetters (p.input.drop p.pos) = afterLetters s := by
  unfold Sees at h
  rw [← (letterRun_dropWhile (p.input.drop p.pos)).1, ← (letterRun_dropWhile s).1,
    ← (letterRun_dropWhile (p.input.drop p.pos)).2, ← (letterRun_dropWhile s).2, h]
  exact ⟨rfl, rfl⟩

theorem Sees_cons_space (p : Parser) (c : Char) (t : List Char) (hs : isspace c = true)
    (h : Sees p (c :: t)) : Sees p t := by
  unfold Sees at *
  rw [h, List.dropWhile_cons, if_pos hs]

/-- The loop of `parse_function` collects the letters seen up to the first character
that is neither a letter nor whitespace. -/
theorem parse_function_loop_spec :
    ∀ (s : List Char) (n : Nat) (func : List Char) (p : Parser), Sees p s →
      (letterRun s).length ≤ n →
      ∃ q, parse_function_loop n func p = .ok (func ++ letterRun s, q)
        ∧ Sees q (afterLetters s) := by
  intro s
  induction s with
  | nil =>
    intro n func p hp _
    have hn : p.next = none := Sees_next p [] hp
    refine ⟨p.skip_whitespace, ?_, Sees_skip_whitespace p _ hp⟩
    cases n with
    | zero => simp [parse_function_loop, peek_eq, letterRun]
    | succ n =>
      simp only [parse_function_loop, peek_eq, hn, Option.getD_none]
      simp [letterRun, isalpha]
  | cons c t ih =>
    intro n func p hp hn
    by_cases hs : isspace c = true
    · rw [(letterRun_cons_space c t hs).1] at hn
      rw [(letterRun_cons_space c t hs).1, (letterRun_cons_space c t hs).2]
      exact ih n func p (Sees_cons_space p c t hs hp) hn
    · have hs' : isspace c = false := by simpa using hs
      have hdw : (c :: t).dropWhile isspace = c :: t := dropWhile_isspace_cons c t hs'
      have hnext : p.next = some c := by
        rw [Sees_next p _ hp]; exact firstChar_of_dropWhile _ t c hdw
      by_cases ha : isalpha c = true
      · rw [(letterRun_cons_alpha c t ha).1] at hn
        rw [(letterRun_cons_alpha c t ha).1, (letterRun_cons_alpha c t ha).2]
        cases n with
        | zero => simp at hn
        | succ n =>
          have hq : Sees p.skip_whitespace.advance t :=
            Sees_advance p.skip_whitespace _ t c (Sees_skip_whitespace p _ hp) hdw
          obtain ⟨q, h1, h2⟩ := ih n (func ++ [c]) p.skip_whitespace.advance hq
            (by simpa using hn)
          refine ⟨q, ?_, h2⟩
          simp only [parse_function_loop, peek_eq, hnext, Option.getD_some, ha, if_true,
            consume_eq, next_skip_whitespace, h1]
          simp
      · have ha' : isalpha c = false := by simpa using ha
        rw [(letterRun_cons_other c t ha' hs').1, (letterRun_cons_other c t ha' hs').2]
        refine ⟨p.skip_whitespace, ?_, Sees_skip_whitespace p _ hp⟩
        cases n with
        | zero => simp [parse_function_loop, peek_eq]
        | succ n =>
          simp only [parse_function_loop, peek_eq, hnext, Option.getD_some, ha']
          simp

/-- The loop of `parse_function` as called by `parse_function`: the name collected is
the run of letters from the cursor on. -/
theorem parse_function_loop_run (p : Parser) :
    ∃ q, parse_function_loop (p.input.length - p.pos) [] p
        = .ok (letterRun (p.input.drop p.pos), q)
      ∧ Sees q (afterLetters (p.input.drop p.pos)) := by
  obtain ⟨q, h1, h2⟩ := parse_function_loop_spec (p.input.drop p.pos)
    (p.input.length - p.pos) [] p (Sees_refl p)
    (by have := letterRun_length_le (p.input.drop p.pos); simpa using this)
  exact ⟨q, by simpa using h1, h2⟩

/-- A name other than the four known ones makes `parse_function` fail with
`UnknownFunction` carrying the name. -/
theorem parse_function_unknown (A : Numeric T) (n : Nat) (p : Parser)
    (h : letterRun (p.input.drop p.pos) ∉ functionNames) :
    parse_function A (n + 1) p
      = .error (.UnknownFunction (String.mk (letterRun (p.input.drop p.pos)))) := by
  obtain ⟨q, h1, _⟩ := parse_function_loop_run p
  simp only [functionNames, List.mem_cons, List.mem_singleton, not_or, List.not_mem_nil,
    or_false] at h
  simp only [parse_function, h1, h.1, h.2.1, h.2.2.1, h.2.2.2, if_false]

/-- The loop condition of `parse_number` as a function of the next character. -/
theorem peek_digit_or_dot_eq (p : Parser) :
    p.peek_digit_or_dot
      = (isdigit (p.next.getD (Char.ofNat 0)) || p.next.getD (Char.ofNat 0) == '.',
          p.skip_whitespace) := by
  unfold peek_digit_or_dot
  simp only [peek_eq, next_skip_whitespace, skip_whitespace_idem]
  by_cases hd : isdigit (p.next.getD (Char.ofNat 0)) = true
  · simp [hd]
  · simp [hd]

/-- The method `parse_primary` as a function of the next character. -/
theorem parse_primary_eq (A : Numeric T) (n : Nat) (p : Parser) :
    parse_primary A (n + 1) p =
      if p.next = some '(' then
        match parse_expression A n p.advance with
        | .error e => .error e
        | .ok (expr, q) =>
          if q.next = some ')' then .ok (expr, q.advance) else .error .ExpectedCloseParen
      else if isalpha (p.next.getD (Char.ofNat 0)) = true then
        if p.next = some 'x' ∨ p.next = some 'y' then
          .ok (.Variable (String.mk [p.next.getD (Char.ofNat 0)]), p.advance)
        else parse_function A n p.skip_whitespace
      else if (isdigit (p.next.getD (Char.ofNat 0)) || p.next.getD (Char.ofNat 0) == '.') = true
      then parse_number A p.skip_whitespace
      else .error .UnexpectedCharacter := by
  by_cases h1 : p.next = some '('
  · rw [if_pos h1]
    simp only [parse_primary, match_eq, if_pos h1, if_true]
    cases parse_expression A n p.advance with
    | error e => rfl
    | ok r =>
      obtain ⟨expr, q⟩ := r
      by_cases h2 : q.next = some ')'
      · simp [h2]
      · simp [h2]
  · rw [if_neg h1]
    simp only [parse_primary, match_eq, if_neg h1, peek_eq, next_skip_whitespace,
      skip_whitespace_idem, peek_digit_or_dot_eq]
    by_cases h2 : isalpha (p.next.getD (Char.ofNat 0)) = true
    · simp only [h2, if_true, Bool.false_eq_true, if_false]
      cases hn : p.next with
      | none => rw [hn] at h2; exact absurd h2 (by decide)
      | some c =>
        by_cases hxy : c = 'x' ∨ c = 'y'
        · simp [hxy, parse_variable, consume_eq, next_skip_whitespace, hn, advance,
            skip_whitespace_idem]
        · simp [hxy]
    · simp [h2]

/-- In `parse_primary`, a letter other than `x` and `y` leads to `parse_function`. -/
theorem parse_primary_alpha (A : Numeric T) (n : Nat) (p : Parser) (c : Char)
    (hc : p.next = some c) (ha : isalpha c = true) (hx : c ≠ 'x') (hy : c ≠ 'y') :
    parse_primary A (n + 1) p = parse_function A n p.skip_whitespace := by
  have hparen : c ≠ '(' := by intro h; subst h; revert ha; decide
  rw [parse_primary_eq, hc]
  simp [hparen, ha, hx, hy]

/-- In `parse_primary`, the letter `x` or `y` is consumed and yields the variable. -/
theorem parse_primary_variable (A : Numeric T) (n : Nat) (p : Parser) (c : Char)
    (hc : p.next = some c) (hxy : c = 'x' ∨ c = 'y') :
    parse_primary A (n + 1) p = .ok (.Variable (String.mk [c]), p.advance) := by
  have ha : isalpha c = true := by rcases hxy with h | h <;> subst h <;> decide
  have hparen : c ≠ '(' := by intro h; subst h; revert ha; decide
  rw [parse_primary_eq, hc]
  simp [hparen, ha, hxy]

/-- An error of the first `parse_primary` is the error of `parse`. -/
theorem from_string_error_of_primary (A : Numeric T) (input : String) (e : ParseError)
    (h : parse_primary A (4 * input.toList.length + 1) { input := input.toList, pos := 0 }
      = .error e) :
    Expression.from_string A input = .error e := by
  simp only [Expression.from_string, parse]
  rw [show 4 * input.toList.length + 4 = 4 * input.toList.length + 1 + 1 + 1 + 1 from rfl]
  simp only [parse_expression, parse_term, parse_factor, h]

end Parser

namespace Expression

variable {T : Type}

/-- C13: identifier dispatch in `parse_primary`. When the next character that is not
whitespace is `x` or `y`, that single character is consumed and the result is the
`Variable` of that one-letter name. For any other letter the name collected by
`parse_function` is dispatched on, and a name that is not `sin`, `cos`, `ln` or `exp`
makes the parse fail with `UnknownFunction` carrying the name; `parse("z")` fails with
`UnknownFunction("z")` and `parse("tan(x)")` with `UnknownFunction("tan")`. -/
theorem identifier_dispatch (A : Numeric T) (n : Nat) (p : Parser) (c : Char)
    (hc : p.next = some c) :
    (c = 'x' ∨ c = 'y' →
        Parser.parse_primary A (n + 1) p = .ok (Variable (String.mk [c]), p.advance))
      ∧ (isalpha c = true → c ≠ 'x' → c ≠ 'y' →
          letterRun (p.input.drop p.pos) ∉ functionNames →
          Parser.parse_primary A (n + 2) p
            = .error (.UnknownFunction (String.mk (letterRun (p.input.drop p.pos)))))
      ∧ from_string A "z" = .error (.UnknownFunction "z")
      ∧ from_string A "tan(x)" = .error (.UnknownFunction "tan") := by
  have key : ∀ (m : Nat) (q : Parser) (d : Char), q.next = some d → isalpha d = true →
      d ≠ 'x' → d ≠ 'y' → letterRun (q.input.drop q.pos) ∉ functionNames →
      Parser.parse_primary A (m + 2) q
        = .error (.UnknownFunction (String.mk (letterRun (q.input.drop q.pos)))) := by
    intro m q d hd ha hx hy hname
    rw [Parser.parse_primary_alpha A (m + 1) q d hd ha hx hy]
    have h := Parser.parse_function_unknown A m q.skip_whitespace
    rw [(Parser.Sees_letterRun q.skip_whitespace _ (Parser.Sees_skip_whitespace q _
      (Parser.Sees_refl q))).1] at h
    exact h hname
  refine ⟨fun hxy => Parser.parse_primary_variable A n p c hc hxy,
    fun ha hx hy hname => key n p c hc ha hx hy hname, ?_, ?_⟩
  · apply Parser.from_string_error_of_primary
    exact key 3 { input := "z".toList, pos := 0 } 'z' (by decide) (by decide) (by decide)
      (by decide) (by decide)
  · apply Parser.from_string_error_of_primary
    exact key 23 { input := "tan(x)".toList, pos := 0 } 't' (by decide) (by decide)
      (by decide) (by decide) (by decide)

/-- Witness of C13 in the rational instantiation: on `y * 2` the letter `y` is consumed
and the cursor stands at `1`; on `  tan(x)` the name `tan` is unknown. -/
theorem identifier_dispatch_witness :
    Parser.parse_primary ratNumeric 1 { input := "y * 2".toList, pos := 0 }
        = .ok (Variable "y", { input := "y * 2".toList, pos := 1 })
      ∧ Parser.parse_primary ratNumeric 2 { input := "  tan(x)".toList, pos := 0 }
        = .error (.UnknownFunction "tan") :=
  ⟨(identifier_dispatch ratNumeric 0 { input := "y * 2".toList, pos := 0 } 'y'
      (by decide)).1 (Or.inr rfl),
   (identifier_dispatch ratNumeric 0 { input := "  tan(x)".toList, pos := 0 } 't'
      (by decide)).2.1 (by decide) (by decide) (by decide) (by decide)⟩

end Expression

namespace Parser

variable {T : Type}

/-! ### Numbers -/

theorem isNumberChar_not_space (c : Char) (h : isspace c = true) : isNumberChar c = false := by
  cases hn : isNumberChar c with
  | false => rfl
  | true =>
    have : isdigit c = true ∨ c = '.' := by
      simpa [isNumberChar] using hn
    rw [isspace_of_digit_or_dot c this] at h
    exact absurd h (by decide)

theorem numberRun_cons_space (c : Char) (t : List Char) (h : isspace c = true) :
    numberRun (c :: t) = numberRun t ∧ afterNumber (c :: t) = afterNumber t := by
  have ha := isNumberChar_not_space c h
  simp [numberRun, afterNumber, List.takeWhile_cons, List.dropWhile_cons, h, ha,
    List.filter_cons]

theorem numberRun_cons_number (c : Char) (t : List Char) (h : isNumberChar c = true) :
    numberRun (c :: t) = c :: numberRun t ∧ afterNumber (c :: t) = afterNumber t := by
  simp [numberRun, afterNumber, List.takeWhile_cons, List.dropWhile_cons, h,
    List.filter_cons]

theorem numberRun_cons_other (c : Char) (t : List Char) (h : isNumberChar c = false)
    (hs : isspace c = false) :
    numberRun (c :: t) = [] ∧ afterNumber (c :: t) = c :: t := by
  simp [numberRun, afterNumber, List.takeWhile_cons, List.dropWhile_cons, h, hs]

theorem numberRun_length_le (s : List Char) : (numberRun s).length ≤ s.length := by
  unfold numberRun
  exact Nat.le_trans (List.length_filter_le _ _) (List.takeWhile_prefix _).length_le

/-- The loop of `parse_number` collects the digits and dots seen up to the first
character that is neither a digit, a dot nor whitespace. -/
theorem parse_number_loop_run :
    ∀ (s : List Char) (n : Nat) (num : List Char) (p : Parser), Sees p s →
      (numberRun s).length ≤ n →
      ∃ q, parse_number_loop n num p = .ok (num ++ numberRun s, q)
        ∧ Sees q (afterNumber s) := by
  intro s
  induction s with
  | nil =>
    intro n num p hp _
    have hn : p.next = none := Sees_next p [] hp
    refine ⟨p.skip_whitespace, ?_, Sees_skip_whitespace p _ hp⟩
    cases n with
    | zero => simp [parse_number_loop, peek_digit_or_dot_eq, numberRun]
    | succ n =>
      simp only [parse_number_loop, peek_digit_or_dot_eq, hn, Option.getD_none]
      simp [numberRun, isdigit]
  | cons c t ih =>
    intro n num p hp hn
    by_cases hs : isspace c = true
    · rw [(numberRun_cons_space c t hs).1] at hn
      rw [(numberRun_cons_space c t hs).1, (numberRun_cons_space c t hs).2]
      exact ih n num p (Sees_cons_space p c t hs hp) hn
    · have hs' : isspace c = false := by simpa using hs
      have hdw : (c :: t).dropWhile isspace = c :: t := dropWhile_isspace_cons c t hs'
      have hnext : p.next = some c := by
        rw [Sees_next p _ hp]; exact firstChar_of_dropWhile _ t c hdw
      by_cases ha : isNumberChar c = true
      · rw [(numberRun_cons_number c t ha).1] at hn
        rw [(numberRun_cons_number c t ha).1, (numberRun_cons_number c t ha).2]
        cases n with
        | zero => simp at hn
        | succ n =>
          have hq : Sees p.skip_whitespace.advance t :=
            Sees_advance p.skip_whitespace _ t c (Sees_skip_whitespace p _ hp) hdw
          obtain ⟨q, h1, h2⟩ := ih n (num ++ [c]) p.skip_whitespace.advance hq
            (by simpa using hn)
          refine ⟨q, ?_, h2⟩
          have ha2 : (isdigit c || c == '.') = true := ha
          simp only [parse_number_loop, peek_digit_or_dot_eq, hnext, Option.getD_some, ha2,
            if_true, consume_eq, next_skip_whitespace, h1]
          simp
      · have ha' : isNumberChar c = false := by simpa using ha
        have ha2 : (isdigit c || c == '.') = false := ha'
        rw [(numberRun_cons_other c t ha' hs').1, (numberRun_cons_other c t ha' hs').2]
        refine ⟨p.skip_whitespace, ?_, Sees_skip_whitespace p _ hp⟩
        cases n with
        | zero => simp [parse_number_loop, peek_digit_or_dot_eq]
        | succ n =>
          simp only [parse_number_loop, peek_digit_or_dot_eq, hnext, Option.getD_some, ha2]
          simp

/-- The method `parse_number` converts, with `std::stod`, the digits and dots collected
from the cursor on. -/
theorem parse_number_run (A : Numeric T) (p : Parser) :
    ∃ q, Sees q (afterNumber (p.input.drop p.pos))
      ∧ parse_number A p =
        match stod A (numberRun (p.input.drop p.pos)) with
        | .ok value => .ok (.Value value, q)
        | .error e => .error e := by
  obtain ⟨q, h1, h2⟩ := parse_number_loop_run (p.input.drop p.pos)
    (p.input.length - p.pos) [] p (Sees_refl p)
    (by have := numberRun_length_le (p.input.drop p.pos); simpa using this)
  refine ⟨q, h2, ?_⟩
  simp only [parse_number, h1, List.nil_append]
  cases stod A (numberRun (p.input.drop p.pos)) <;> rfl

theorem numberRun_skip_whitespace (p : Parser) :
    numberRun (p.skip_whitespace.input.drop p.skip_whitespace.pos)
        = numberRun (p.input.drop p.pos)
      ∧ afterNumber (p.skip_whitespace.input.drop p.skip_whitespace.pos)
        = afterNumber (p.input.drop p.pos) := by
  rw [(skip_whitespace_drop p).2]
  generalize p.input.drop p.pos = s
  induction s with
  | nil => exact ⟨rfl, rfl⟩
  | cons c t ih =>
    by_cases hs : isspace c = true
    · rw [List.dropWhile_cons, if_pos hs, (numberRun_cons_space c t hs).1,
        (numberRun_cons_space c t hs).2]
      exact ih
    · rw [List.dropWhile_cons, if_neg hs]
      exact ⟨rfl, rfl⟩

/-! ### The conversion of the collected text -/

theorem head_not_digit_takeWhile (l : List Char)
    (h : ∀ c, l.head? = some c → isdigit c = false) :
    l.takeWhile isdigit = [] ∧ l.dropWhile isdigit = l := by
  cases l with
  | nil => exact ⟨rfl, rfl⟩
  | cons c t =>
    have := h c rfl
    simp [List.takeWhile_cons, List.dropWhile_cons, this]

/-- The function `std::stod` on digits, a dot, digits and any text that does not go on
with a digit: the text after the second run of digits is ignored. -/
theorem stod_with_dot (A : Numeric T) (intPart fracPart more : List Char)
    (hi : ∀ c ∈ intPart, isdigit c = true) (hf : ∀ c ∈ fracPart, isdigit c = true)
    (hm : ∀ c, more.head? = some c → isdigit c = false)
    (hne : intPart ≠ [] ∨ fracPart ≠ []) :
    stod A (intPart ++ '.' :: (fracPart ++ more))
      = convertDecimal A ((digitsValue (intPart ++ fracPart) : ℚ) / 10 ^ fracPart.length) := by
  have h1 : (intPart ++ '.' :: (fracPart ++ more)).takeWhile isdigit = intPart := by
    rw [List.takeWhile_append_of_pos hi]
    simp [List.takeWhile_cons, isdigit]
  have h2 : (intPart ++ '.' :: (fracPart ++ more)).dropWhile isdigit
      = '.' :: (fracPart ++ more) := by
    rw [List.dropWhile_append_of_pos hi]
    simp [List.dropWhile_cons, isdigit]
  have h3 : (fracPart ++ more).takeWhile isdigit = fracPart := by
    rw [List.takeWhile_append_of_pos hf, (head_not_digit_takeWhile more hm).1]
    simp
  have hne' : ¬ (intPart = [] ∧ fracPart = []) := by
    rintro ⟨ha, hb⟩
    rcases hne with h | h
    · exact h ha
    · exact h hb
  simp only [stod, h1, h2, h3, if_true, hne', if_false, convertDecimal]

/-- The function `std::stod` on a run of digits. -/
theorem stod_digits (A : Numeric T) (intPart : List Char)
    (hi : ∀ c ∈ intPart, isdigit c = true) (hne : intPart ≠ []) :
    stod A intPart = convertDecimal A (digitsValue intPart : ℚ) := by
  have h1 : intPart.takeWhile isdigit = intPart := List.takeWhile_eq_self_iff.2 hi
  have h2 : intPart.dropWhile isdigit = [] := List.dropWhile_eq_nil_iff.2 hi
  simp only [stod, h1, h2, hne, false_and, if_false, List.append_nil, List.length_nil,
    pow_zero, div_one, convertDecimal]

/-- The function `std::stod` on a dot that no digit follows. -/
theorem stod_no_digit (A : Numeric T) (more : List Char)
    (hm : ∀ c, more.head? = some c → isdigit c = false) :
    stod A ('.' :: more) = .error .InvalidNumber := by
  have h3 := (head_not_digit_takeWhile more hm).1
  simp [stod, List.takeWhile_cons, List.dropWhile_cons, isdigit, h3]

end Parser

namespace Parser

variable {T : Type}

/-- In `parse_primary`, a digit or a dot leads to `parse_number`. -/
theorem parse_primary_number (A : Numeric T) (n : Nat) (p : Parser) (c : Char)
    (hc : p.next = some c) (hd : isdigit c = true ∨ c = '.') :
    parse_primary A (n + 1) p = parse_number A p.skip_whitespace := by
  have hparen : c ≠ '(' := by
    rcases hd with h | h
    · intro e; subst e; revert h; decide
    · subst h; decide
  have halpha : isalpha c = false := by
    rcases hd with h | h
    · simp only [isdigit, Bool.and_eq_true, decide_eq_true_eq] at h
      have h1 : ¬ 65 ≤ c.toNat := by omega
      have h2 : ¬ 97 ≤ c.toNat := by omega
      simp [isalpha, h1, h2]
    · subst h; decide
  have hcond : (isdigit c || c == '.') = true := by
    rcases hd with h | h
    · simp [h]
    · simp [h]
  rw [parse_primary_eq, hc]
  simp [hparen, halpha, hcond]

end Parser

namespace Expression

variable {T : Type}

/-- C14, as stated, fails: `parse("1.2.3")` does not fail with `InvalidNumber` but
returns the value `1.2`, and `parse("1 2")` collects `12`, not the run `1`. -/
theorem number_literal_counterexample :
    from_string ratNumeric "1.2.3" = .ok (Value (6 / 5))
      ∧ from_string ratNumeric "1.2.3" ≠ .error .InvalidNumber
      ∧ from_string ratNumeric "1 2" = .ok (Value 12) := by
  decide!

/-- C14, amended: when the next character that is not whitespace is a digit or a dot,
`parse_primary` collects the digits and dots up to the first character that is neither
a digit, a dot nor whitespace, and hands them to `std::stod`, whose result is the result
of the parse. `std::stod` converts the longest prefix of the form digits, dot, digits
with at least one digit and ignores what follows it, fails with `std::out_of_range`
when the quantity has no value, and fails with `InvalidNumber` when the text starts
with a dot that no digit follows, as for `parse(".")`. -/
theorem number_literal (A : Numeric T) (n : Nat) (p : Parser) (c : Char)
    (hc : p.next = some c) (hd : isdigit c = true ∨ c = '.') :
    (∃ q, Sees q (afterNumber (p.input.drop p.pos))
        ∧ Parser.parse_primary A (n + 1) p =
          match stod A (numberRun (p.input.drop p.pos)) with
          | .ok value => .ok (Value value, q)
          | .error e => .error e)
      ∧ (∀ intPart fracPart more : List Char, (∀ d ∈ intPart, isdigit d = true) →
          (∀ d ∈ fracPart, isdigit d = true) →
          (∀ d, more.head? = some d → isdigit d = false) →
          (intPart ≠ [] ∨ fracPart ≠ []) →
          stod A (intPart ++ '.' :: (fracPart ++ more))
            = convertDecimal A
                ((digitsValue (intPart ++ fracPart) : ℚ) / 10 ^ fracPart.length))
      ∧ (∀ intPart : List Char, (∀ d ∈ intPart, isdigit d = true) → intPart ≠ [] →
          stod A intPart = convertDecimal A (digitsValue intPart : ℚ))
      ∧ (∀ more : List Char, (∀ d, more.head? = some d → isdigit d = false) →
          stod A ('.' :: more) = .error .InvalidNumber)
      ∧ from_string A "." = .error .InvalidNumber := by
  have key : ∀ (m : Nat) (r : Parser) (d : Char), r.next = some d →
      (isdigit d = true ∨ d = '.') →
      ∃ q, Sees q (afterNumber (r.input.drop r.pos))
        ∧ Parser.parse_primary A (m + 1) r =
          match stod A (numberRun (r.input.drop r.pos)) with
          | .ok value => .ok (Value value, q)
          | .error e => .error e := by
    intro m r d hr hdd
    obtain ⟨q, h1, h2⟩ := Parser.parse_number_run A r.skip_whitespace
    rw [(Parser.numberRun_skip_whitespace r).1] at h2
    rw [(Parser.numberRun_skip_whitespace r).2] at h1
    exact ⟨q, h1, by rw [Parser.parse_primary_number A m r d hr hdd, h2]⟩
  refine ⟨key n p c hc hd, Parser.stod_with_dot A, Parser.stod_digits A,
    Parser.stod_no_digit A, ?_⟩
  apply Parser.from_string_error_of_primary
  obtain ⟨q, _, h⟩ := key 4 { input := ".".toList, pos := 0 } '.' (by decide) (Or.inr rfl)
  have hrun : numberRun (List.drop 0 ".".toList) = '.' :: [] := by decide
  have hs : stod A (numberRun (List.drop 0 ".".toList)) = .error .InvalidNumber := by
    rw [hrun, Parser.stod_no_digit A [] (by simp)]
  have h' : Parser.parse_primary A (4 + 1) { input := ".".toList, pos := 0 }
      = .error .InvalidNumber := by
    rw [h]
    show (match stod A (numberRun (List.drop 0 ".".toList)) with
      | .ok value => .ok (Value value, q)
      | .error e => .error e) = (.error .InvalidNumber : Except ParseError _)
    rw [hs]
  exact h'

/-- Witness of C14 as amended, on `1.2.3 + x` in the rational instantiation: the text
collected is `1.2.3`, its prefix `1.2` is converted and `.3` is ignored. -/
theorem number_literal_witness :
    Parser.next { input := "1.2.3 + x".toList, pos := 0 } = some '1'
      ∧ numberRun (List.drop 0 "1.2.3 + x".toList) = "1.2.3".toList
      ∧ stod ratNumeric "1.2.3".toList = .ok (6 / 5)
      ∧ ∃ q, Sees q (afterNumber (List.drop 0 "1.2.3 + x".toList))
        ∧ Parser.parse_primary ratNumeric 1 { input := "1.2.3 + x".toList, pos := 0 } =
          match stod ratNumeric (numberRun (List.drop 0 "1.2.3 + x".toList)) with
          | .ok value => .ok (Value value, q)
          | .error e => .error e :=
  ⟨by decide, by decide, by decide!,
   (number_literal ratNumeric 0 { input := "1.2.3 + x".toList, pos := 0 } '1'
      (by decide) (Or.inl (by decide))).1⟩

end Expression

namespace Parser

variable {T : Type}

/-! ### Groups and function calls -/

/-- The method `parse_function` as a function of the name collected: there is a state
`q`, reached by the loop, that sees what follows the name. -/
theorem parse_function_eq (A : Numeric T) (n : Nat) (p : Parser) :
    ∃ q, Sees q (afterLetters (p.input.drop p.pos))
      ∧ parse_function A (n + 1) p =
        if letterRun (p.input.drop p.pos) = "sin".toList then
          match parse_primary A n q with
          | .error e => .error e
          | .ok (arg, r) => .ok (.OperationSin arg, r)
        else if letterRun (p.input.drop p.pos) = "cos".toList then
          match parse_primary A n q with
          | .error e => .error e
          | .ok (arg, r) => .ok (.OperationCos arg, r)
        else if letterRun (p.input.drop p.pos) = "ln".toList then
          match parse_primary A n q with
          | .error e => .error e
          | .ok (arg, r) => .ok (.OperationLn arg, r)
        else if letterRun (p.input.drop p.pos) = "exp".toList then
          match parse_primary A n q with
          | .error e => .error e
          | .ok (arg, r) => .ok (.OperationExp arg, r)
        else .error (.UnknownFunction (String.mk (letterRun (p.input.drop p.pos)))) := by
  obtain ⟨q, h1, h2⟩ := parse_function_loop_run p
  refine ⟨q, h2, ?_⟩
  simp only [parse_function, h1]

/-- A group: `(`, an expression and `)`. -/
theorem Yields_paren (A : Numeric T) (n : Nat) (s r1 r2 : List Char) (e : Expression T)
    (h : Yields (parse_expression A n) s e r1) (hc : r1.dropWhile isspace = ')' :: r2) :
    Yields (parse_primary A (n + 1)) ('(' :: s) e r2 := by
  intro p hp
  have hdw : ('(' :: s).dropWhile isspace = '(' :: s := dropWhile_isspace_cons _ _ (by decide)
  have hnext : p.next = some '(' := by
    rw [Sees_next p _ hp]; exact firstChar_of_dropWhile _ s _ hdw
  obtain ⟨q, hq, hs⟩ := h p.advance (Sees_advance p _ s '(' hp hdw)
  have hqn : q.next = some ')' := by
    rw [Sees_next q _ hs]; exact firstChar_of_dropWhile _ r2 _ hc
  refine ⟨q.advance, ?_, Sees_advance q _ r2 ')' hs hc⟩
  rw [parse_primary_eq, if_pos hnext, hq]
  simp [hqn]

/-- A call of one of the four functions: the name, then one primary. -/
theorem Yields_function (A : Numeric T) (n : Nat) (s rest : List Char) (c : Char)
    (arg : Expression T) (hc : firstChar s = some c) (ha : isalpha c = true)
    (hx : c ≠ 'x') (hy : c ≠ 'y')
    (h : Yields (parse_primary A n) (afterLetters s) arg rest) :
    (letterRun s = "sin".toList →
        Yields (parse_primary A (n + 2)) s (.OperationSin arg) rest)
      ∧ (letterRun s = "cos".toList →
        Yields (parse_primary A (n + 2)) s (.OperationCos arg) rest)
      ∧ (letterRun s = "ln".toList →
        Yields (parse_primary A (n + 2)) s (.OperationLn arg) rest)
      ∧ (letterRun s = "exp".toList →
        Yields (parse_primary A (n + 2)) s (.OperationExp arg) rest) := by
  have key : ∀ p, Sees p s → ∃ q r, parse_primary A n q = .ok (arg, r) ∧ Sees r rest
      ∧ parse_primary A (n + 2) p =
        if letterRun s = "sin".toList then
          match parse_primary A n q with
          | .error e => .error e
          | .ok (arg, r) => .ok (.OperationSin arg, r)
        else if letterRun s = "cos".toList then
          match parse_primary A n q with
          | .error e => .error e
          | .ok (arg, r) => .ok (.OperationCos arg, r)
        else if letterRun s = "ln".toList then
          match parse_primary A n q with
          | .error e => .error e
          | .ok (arg, r) => .ok (.OperationLn arg, r)
        else if letterRun s = "exp".toList then
          match parse_primary A n q with
          | .error e => .error e
          | .ok (arg, r) => .ok (.OperationExp arg, r)
        else .error (.UnknownFunction (String.mk (letterRun s))) := by
    intro p hp
    have hnext : p.next = some c := by rw [Sees_next p _ hp]; exact hc
    have hsk := Sees_skip_whitespace p _ hp
    obtain ⟨q, hq, heq⟩ := parse_function_eq A n p.skip_whitespace
    rw [(Sees_letterRun p.skip_whitespace s hsk).1] at heq
    rw [(Sees_letterRun p.skip_whitespace s hsk).2] at hq
    obtain ⟨r, hr, hrs⟩ := h q hq
    exact ⟨q, r, hr, hrs, by rw [parse_primary_alpha A (n + 1) p c hnext ha hx hy, heq]⟩
  refine ⟨fun hn p hp => ?_, fun hn p hp => ?_, fun hn p hp => ?_, fun hn p hp => ?_⟩
  · obtain ⟨q, r, hr, hrs, heq⟩ := key p hp
    exact ⟨r, by rw [heq, hn, hr]; first | done | rfl, hrs⟩
  · obtain ⟨q, r, hr, hrs, heq⟩ := key p hp
    exact ⟨r, by rw [heq, hn, hr]; first | done | rfl, hrs⟩
  · obtain ⟨q, r, hr, hrs, heq⟩ := key p hp
    exact ⟨r, by rw [heq, hn, hr]; first | done | rfl, hrs⟩
  · obtain ⟨q, r, hr, hrs, heq⟩ := key p hp
    exact ⟨r, by rw [heq, hn, hr]; first | done | rfl, hrs⟩

end Parser

namespace Expression

variable {T : Type}

/-- C15: parenthesized groups. When the next character that is not whitespace is `(`,
`parse_primary` parses an expression after it; if the next character that is not
whitespace is then `)`, it is consumed and that expression is returned unchanged; if
it is anything else, or the input has ended, the parse fails with `ExpectedCloseParen`,
as for `(x` and `(x + 1`. -/
theorem parenthesized_group (A : Numeric T) (n : Nat) (p : Parser)
    (hc : p.next = some '(') :
    (∀ e q, Parser.parse_expression A n p.advance = .ok (e, q) → q.next = some ')' →
        Parser.parse_primary A (n + 1) p = .ok (e, q.advance))
      ∧ (∀ e q, Parser.parse_expression A n p.advance = .ok (e, q) → q.next ≠ some ')' →
        Parser.parse_primary A (n + 1) p = .error .ExpectedCloseParen)
      ∧ from_string ratNumeric "(x" = .error .ExpectedCloseParen
      ∧ from_string ratNumeric "(x + 1" = .error .ExpectedCloseParen
      ∧ from_string ratNumeric "( x + 1 )" = .ok (OperationAdd (Variable "x") (Value 1)) := by
  refine ⟨fun e q he hq => ?_, fun e q he hq => ?_, by decide!, by decide!, by decide!⟩
  · rw [Parser.parse_primary_eq, if_pos hc, he]
    simp [hq]
  · rw [Parser.parse_primary_eq, if_pos hc, he]
    simp [hq]

/-- Witness of C15 in the rational instantiation: on `(x)` the group returns `x` with
the cursor past `)`, and on `(x y` it fails with `ExpectedCloseParen`. -/
theorem parenthesized_group_witness :
    Parser.parse_primary ratNumeric 5 { input := "(x)".toList, pos := 0 }
        = .ok (Variable "x", { input := "(x)".toList, pos := 3 })
      ∧ Parser.parse_primary ratNumeric 5 { input := "(x y".toList, pos := 0 }
        = .error .ExpectedCloseParen :=
  ⟨(parenthesized_group ratNumeric 4 { input := "(x)".toList, pos := 0 } (by decide)).1
      (Variable "x") { input := "(x)".toList, pos := 2 } (by decide) (by decide),
   (parenthesized_group ratNumeric 4 { input := "(x y".toList, pos := 0 } (by decide)).2.1
      (Variable "x") { input := "(x y".toList, pos := 3 } (by decide) (by decide)⟩

/-- C18: unexpected lead character. Whenever `parse_primary` is called and the next
character that is not whitespace is not `(`, not a letter, not a digit and not a dot,
it fails with `UnexpectedCharacter`; `parse("-x")`, `parse("+x")` and
`parse("3 + * 2")` fail so: there is no unary minus. -/
theorem unexpected_lead_character (A : Numeric T) (n : Nat) (p : Parser) (c : Char)
    (hc : p.next = some c) (hparen : c ≠ '(') (halpha : isalpha c = false)
    (hdigit : isdigit c = false) (hdot : c ≠ '.') :
    Parser.parse_primary A (n + 1) p = .error .UnexpectedCharacter
      ∧ from_string A "-x" = .error .UnexpectedCharacter
      ∧ from_string A "+x" = .error .UnexpectedCharacter
      ∧ from_string ratNumeric "3 + * 2" = .error .UnexpectedCharacter := by
  have key : ∀ (m : Nat) (q : Parser) (d : Char), q.next = some d → d ≠ '(' →
      isalpha d = false → isdigit d = false → d ≠ '.' →
      Parser.parse_primary A (m + 1) q = .error .UnexpectedCharacter := by
    intro m q d hd h1 h2 h3 h4
    rw [Parser.parse_primary_eq, hd]
    simp [h1, h2, h3, h4]
  refine ⟨key n p c hc hparen halpha hdigit hdot, ?_, ?_, by decide!⟩
  · apply Parser.from_string_error_of_primary
    exact key _ { input := "-x".toList, pos := 0 } '-' (by decide) (by decide) (by decide)
      (by decide) (by decide)
  · apply Parser.from_string_error_of_primary
    exact key _ { input := "+x".toList, pos := 0 } '+' (by decide) (by decide) (by decide)
      (by decide) (by decide)

/-- Witness of C18 in the rational instantiation: in `3 + * 2` the primary expected at
the cursor `3` meets `*`. -/
theorem unexpected_lead_character_witness :
    Parser.next { input := "3 + * 2".toList, pos := 3 } = some '*'
      ∧ Parser.parse_primary ratNumeric 1 { input := "3 + * 2".toList, pos := 3 }
        = .error .UnexpectedCharacter :=
  ⟨by decide,
   (unexpected_lead_character ratNumeric 0 { input := "3 + * 2".toList, pos := 3 } '*'
      (by decide) (by decide) (by decide) (by decide) (by decide)).1⟩

/-- C17, as stated, fails: whitespace does not end the name, so `parse("sin x")` does
not yield `Sin(Variable x)` but fails with `UnknownFunction("sinx")`. -/
theorem function_call_counterexample :
    from_string ratNumeric "sin x" = .error (.UnknownFunction "sinx")
      ∧ from_string ratNumeric "sin x" ≠ .ok (OperationSin (Variable "x")) := by
  decide!

/-- C17, amended: for a letter other than `x` and `y`, the name that `parse_primary`
dispatches on is made of the letters from that lead up to the first character that is
neither a letter nor whitespace, whitespace between the letters being skipped; when the
name is `sin`, `cos`, `ln` or `exp` the result is that unary node applied to exactly one
primary parsed after the name, and any other name fails with `UnknownFunction`. So
`sin(x) ^ 2` parses to `Pow(Sin(x), 2)`, and `sin (x)` and `s i n(x)` to `Sin(x)`. -/
theorem function_call (A : Numeric T) (n : Nat) (p : Parser) (c : Char)
    (hc : p.next = some c) (ha : isalpha c = true) (hx : c ≠ 'x') (hy : c ≠ 'y') :
    (∃ q, Sees q (afterLetters (p.input.drop p.pos))
        ∧ Parser.parse_primary A (n + 2) p =
          if letterRun (p.input.drop p.pos) = "sin".toList then
            match Parser.parse_primary A n q with
            | .error e => .error e
            | .ok (arg, r) => .ok (OperationSin arg, r)
          else if letterRun (p.input.drop p.pos) = "cos".toList then
            match Parser.parse_primary A n q with
            | .error e => .error e
            | .ok (arg, r) => .ok (OperationCos arg, r)
          else if letterRun (p.input.drop p.pos) = "ln".toList then
            match Parser.parse_primary A n q with
            | .error e => .error e
            | .ok (arg, r) => .ok (OperationLn arg, r)
          else if letterRun (p.input.drop p.pos) = "exp".toList then
            match Parser.parse_primary A n q with
            | .error e => .error e
            | .ok (arg, r) => .ok (OperationExp arg, r)
          else .error (.UnknownFunction (String.mk (letterRun (p.input.drop p.pos)))))
      ∧ from_string ratNumeric "sin(x) ^ 2"
          = .ok (OperationPow (OperationSin (Variable "x")) (Value 2))
      ∧ from_string ratNumeric "sin (x)" = .ok (OperationSin (Variable "x"))
      ∧ from_string ratNumeric "s i n(x)" = .ok (OperationSin (Variable "x")) := by
  refine ⟨?_, by decide!, by decide!, by decide!⟩
  obtain ⟨q, hq, heq⟩ := Parser.parse_function_eq A n p.skip_whitespace
  have hsk := Parser.Sees_skip_whitespace p _ (Parser.Sees_refl p)
  rw [(Parser.Sees_letterRun p.skip_whitespace _ hsk).1] at heq
  rw [(Parser.Sees_letterRun p.skip_whitespace _ hsk).2] at hq
  exact ⟨q, hq, by rw [Parser.parse_primary_alpha A (n + 1) p c hc ha hx hy, heq]⟩

/-- Witness of C17 as amended, on `ln x` in the rational instantiation: the name
collected is `lnx`, which is not a known function. -/
theorem function_call_witness :
    Parser.next { input := "ln x".toList, pos := 0 } = some 'l'
      ∧ letterRun (List.drop 0 "ln x".toList) = "lnx".toList
      ∧ ∃ q, Sees q (afterLetters (List.drop 0 "ln x".toList))
        ∧ Parser.parse_primary ratNumeric 2 { input := "ln x".toList, pos := 0 } =
          if letterRun (List.drop 0 "ln x".toList) = "sin".toList then
            match Parser.parse_primary ratNumeric 0 q with
            | .error e => .error e
            | .ok (arg, r) => .ok (OperationSin arg, r)
          else if letterRun (List.drop 0 "ln x".toList) = "cos".toList then
            match Parser.parse_primary ratNumeric 0 q with
            | .error e => .error e
            | .ok (arg, r) => .ok (OperationCos arg, r)
          else if letterRun (List.drop 0 "ln x".toList) = "ln".toList then
            match Parser.parse_primary ratNumeric 0 q with
            | .error e => .error e
            | .ok (arg, r) => .ok (OperationLn arg, r)
          else if letterRun (List.drop 0 "ln x".toList) = "exp".toList then
            match Parser.parse_primary ratNumeric 0 q with
            | .error e => .error e
            | .ok (arg, r) => .ok (OperationExp arg, r)
          else .error (.UnknownFunction (String.mk (letterRun (List.drop 0 "ln x".toList)))) :=
  ⟨by decide, by decide,
   (function_call ratNumeric 0 { input := "ln x".toList, pos := 0 } 'l'
      (by decide) (by decide) (by decide) (by decide)).1⟩

end Expression

namespace Parser

variable {T : Type}

/-- The text `f(0)` for a function name `f`, through the rules of the grammar: the
argument is the value that the numeral `0` converts to. -/
theorem yields_call_zero (A : Numeric T) (m : Nat) (z : T) (hz : A.ofDecimal 0 = some z)
    (name : List Char) (hafter : afterLetters (name ++ "(0)".toList) = "(0)".toList) :
    Yields (parse_primary A (m + 5)) (afterLetters (name ++ "(0)".toList)) (.Value z) [] := by
  have hs : stod A "0".toList = .ok z := by
    rw [stod_digits A "0".toList (by decide) (by decide)]
    have : ((digitsValue "0".toList : ℕ) : ℚ) = 0 := by
      have h0 : digitsValue "0".toList = 0 := by decide
      rw [h0]; exact Nat.cast_zero
    rw [this]
    simp [convertDecimal, hz]
  have hop : Operand A "0" (.Value z) := Operand.number "0" z (by decide) (by decide) hs
  rw [hafter]
  exact Yields_paren A _ _ _ _ _
    (expression_rule A _ _ _ _ _ _
      (term_rule A _ _ _ _ _ _
        (factor_atom A _ _ _ _ (primary_operand A m "0" _ ")".toList hop (by decide) (by decide))
          (by decide))
        (term_loop_done A _ _ _ (by decide) (by decide)))
      (expression_loop_done A _ _ _ (by decide) (by decide)))
    (by decide)

/-- A primary that is the whole input, as an expression. -/
theorem expression_of_primary (A : Numeric T) (n : Nat) (s : List Char) (e : Expression T)
    (h : Yields (parse_primary A n) s e []) : Yields (parse_expression A (n + 3)) s e [] :=
  expression_rule A _ _ _ _ _ _
    (term_rule A _ _ _ _ _ _ (factor_atom A _ _ _ _ h (by decide))
      (term_loop_done A _ _ _ (by decide) (by decide)))
    (expression_loop_done A _ _ _ (by decide) (by decide))

end Parser

namespace Expression

variable {T : Type}

/-- C16: a unary node evaluates by applying its function to the value of the operand:
`eval(Sin(u)) = sin(eval(u))`, `eval(Cos(u)) = cos(eval(u))`, `eval(Ln(u)) = log(eval(u))`,
`eval(Exp(u)) = exp(eval(u))`. In an instantiation where the numeral `0` converts to
`T(0)`, `sin(T(0))` is `T(0)` and `cos(T(0))` is `T(1)`, `parse("sin(0)")` evaluates to
`T(0)` and `parse("cos(0)")` to `T(1)` in the empty context. -/
theorem eval_unary (A : Numeric T) (u : Expression T) (ctx : Context T) (a : T)
    (hu : eval A u ctx = .ok a) :
    eval A (OperationSin u) ctx = .ok (A.sin a)
      ∧ eval A (OperationCos u) ctx = .ok (A.cos a)
      ∧ eval A (OperationLn u) ctx = .ok (A.log a)
      ∧ eval A (OperationExp u) ctx = .ok (A.exp a)
      ∧ (A.ofDecimal 0 = some A.zero → A.sin A.zero = A.zero →
          ∃ e, from_string A "sin(0)" = .ok e ∧ eval A e [] = .ok A.zero)
      ∧ (A.ofDecimal 0 = some A.zero → A.cos A.zero = A.one →
          ∃ e, from_string A "cos(0)" = .ok e ∧ eval A e [] = .ok A.one) := by
  refine ⟨by simp [eval, hu], by simp [eval, hu], by simp [eval, hu], by simp [eval, hu],
    fun hz hs => ?_, fun hz hc => ?_⟩
  · refine ⟨OperationSin (Value A.zero), ?_, by simp [eval, hs]⟩
    exact Parser.from_string_of_yields A "sin(0)" _ []
      (Parser.expression_of_primary A 25 _ _
        ((Parser.Yields_function A 23 "sin(0)".toList [] 's' _ (by decide) (by decide)
          (by decide) (by decide)
          (Parser.yields_call_zero A 18 A.zero hz "sin".toList (by decide))).1 (by decide)))
  · refine ⟨OperationCos (Value A.zero), ?_, by simp [eval, hc]⟩
    exact Parser.from_string_of_yields A "cos(0)" _ []
      (Parser.expression_of_primary A 25 _ _
        ((Parser.Yields_function A 23 "cos(0)".toList [] 'c' _ (by decide) (by decide)
          (by decide) (by decide)
          (Parser.yields_call_zero A 18 A.zero hz "cos".toList (by decide))).2.1 (by decide)))

/-- Witness of C16 in the rational instantiation: `sin(0)` evaluates to `0` and
`cos(0)` to `1`, and `exp` is applied to the value of `x`. -/
theorem eval_unary_witness :
    eval ratNumeric (OperationExp (Variable "x")) [("x", 0)] = .ok (ratNumeric.exp 0)
      ∧ (∃ e, from_string ratNumeric "sin(0)" = .ok e ∧ eval ratNumeric e [] = .ok 0)
      ∧ (∃ e, from_string ratNumeric "cos(0)" = .ok e ∧ eval ratNumeric e [] = .ok 1) :=
  ⟨(eval_unary ratNumeric (Variable "x") [("x", 0)] 0 rfl).2.2.2.1,
   (eval_unary ratNumeric (Variable "x") [("x", 0)] 0 rfl).2.2.2.2.1 rfl (by decide!),
   (eval_unary ratNumeric (Variable "x") [("x", 0)] 0 rfl).2.2.2.2.2 rfl (by decide!)⟩

end Expression

namespace Parser

variable {T : Type}

/-! ### Every run of the parser ends within the recursion budget -/

theorem Forward_advance_skip (p : Parser) (c : Char) (h : p.next = some c) :
    Forward p p.skip_whitespace.advance
      ∧ p.skip_whitespace.advance.remaining + 1 ≤ p.remaining := by
  have h1 := Forward_advance p.skip_whitespace c (by rw [next_skip_whitespace]; exact h)
  have h2 := Forward_skip_whitespace p
  exact ⟨Forward_trans h2 h1.1, Nat.le_trans h1.2 (Forward_remaining h2)⟩

/-- The loop of `parse_function` always returns, with the cursor moved forward by at
least one character for each letter collected. -/
theorem parse_function_loop_forward :
    ∀ (n : Nat) (func : List Char) (p : Parser),
      ∃ func' q, parse_function_loop n func p = .ok (func', q) ∧ Forward p q
        ∧ func'.length + q.remaining ≤ func.length + p.remaining := by
  intro n
  induction n with
  | zero =>
    intro func p
    refine ⟨func, p.skip_whitespace, ?_, Forward_skip_whitespace p, ?_⟩
    · simp [parse_function_loop, peek_eq]
    · have := Forward_remaining (Forward_skip_whitespace p); omega
  | succ n ih =>
    intro func p
    by_cases ha : isalpha (p.next.getD (Char.ofNat 0)) = true
    · cases hn : p.next with
      | none => rw [hn] at ha; exact absurd ha (by decide)
      | some c =>
        obtain ⟨func', q, h1, h2, h3⟩ := ih (func ++ [c]) p.skip_whitespace.advance
        have hadv := Forward_advance_skip p c hn
        refine ⟨func', q, ?_, Forward_trans hadv.1 h2, ?_⟩
        · simp only [hn, Option.getD_some] at ha
          simp only [parse_function_loop, peek_eq, hn, Option.getD_some, ha, if_true,
            consume_eq, next_skip_whitespace, h1]
        · have := hadv.2
          simp only [List.length_append, List.length_singleton] at h3
          omega
    · refine ⟨func, p.skip_whitespace, ?_, Forward_skip_whitespace p, ?_⟩
      · simp only [parse_function_loop, peek_eq, ha]
        simp
      · have := Forward_remaining (Forward_skip_whitespace p); omega

/-- The loop of `parse_number` always returns, with the cursor moved forward. -/
theorem parse_number_loop_forward :
    ∀ (n : Nat) (num : List Char) (p : Parser),
      ∃ num' q, parse_number_loop n num p = .ok (num', q) ∧ Forward p q := by
  intro n
  induction n with
  | zero =>
    intro num p
    exact ⟨num, p.skip_whitespace, by simp [parse_number_loop, peek_digit_or_dot_eq],
      Forward_skip_whitespace p⟩
  | succ n ih =>
    intro num p
    by_cases ha : (isdigit (p.next.getD (Char.ofNat 0))
        || p.next.getD (Char.ofNat 0) == '.') = true
    · cases hn : p.next with
      | none => rw [hn] at ha; exact absurd ha (by decide)
      | some c =>
        obtain ⟨num', q, h1, h2⟩ := ih (num ++ [c]) p.skip_whitespace.advance
        have hadv := Forward_advance_skip p c hn
        refine ⟨num', q, ?_, Forward_trans hadv.1 h2⟩
        simp only [hn, Option.getD_some] at ha
        simp only [parse_number_loop, peek_digit_or_dot_eq, hn, Option.getD_some, ha,
          if_true, consume_eq, next_skip_whitespace, h1]
    · refine ⟨num, p.skip_whitespace, ?_, Forward_skip_whitespace p⟩
      simp only [parse_number_loop, peek_digit_or_dot_eq, ha]
      simp

theorem stod_ne_OutOfFuel (A : Numeric T) (num : List Char) :
    stod A num ≠ .error .OutOfFuel := by
  unfold stod
  simp only
  split_ifs
  · simp
  · split <;> simp

/-- The method `parse_number` is settled. -/
theorem parse_number_settled (A : Numeric T) (p : Parser) :
    Settled p (parse_number A p) := by
  obtain ⟨num', q, h1, h2⟩ := parse_number_loop_forward (p.input.length - p.pos) [] p
  have h3 := stod_ne_OutOfFuel A num'
  cases hs : stod A num' with
  | error e =>
    rw [hs] at h3
    have he : e ≠ .OutOfFuel := fun h => h3 (by rw [h])
    simp only [parse_number, h1, hs]
    exact ⟨by simpa using he, fun a r h => by simp at h⟩
  | ok v =>
    simp only [parse_number, h1, hs]
    refine ⟨by simp, fun a r h => ?_⟩
    simp only [Except.ok.injEq, Prod.mk.injEq] at h
    rw [← h.2]
    exact h2

end Parser

namespace Parser

variable {T : Type}

theorem advance_skip_whitespace (p : Parser) : p.skip_whitespace.advance = p.advance := by
  unfold advance
  rw [skip_whitespace_idem]

/-- The method `parse_expression` as two steps. -/
theorem parse_expression_eq (A : Numeric T) (n : Nat) (p : Parser) :
    parse_expression A (n + 1) p =
      andThen (parse_term A n p) (fun left q => parse_expression_loop A n left q) := by
  simp only [parse_expression, andThen]
  cases parse_term A n p <;> rfl

/-- The method `parse_term` as two steps. -/
theorem parse_term_eq (A : Numeric T) (n : Nat) (p : Parser) :
    parse_term A (n + 1) p =
      andThen (parse_factor A n p) (fun left q => parse_term_loop A n left q) := by
  simp only [parse_term, andThen]
  cases parse_factor A n p <;> rfl

/-- The method `parse_factor` as a function of the next character. -/
theorem parse_factor_eq (A : Numeric T) (n : Nat) (p : Parser) :
    parse_factor A (n + 1) p =
      andThen (parse_primary A n p) (fun left q =>
        if q.next = some '^' then
          andThen (parse_factor A n q.advance) (fun right r =>
            .ok (.OperationPow left right, r))
        else .ok (left, q.skip_whitespace)) := by
  simp only [parse_factor, match_eq, andThen]
  cases parse_primary A n p with
  | error e => rfl
  | ok r =>
    obtain ⟨left, q⟩ := r
    by_cases hc : q.next = some '^'
    · simp only [hc, if_true]
      cases parse_factor A n q.advance <;> rfl
    · simp only [hc, if_false]
      simp

/-- The loop of `parse_term` as a function of the next character. -/
theorem parse_term_loop_eq (A : Numeric T) (n : Nat) (left : Expression T) (p : Parser) :
    parse_term_loop A (n + 1) left p =
      if p.next = some '*' then
        andThen (parse_factor A n p.advance) (fun right q =>
          parse_term_loop A n (.OperationMul left right) q)
      else if p.next = some '/' then
        andThen (parse_factor A n p.advance) (fun right q =>
          parse_term_loop A n (.OperationDiv left right) q)
      else .ok (left, p.skip_whitespace) := by
  simp only [parse_term_loop, match_eq, andThen]
  by_cases h1 : p.next = some '*'
  · simp only [h1, if_true]
    cases parse_factor A n p.advance <;> rfl
  · by_cases h2 : p.next = some '/'
    · simp only [h1, if_false, Bool.false_eq_true, next_skip_whitespace,
        advance_skip_whitespace]
      simp only [h2, if_true]
      cases parse_factor A n p.advance <;> rfl
    · simp only [h1, if_false, Bool.false_eq_true, next_skip_whitespace, h2,
        skip_whitespace_idem]

/-- The loop of `parse_expression` as a function of the next character. -/
theorem parse_expression_loop_eq (A : Numeric T) (n : Nat) (left : Expression T)
    (p : Parser) :
    parse_expression_loop A (n + 1) left p =
      if p.next = some '+' then
        andThen (parse_term A n p.advance) (fun right q =>
          parse_expression_loop A n (.OperationAdd left right) q)
      else if p.next = some '-' then
        andThen (parse_term A n p.advance) (fun right q =>
          parse_expression_loop A n (.OperationSub left right) q)
      else .ok (left, p.skip_whitespace) := by
  simp only [parse_expression_loop, match_eq, andThen]
  by_cases h1 : p.next = some '+'
  · simp only [h1, if_true]
    cases parse_term A n p.advance <;> rfl
  · by_cases h2 : p.next = some '-'
    · simp only [h1, if_false, Bool.false_eq_true, next_skip_whitespace,
        advance_skip_whitespace]
      simp only [h2, if_true]
      cases parse_term A n p.advance <;> rfl
    · simp only [h1, if_false, Bool.false_eq_true, next_skip_whitespace, h2,
        skip_whitespace_idem]

/-- The group branch of `parse_primary` as two steps. -/
theorem parse_primary_paren_eq (A : Numeric T) (n : Nat) (p : Parser)
    (h : p.next = some '(') :
    parse_primary A (n + 1) p =
      andThen (parse_expression A n p.advance) (fun expr q =>
        if q.next = some ')' then .ok (expr, q.advance)
        else .error .ExpectedCloseParen) := by
  rw [parse_primary_eq, if_pos h]
  simp only [andThen]
  cases parse_expression A n p.advance <;> rfl

/-- The method `parse_function` as two steps, after the name `func` has been
collected. -/
theorem parse_function_andThen (A : Numeric T) (n : Nat) (p q : Parser) (func : List Char)
    (h : parse_function_loop (p.input.length - p.pos) [] p = .ok (func, q)) :
    parse_function A (n + 1) p =
      if func = "sin".toList then
        andThen (parse_primary A n q) (fun arg r => .ok (.OperationSin arg, r))
      else if func = "cos".toList then
        andThen (parse_primary A n q) (fun arg r => .ok (.OperationCos arg, r))
      else if func = "ln".toList then
        andThen (parse_primary A n q) (fun arg r => .ok (.OperationLn arg, r))
      else if func = "exp".toList then
        andThen (parse_primary A n q) (fun arg r => .ok (.OperationExp arg, r))
      else .error (.UnknownFunction (String.mk func)) := by
  simp only [parse_function, h, andThen]
  split_ifs <;> (cases parse_primary A n q <;> rfl)

theorem Settled_error {α : Type} (p : Parser) (e : ParseError) (h : e ≠ .OutOfFuel) :
    Settled p (.error e : Except ParseError (α × Parser)) :=
  ⟨fun he => h (by injection he), fun _ _ he => nomatch he⟩

theorem Settled_ok {α : Type} (p q : Parser) (a : α) (h : Forward p q) :
    Settled p (.ok (a, q) : Except ParseError (α × Parser)) :=
  ⟨(fun he => nomatch he), fun b r he => by
    simp only [Except.ok.injEq, Prod.mk.injEq] at he
    rw [← he.2]
    exact h⟩

theorem Settled_of_Forward {α : Type} {p q : Parser}
    {res : Except ParseError (α × Parser)} (h : Forward p q) (hs : Settled q res) :
    Settled p res :=
  ⟨hs.1, fun a r he => Forward_trans h (hs.2 a r he)⟩

/-- Two settled steps in sequence are settled. -/
theorem Settled_andThen {α β : Type} (p0 p : Parser) (res : Except ParseError (α × Parser))
    (k : α → Parser → Except ParseError (β × Parser)) (hfw : Forward p0 p)
    (hres : Settled p res) (hk : ∀ a q, res = .ok (a, q) → Settled q (k a q)) :
    Settled p0 (andThen res k) := by
  cases res with
  | error e => exact ⟨fun he => hres.1 (by injection he with h; rw [h]), fun _ _ he => nomatch he⟩
  | ok r =>
    obtain ⟨a, q⟩ := r
    exact Settled_of_Forward (Forward_trans hfw (hres.2 a q rfl)) (hk a q rfl)

/-- Two steps in sequence have the same result when both steps have. -/
theorem andThen_congr {α β : Type} (res res' : Except ParseError (α × Parser))
    (k k' : α → Parser → Except ParseError (β × Parser)) (h : res' = res)
    (hk : ∀ a q, res = .ok (a, q) → k' a q = k a q) :
    andThen res' k' = andThen res k := by
  rw [h]
  cases res with
  | error e => rfl
  | ok r =>
    obtain ⟨a, q⟩ := r
    exact hk a q rfl

end Parser

namespace Parser

variable {T : Type}

theorem step_expression (A : Numeric T) (n : Nat)
    (hT : ∀ p, 4 * p.remaining + 3 ≤ n → Stable (parse_term A n) (parse_term A (n + 1)) p)
    (hEL : ∀ left p, 4 * p.remaining + 1 ≤ n →
      Stable (parse_expression_loop A n left) (parse_expression_loop A (n + 1) left) p) :
    ∀ p, 4 * p.remaining + 4 ≤ n + 1 →
      Stable (parse_expression A (n + 1)) (parse_expression A (n + 1 + 1)) p := by
  intro p hb
  have hT' := hT p (by omega)
  unfold Stable
  rw [parse_expression_eq A (n + 1) p, parse_expression_eq A n p]
  have hq : ∀ left q, parse_term A n p = .ok (left, q) → 4 * q.remaining + 1 ≤ n := by
    intro left q h
    have := Forward_remaining (hT'.1.2 left q h)
    omega
  exact ⟨Settled_andThen p p _ _ (Forward_refl p) hT'.1
      (fun left q h => (hEL left q (hq left q h)).1),
    andThen_congr _ _ _ _ hT'.2 (fun left q h => (hEL left q (hq left q h)).2)⟩

theorem step_term (A : Numeric T) (n : Nat)
    (hF : ∀ p, 4 * p.remaining + 2 ≤ n → Stable (parse_factor A n) (parse_factor A (n + 1)) p)
    (hTL : ∀ left p, 4 * p.remaining + 1 ≤ n →
      Stable (parse_term_loop A n left) (parse_term_loop A (n + 1) left) p) :
    ∀ p, 4 * p.remaining + 3 ≤ n + 1 →
      Stable (parse_term A (n + 1)) (parse_term A (n + 1 + 1)) p := by
  intro p hb
  have hF' := hF p (by omega)
  unfold Stable
  rw [parse_term_eq A (n + 1) p, parse_term_eq A n p]
  have hq : ∀ left q, parse_factor A n p = .ok (left, q) → 4 * q.remaining + 1 ≤ n := by
    intro left q h
    have := Forward_remaining (hF'.1.2 left q h)
    omega
  exact ⟨Settled_andThen p p _ _ (Forward_refl p) hF'.1
      (fun left q h => (hTL left q (hq left q h)).1),
    andThen_congr _ _ _ _ hF'.2 (fun left q h => (hTL left q (hq left q h)).2)⟩

theorem step_factor (A : Numeric T) (n : Nat)
    (hP : ∀ p, 4 * p.remaining + 1 ≤ n →
      Stable (parse_primary A n) (parse_primary A (n + 1)) p)
    (hF : ∀ p, 4 * p.remaining + 2 ≤ n → Stable (parse_factor A n) (parse_factor A (n + 1)) p) :
    ∀ p, 4 * p.remaining + 2 ≤ n + 1 →
      Stable (parse_factor A (n + 1)) (parse_factor A (n + 1 + 1)) p := by
  intro p hb
  have hP' := hP p (by omega)
  unfold Stable
  rw [parse_factor_eq A (n + 1) p, parse_factor_eq A n p]
  have hq : ∀ left q, parse_primary A n p = .ok (left, q) → q.next = some '^' →
      Forward q q.advance ∧ 4 * q.advance.remaining + 2 ≤ n := by
    intro left q h hc
    have h1 := Forward_remaining (hP'.1.2 left q h)
    have h2 := Forward_advance q '^' hc
    exact ⟨h2.1, by have := h2.2; omega⟩
  refine ⟨Settled_andThen p p _ _ (Forward_refl p) hP'.1 (fun left q h => ?_),
    andThen_congr _ _ _ _ hP'.2 (fun left q h => ?_)⟩
  · by_cases hc : q.next = some '^'
    · simp only [hc, if_true]
      exact Settled_andThen q q.advance _ _ (hq left q h hc).1
        (hF q.advance (hq left q h hc).2).1 (fun right r _ => Settled_ok r r _ (Forward_refl r))
    · simp only [hc, if_false]
      exact Settled_ok q _ _ (Forward_skip_whitespace q)
  · by_cases hc : q.next = some '^'
    · simp only [hc, if_true]
      exact andThen_congr _ _ _ _ (hF q.advance (hq left q h hc).2).2 (fun _ _ _ => rfl)
    · simp only [hc, if_false]

theorem step_term_loop (A : Numeric T) (n : Nat)
    (hF : ∀ p, 4 * p.remaining + 2 ≤ n → Stable (parse_factor A n) (parse_factor A (n + 1)) p)
    (hTL : ∀ left p, 4 * p.remaining + 1 ≤ n →
      Stable (parse_term_loop A n left) (parse_term_loop A (n + 1) left) p) :
    ∀ left p, 4 * p.remaining + 1 ≤ n + 1 →
      Stable (parse_term_loop A (n + 1) left) (parse_term_loop A (n + 1 + 1) left) p := by
  intro left p hb
  unfold Stable
  rw [parse_term_loop_eq A (n + 1) left p, parse_term_loop_eq A n left p]
  have key : ∀ c, p.next = some c → ∀ node : Expression T → Expression T,
      Settled p (andThen (parse_factor A n p.advance)
          (fun right q => parse_term_loop A n (node right) q))
        ∧ andThen (parse_factor A (n + 1) p.advance)
            (fun right q => parse_term_loop A (n + 1) (node right) q)
          = andThen (parse_factor A n p.advance)
            (fun right q => parse_term_loop A n (node right) q) := by
    intro c hc node
    have hadv := Forward_advance p c hc
    have hF' := hF p.advance (by have := hadv.2; omega)
    have hq : ∀ right q, parse_factor A n p.advance = .ok (right, q) →
        4 * q.remaining + 1 ≤ n := by
      intro right q h
      have := Forward_remaining (hF'.1.2 right q h)
      have := hadv.2
      omega
    exact ⟨Settled_andThen p p.advance _ _ hadv.1 hF'.1
        (fun right q h => (hTL (node right) q (hq right q h)).1),
      andThen_congr _ _ _ _ hF'.2 (fun right q h => (hTL (node right) q (hq right q h)).2)⟩
  by_cases h1 : p.next = some '*'
  · simp only [h1, if_true]
    exact key '*' h1 (fun right => .OperationMul left right)
  · by_cases h2 : p.next = some '/'
    · simp only [h1, h2, if_false, if_true]
      simp only [Option.some.injEq, Char.reduceEq, if_false]
      exact key '/' h2 (fun right => .OperationDiv left right)
    · simp only [h1, h2, if_false]
      exact ⟨Settled_ok p _ _ (Forward_skip_whitespace p), trivial⟩

theorem step_expression_loop (A : Numeric T) (n : Nat)
    (hT : ∀ p, 4 * p.remaining + 3 ≤ n → Stable (parse_term A n) (parse_term A (n + 1)) p)
    (hEL : ∀ left p, 4 * p.remaining + 1 ≤ n →
      Stable (parse_expression_loop A n left) (parse_expression_loop A (n + 1) left) p) :
    ∀ left p, 4 * p.remaining + 1 ≤ n + 1 →
      Stable (parse_expression_loop A (n + 1) left)
        (parse_expression_loop A (n + 1 + 1) left) p := by
  intro left p hb
  unfold Stable
  rw [parse_expression_loop_eq A (n + 1) left p, parse_expression_loop_eq A n left p]
  have key : ∀ c, p.next = some c → ∀ node : Expression T → Expression T,
      Settled p (andThen (parse_term A n p.advance)
          (fun right q => parse_expression_loop A n (node right) q))
        ∧ andThen (parse_term A (n + 1) p.advance)
            (fun right q => parse_expression_loop A (n + 1) (node right) q)
          = andThen (parse_term A n p.advance)
            (fun right q => parse_expression_loop A n (node right) q) := by
    intro c hc node
    have hadv := Forward_advance p c hc
    have hT' := hT p.advance (by have := hadv.2; omega)
    have hq : ∀ right q, parse_term A n p.advance = .ok (right, q) →
        4 * q.remaining + 1 ≤ n := by
      intro right q h
      have := Forward_remaining (hT'.1.2 right q h)
      have := hadv.2
      omega
    exact ⟨Settled_andThen p p.advance _ _ hadv.1 hT'.1
        (fun right q h => (hEL (node right) q (hq right q h)).1),
      andThen_congr _ _ _ _ hT'.2 (fun right q h => (hEL (node right) q (hq right q h)).2)⟩
  by_cases h1 : p.next = some '+'
  · simp only [h1, if_true]
    exact key '+' h1 (fun right => .OperationAdd left right)
  · by_cases h2 : p.next = some '-'
    · simp only [h1, h2, if_false, if_true]
      simp only [Option.some.injEq, Char.reduceEq, if_false]
      exact key '-' h2 (fun right => .OperationSub left right)
    · simp only [h1, h2, if_false]
      exact ⟨Settled_ok p _ _ (Forward_skip_whitespace p), trivial⟩

end Parser

namespace Parser

variable {T : Type}

theorem step_primary (A : Numeric T) (n : Nat)
    (hE : ∀ p, 4 * p.remaining + 4 ≤ n →
      Stable (parse_expression A n) (parse_expression A (n + 1)) p)
    (hFN : ∀ p, 4 * p.remaining ≤ n → 1 ≤ n →
      Stable (parse_function A n) (parse_function A (n + 1)) p) :
    ∀ p, 4 * p.remaining + 1 ≤ n + 1 →
      Stable (parse_primary A (n + 1)) (parse_primary A (n + 1 + 1)) p := by
  intro p hb
  unfold Stable
  by_cases h1 : p.next = some '('
  · rw [parse_primary_paren_eq A (n + 1) p h1, parse_primary_paren_eq A n p h1]
    have hadv := Forward_advance p '(' h1
    have hE' := hE p.advance (by have := hadv.2; omega)
    refine ⟨Settled_andThen p p.advance _ _ hadv.1 hE'.1 (fun expr q _ => ?_),
      andThen_congr _ _ _ _ hE'.2 (fun _ _ _ => rfl)⟩
    by_cases hc : q.next = some ')'
    · simp only [hc, if_true]
      exact Settled_ok q _ _ (Forward_advance q ')' hc).1
    · simp only [hc, if_false]
      exact Settled_error q _ (by simp)
  · rw [parse_primary_eq A (n + 1) p, parse_primary_eq A n p, if_neg h1, if_neg h1]
    by_cases h2 : isalpha (p.next.getD (Char.ofNat 0)) = true
    · rw [if_pos h2, if_pos h2]
      cases hn : p.next with
      | none => rw [hn] at h2; exact absurd h2 (by decide)
      | some c =>
        have hadv := Forward_advance p c hn
        by_cases h3 : c = 'x' ∨ c = 'y'
        · simp only [Option.some.injEq, h3, if_true]
          exact ⟨Settled_ok p _ _ hadv.1, trivial⟩
        · simp only [Option.some.injEq, h3, if_false]
          have hsk := Forward_skip_whitespace p
          have hFN' := hFN p.skip_whitespace
            (by have := Forward_remaining hsk; omega) (by have := hadv.2; omega)
          exact ⟨Settled_of_Forward hsk hFN'.1, hFN'.2⟩
    · rw [if_neg h2, if_neg h2]
      by_cases h4 : (isdigit (p.next.getD (Char.ofNat 0))
          || p.next.getD (Char.ofNat 0) == '.') = true
      · rw [if_pos h4]
        exact ⟨Settled_of_Forward (Forward_skip_whitespace p)
          (parse_number_settled A p.skip_whitespace), rfl⟩
      · rw [if_neg h4]
        exact ⟨Settled_error p _ (by simp), rfl⟩

theorem step_function (A : Numeric T) (n : Nat)
    (hP : ∀ p, 4 * p.remaining + 1 ≤ n →
      Stable (parse_primary A n) (parse_primary A (n + 1)) p) :
    ∀ p, 4 * p.remaining ≤ n + 1 → 1 ≤ n + 1 →
      Stable (parse_function A (n + 1)) (parse_function A (n + 1 + 1)) p := by
  intro p hb _
  obtain ⟨func, q, hl, hfw, hlen⟩ := parse_function_loop_forward (p.input.length - p.pos) [] p
  unfold Stable
  rw [parse_function_andThen A (n + 1) p q func hl, parse_function_andThen A n p q func hl]
  have key : 2 ≤ func.length → ∀ node : Expression T → Expression T,
      Settled p (andThen (parse_primary A n q) (fun arg r => .ok (node arg, r)))
        ∧ andThen (parse_primary A (n + 1) q) (fun arg r => .ok (node arg, r))
          = andThen (parse_primary A n q) (fun arg r => .ok (node arg, r)) := by
    intro h2 node
    simp only [List.length_nil, Nat.zero_add] at hlen
    have hP' := hP q (by omega)
    exact ⟨Settled_andThen p q _ _ hfw hP'.1 (fun arg r _ => Settled_ok r r _ (Forward_refl r)),
      andThen_congr _ _ _ _ hP'.2 (fun _ _ _ => rfl)⟩
  by_cases h1 : func = "sin".toList
  · rw [if_pos h1, if_pos h1]
    exact key (by rw [h1]; decide) _
  · rw [if_neg h1, if_neg h1]
    by_cases h2 : func = "cos".toList
    · rw [if_pos h2, if_pos h2]
      exact key (by rw [h2]; decide) _
    · rw [if_neg h2, if_neg h2]
      by_cases h3 : func = "ln".toList
      · rw [if_pos h3, if_pos h3]
        exact key (by rw [h3]; decide) _
      · rw [if_neg h3, if_neg h3]
        by_cases h4 : func = "exp".toList
        · rw [if_pos h4, if_pos h4]
          exact key (by rw [h4]; decide) _
        · rw [if_neg h4, if_neg h4]
          exact ⟨Settled_error p _ (by simp), rfl⟩

/-- Every recursion budget is large enough on the states whose remaining input it
covers, and one more unit of budget changes nothing there. -/
theorem within_all (A : Numeric T) : ∀ n, Within A n := by
  intro n
  induction n with
  | zero =>
    refine ⟨fun p h => ?_, fun p h => ?_, fun p h => ?_, fun p h => ?_, fun l p h => ?_,
      fun l p h => ?_, fun p _ h => ?_⟩ <;> omega
  | succ n ih =>
    obtain ⟨hP, hF, hT, hE, hTL, hEL, hFN⟩ := ih
    exact ⟨step_primary A n hE hFN, step_factor A n hP hF, step_term A n hF hTL,
      step_expression A n hT hEL, step_term_loop A n hF hTL,
      step_expression_loop A n hT hEL, step_function A n hP⟩

/-- A budget above the one of `parse` gives the result of `parse`. -/
theorem parse_expression_budget (A : Numeric T) (p : Parser) :
    ∀ k, parse_expression A (4 * p.input.length + 4 + k) p = parse A p := by
  intro k
  induction k with
  | zero => rfl
  | succ k ih =>
    have hb : 4 * p.remaining + 4 ≤ 4 * p.input.length + 4 + k := by
      unfold remaining; omega
    rw [← ih]
    exact ((within_all A _).2.2.2.1 p hb).2

/-- The method `parse` is settled on every state. -/
theorem parse_settled (A : Numeric T) (p : Parser) : Settled p (parse A p) := by
  have hb : 4 * p.remaining + 4 ≤ 4 * p.input.length + 4 := by
    unfold remaining; omega
  exact ((within_all A _).2.2.2.1 p hb).1

end Parser

namespace Expression

variable {T : Type}

/-- C19: the parser terminates on every input. From every state `p`, `parse` returns an
expression or fails with one of its exceptions: the recursion budget of the embedding
is never exhausted, and a larger budget gives the same result. The cursor never
decreases and never leaves the input, in the scanning primitives and in `parse`; it has
strictly advanced when `match` has succeeded, which comes before the calls of
`parse_expression` in `parse_primary` and of `parse_factor` in `parse_factor`, and when
`parse_function` has collected a name, which comes before its call of
`parse_primary`. -/
theorem parser_terminates (A : Numeric T) (p : Parser) :
    Parser.parse A p ≠ .error .OutOfFuel
      ∧ (∀ k, Parser.parse_expression A (4 * p.input.length + 4 + k) p = Parser.parse A p)
      ∧ (∀ e q, Parser.parse A p = .ok (e, q) → Parser.Forward p q)
      ∧ Parser.Forward p p.skip_whitespace
      ∧ Parser.Forward p p.peek.2
      ∧ (∀ c, Parser.Forward p (p.match_ c).2)
      ∧ (∀ c q, p.consume = .ok (c, q) → Parser.Forward p q)
      ∧ (∀ c, (p.match_ c).1 = true → p.pos < (p.match_ c).2.pos)
      ∧ (∀ func q, Parser.parse_function_loop (p.input.length - p.pos) [] p = .ok (func, q) →
          func ≠ [] → p.pos < q.pos)
      ∧ (∀ input : String, from_string A input ≠ .error .OutOfFuel) := by
  have hadv : ∀ (r : Parser) (c : Char), r.next = some c → r.pos < r.advance.pos := by
    intro r c hc
    have h1 := (Parser.Forward_skip_whitespace r).2.1
    show r.pos < r.skip_whitespace.pos + 1
    omega
  refine ⟨(Parser.parse_settled A p).1, Parser.parse_expression_budget A p,
    (Parser.parse_settled A p).2, Parser.Forward_skip_whitespace p, ?_, fun c => ?_,
    fun c q h => ?_, fun c h => ?_, fun func q h hne => ?_, fun input => ?_⟩
  · rw [Parser.peek_eq]
    exact Parser.Forward_skip_whitespace p
  · rw [Parser.match_eq]
    by_cases hc : p.next = some c
    · rw [if_pos hc]
      exact (Parser.Forward_advance p c hc).1
    · rw [if_neg hc]
      exact Parser.Forward_skip_whitespace p
  · rw [Parser.consume_eq] at h
    cases hn : p.next with
    | none => rw [hn] at h; cases h
    | some d =>
      rw [hn] at h
      simp only [Except.ok.injEq, Prod.mk.injEq] at h
      rw [← h.2]
      exact (Parser.Forward_advance p d hn).1
  · rw [Parser.match_eq] at h ⊢
    by_cases hc : p.next = some c
    · rw [if_pos hc]
      exact hadv p c hc
    · rw [if_neg hc] at h
      cases h
  · obtain ⟨func', q', h1, h2, h3⟩ :=
      Parser.parse_function_loop_forward (p.input.length - p.pos) [] p
    rw [h1] at h
    simp only [Except.ok.injEq, Prod.mk.injEq] at h
    obtain ⟨rfl, rfl⟩ := h
    have hlen : 1 ≤ func'.length := by
      cases func' with
      | nil => exact absurd rfl hne
      | cons c t => exact Nat.succ_le_succ (Nat.zero_le _)
    have hin := h2.1
    simp only [Parser.remaining, List.length_nil, Nat.zero_add, hin] at h3
    omega
  · have h := (Parser.parse_settled A { input := input.toList, pos := 0 }).1
    unfold from_string
    cases hp : Parser.parse A { input := input.toList, pos := 0 } with
    | error e =>
      rw [hp] at h
      intro he
      exact h (by simpa using he)
    | ok r => simp

end Expression

namespace Expression

/-! ### The derivative computed by `diff` is the derivative -/

theorem eval_congr_find (A : Numeric ℝ) (ctx ctx' : Context ℝ)
    (h : ∀ v, ctx.find v = ctx'.find v) :
    ∀ e : Expression ℝ, eval A e ctx = eval A e ctx' := by
  intro e
  induction e with
  | Value v => rfl
  | Variable name => simp only [eval, h]
  | OperationAdd l r ihl ihr | OperationMul l r ihl ihr | OperationSub l r ihl ihr
  | OperationDiv l r ihl ihr | OperationPow l r ihl ihr => simp only [eval, ihl, ihr]
  | OperationSin u ih | OperationCos u ih | OperationLn u ih | OperationExp u ih =>
    simp only [eval, ih]

theorem value_congr_find (ctx ctx' : Context ℝ) (h : ∀ v, ctx.find v = ctx'.find v) :
    ∀ e : Expression ℝ, value e ctx = value e ctx' := by
  intro e
  induction e with
  | Value v => rfl
  | Variable name => simp only [value, h]
  | OperationAdd l r ihl ihr | OperationMul l r ihl ihr | OperationSub l r ihl ihr
  | OperationDiv l r ihl ihr | OperationPow l r ihl ihr => simp only [value, ihl, ihr]
  | OperationSin u ih | OperationCos u ih | OperationLn u ih | OperationExp u ih =>
    simp only [value, ih]

theorem Admissible_congr_find (A : Numeric ℝ) (ctx ctx' : Context ℝ)
    (h : ∀ v, ctx.find v = ctx'.find v) :
    ∀ e : Expression ℝ, Admissible A e ctx → Admissible A e ctx' := by
  intro e
  induction e with
  | Value v => exact fun _ => trivial
  | Variable name => simp only [Admissible, h]; exact fun hh => hh
  | OperationAdd l r ihl ihr | OperationMul l r ihl ihr | OperationSub l r ihl ihr =>
    exact fun hh => ⟨ihl hh.1, ihr hh.2⟩
  | OperationDiv l r ihl ihr =>
    intro hh
    refine ⟨ihl hh.1, ihr hh.2.1, ?_⟩
    rw [← eval_congr_find A ctx ctx' h r]
    exact hh.2.2
  | OperationPow l r ihl ihr =>
    intro hh
    refine ⟨ihl hh.1, ihr hh.2.1, ?_⟩
    rw [← eval_congr_find A ctx ctx' h l]
    exact hh.2.2
  | OperationSin u ih | OperationCos u ih | OperationExp u ih => exact fun hh => ih hh
  | OperationLn u ih =>
    intro hh
    refine ⟨ih hh.1, ?_⟩
    rw [← eval_congr_find A ctx ctx' h u]
    exact hh.2

/-- Under the conditions, `eval` returns the real number that the expression denotes. -/
theorem eval_eq_value (render : ℝ → String) (ctx : Context ℝ) :
    ∀ e : Expression ℝ, Admissible (realNumeric render) e ctx →
      eval (realNumeric render) e ctx = .ok (value e ctx) := by
  intro e
  induction e with
  | Value v => intro _; rfl
  | Variable name =>
    intro h
    simp only [Admissible] at h
    cases hf : ctx.find name with
    | none => exact absurd hf h
    | some v => simp [eval, value, hf]
  | OperationAdd l r ihl ihr | OperationMul l r ihl ihr | OperationSub l r ihl ihr =>
    intro h
    simp only [eval, ihl h.1, ihr h.2]
    rfl
  | OperationDiv l r ihl ihr =>
    intro h
    obtain ⟨hl, hr, d, hd, hne⟩ := h
    rw [ihr hr] at hd
    simp only [Except.ok.injEq] at hd
    rw [← hd] at hne
    have hz : (realNumeric render).eq (value r ctx) (realNumeric render).zero = false := by
      simp [realNumeric, hne]
    simp only [eval, ihl hl, ihr hr, hz]
    rfl
  | OperationPow l r ihl ihr =>
    intro h
    simp only [eval, ihl h.1, ihr h.2.1]
    rfl
  | OperationSin u ih | OperationCos u ih | OperationExp u ih =>
    intro h
    simp only [eval, ih h]
    rfl
  | OperationLn u ih =>
    intro h
    simp only [eval, ih h.1]
    rfl

end Expression

namespace Expression

theorem find_cons_self (ctx : Context ℝ) (x : String) (t : ℝ) :
    Context.find ((x, t) :: ctx) x = some t := by
  simp [Context.find, List.lookup]

theorem find_cons_other (ctx : Context ℝ) (x v : String) (t : ℝ) (h : v ≠ x) :
    Context.find ((x, t) :: ctx) v = ctx.find v := by
  have hb : (v == x) = false := by simpa using h
  simp [Context.find, List.lookup, hb]

theorem find_cons_bound (ctx : Context ℝ) (x : String) (t0 : ℝ) (hx : ctx.find x = some t0) :
    ∀ v, Context.find ((x, t0) :: ctx) v = ctx.find v := by
  intro v
  by_cases h : v = x
  · rw [h, find_cons_self, hx]
  · exact find_cons_other ctx x v t0 h

/-- The induction behind C20: at the bound value of `x` the denoted function has the
derivative that `diff` denotes, the conditions hold for the derivative, and they hold
for the expression at every value of `x` near the bound one. -/
theorem value_hasDerivAt (render : ℝ → String) (x : String) (ctx : Context ℝ) (t0 : ℝ)
    (hx : ctx.find x = some t0) :
    ∀ e : Expression ℝ, Admissible (realNumeric render) e ctx →
      HasDerivAt (fun t => value e ((x, t) :: ctx))
          (value (diff (realNumeric render) e x) ctx) t0
        ∧ Admissible (realNumeric render) (diff (realNumeric render) e x) ctx
        ∧ ∀ᶠ t in nhds t0, Admissible (realNumeric render) e ((x, t) :: ctx) := by
  have hv0 : ∀ e : Expression ℝ, value e ((x, t0) :: ctx) = value e ctx :=
    value_congr_find _ _ (find_cons_bound ctx x t0 hx)
  intro e
  induction e with
  | Value v =>
    intro _
    exact ⟨hasDerivAt_const t0 v, trivial, Filter.Eventually.of_forall (fun _ => trivial)⟩
  | Variable name =>
    intro h
    by_cases hn : name = x
    · subst hn
      refine ⟨?_, ?_, Filter.Eventually.of_forall (fun t => ?_)⟩
      · have h1 : (fun t : ℝ => value (Variable name) ((name, t) :: ctx)) = fun t => t := by
          funext t
          simp [value, find_cons_self]
        have h2 : value (diff (realNumeric render) (Variable name) name) ctx = 1 := by
          simp [diff, value, realNumeric]
        rw [h1, h2]
        exact hasDerivAt_id t0
      · simp [diff, Admissible]
      · simp [Admissible, find_cons_self]
    · refine ⟨?_, ?_, Filter.Eventually.of_forall (fun t => ?_)⟩
      · have h1 : (fun t : ℝ => value (Variable name) ((x, t) :: ctx))
            = fun _ => (ctx.find name).getD 0 := by
          funext t
          simp [value, find_cons_other ctx x name t hn]
        have h2 : value (diff (realNumeric render) (Variable name) x) ctx = 0 := by
          simp [diff, value, realNumeric, hn]
        rw [h1, h2]
        exact hasDerivAt_const t0 _
      · simp [diff, Admissible, hn]
      · simp only [Admissible, find_cons_other ctx x name t hn]
        exact h
  | OperationAdd l r ihl ihr =>
    intro h
    obtain ⟨dl, al, el⟩ := ihl h.1
    obtain ⟨dr, ar, er⟩ := ihr h.2
    exact ⟨dl.add dr, ⟨al, ar⟩, el.and er⟩
  | OperationSub l r ihl ihr =>
    intro h
    obtain ⟨dl, al, el⟩ := ihl h.1
    obtain ⟨dr, ar, er⟩ := ihr h.2
    exact ⟨dl.sub dr, ⟨al, ar⟩, el.and er⟩
  | OperationMul l r ihl ihr =>
    intro h
    obtain ⟨dl, al, el⟩ := ihl h.1
    obtain ⟨dr, ar, er⟩ := ihr h.2
    have hd := dl.mul dr
    rw [hv0 l, hv0 r] at hd
    exact ⟨hd, ⟨⟨al, h.2⟩, ⟨h.1, ar⟩⟩, el.and er⟩
  | OperationDiv l r ihl ihr =>
    intro h
    obtain ⟨hl, hr, d, hd, hne⟩ := h
    obtain ⟨dl, al, el⟩ := ihl hl
    obtain ⟨dr, ar, er⟩ := ihr hr
    rw [eval_eq_value render ctx r hr] at hd
    simp only [Except.ok.injEq] at hd
    rw [← hd] at hne
    have hne0 : value r ((x, t0) :: ctx) ≠ 0 := by rw [hv0 r]; exact hne
    have hdiv := dl.div dr hne0
    rw [hv0 l, hv0 r] at hdiv
    refine ⟨?_, ⟨⟨⟨al, hr⟩, ⟨hl, ar⟩⟩, ⟨hr, hr⟩, value r ctx * value r ctx, ?_,
      mul_ne_zero hne hne⟩, ?_⟩
    · have hval : value (diff (realNumeric render) (OperationDiv l r) x) ctx
          = (value (diff (realNumeric render) l x) ctx * value r ctx
              - value l ctx * value (diff (realNumeric render) r x) ctx) / value r ctx ^ 2 := by
        simp only [diff, value, pow_two]
      rw [hval]
      exact hdiv
    · exact eval_eq_value render ctx (OperationMul r r) ⟨hr, hr⟩
    · have hev := dr.continuousAt.eventually_ne hne0
      exact (el.and (er.and hev)).mono (fun t ht =>
        ⟨ht.1, ht.2.1, value r ((x, t) :: ctx), eval_eq_value render _ r ht.2.1, ht.2.2⟩)
  | OperationPow l r ihl ihr =>
    intro h
    obtain ⟨hl, hr, b, hb, hpos⟩ := h
    obtain ⟨dl, al, el⟩ := ihl hl
    obtain ⟨dr, ar, er⟩ := ihr hr
    rw [eval_eq_value render ctx l hl] at hb
    simp only [Except.ok.injEq] at hb
    rw [← hb] at hpos
    have hpos0 : 0 < value l ((x, t0) :: ctx) := by rw [hv0 l]; exact hpos
    have hpow := dl.rpow dr hpos0
    rw [hv0 l, hv0 r] at hpow
    have hle : ∃ a, eval (realNumeric render) l ctx = .ok a ∧ 0 < a :=
      ⟨value l ctx, eval_eq_value render ctx l hl, hpos⟩
    have hne : ∃ a, eval (realNumeric render) l ctx = .ok a ∧ a ≠ 0 :=
      ⟨value l ctx, eval_eq_value render ctx l hl, ne_of_gt hpos⟩
    refine ⟨?_, ⟨⟨hl, hr, hle⟩, ⟨⟨ar, ⟨hl, hle⟩⟩, ⟨hr, ⟨al, hl, hne⟩⟩⟩⟩, ?_⟩
    · have hval : value (diff (realNumeric render) (OperationPow l r) x) ctx
          = value (diff (realNumeric render) l x) ctx * value r ctx
              * value l ctx ^ (value r ctx - 1)
            + value (diff (realNumeric render) r x) ctx * value l ctx ^ value r ctx
              * Real.log (value l ctx) := by
        simp only [diff, value]
        rw [Real.rpow_sub_one (ne_of_gt hpos)]
        field_simp
        ring
      rw [hval]
      exact hpow
    · have hev := dl.continuousAt.eventually (lt_mem_nhds hpos0)
      exact (el.and (er.and hev)).mono (fun t ht =>
        ⟨ht.1, ht.2.1, value l ((x, t) :: ctx), eval_eq_value render _ l ht.1, ht.2.2⟩)
  | OperationSin u ih =>
    intro h
    obtain ⟨du, au, eu⟩ := ih h
    have hd := du.sin
    rw [hv0 u] at hd
    exact ⟨hd, ⟨h, au⟩, eu⟩
  | OperationCos u ih =>
    intro h
    obtain ⟨du, au, eu⟩ := ih h
    have hd := du.cos
    rw [hv0 u] at hd
    refine ⟨?_, ⟨⟨trivial, h⟩, au⟩, eu⟩
    have hval : value (diff (realNumeric render) (OperationCos u) x) ctx
        = -Real.sin (value u ctx) * value (diff (realNumeric render) u x) ctx := by
      simp only [diff, value, realNumeric]
      ring
    rw [hval]
    exact hd
  | OperationLn u ih =>
    intro h
    obtain ⟨hu, a, ha, hpos⟩ := h
    obtain ⟨du, au, eu⟩ := ih hu
    rw [eval_eq_value render ctx u hu] at ha
    simp only [Except.ok.injEq] at ha
    rw [← ha] at hpos
    have hne0 : value u ((x, t0) :: ctx) ≠ 0 := by rw [hv0 u]; exact ne_of_gt hpos
    have hpos0 : 0 < value u ((x, t0) :: ctx) := by rw [hv0 u]; exact hpos
    have hd := du.log hne0
    rw [hv0 u] at hd
    refine ⟨?_, ⟨⟨trivial, hu, value u ctx, eval_eq_value render ctx u hu, ne_of_gt hpos⟩,
      au⟩, ?_⟩
    · have hval : value (diff (realNumeric render) (OperationLn u) x) ctx
          = value (diff (realNumeric render) u x) ctx / value u ctx := by
        simp only [diff, value, realNumeric]
        ring
      rw [hval]
      exact hd
    · have hev := du.continuousAt.eventually (lt_mem_nhds hpos0)
      exact (eu.and hev).mono (fun t ht =>
        ⟨ht.1, value u ((x, t) :: ctx), eval_eq_value render _ u ht.1, ht.2⟩)
  | OperationExp u ih =>
    intro h
    obtain ⟨du, au, eu⟩ := ih h
    have hd := du.exp
    rw [hv0 u] at hd
    exact ⟨hd, ⟨h, au⟩, eu⟩

end Expression

namespace Expression

/-- C20: mathematical correctness of `diff`. In the instantiation at the real numbers,
for every expression `e`, variable `x` and context binding `x` and every variable of
`e`, if under the context every denominator of a `Div` in `e` is not zero and every
argument of `Ln` and every base of `Pow` in `e` is positive, then
`eval(diff(e, x), ctx)` succeeds, and its value is the derivative at `t = ctx[x]` of the
function `t ↦ eval(e, ctx with x set to t)`; setting `x` to `t` puts the binding of `x`
to `t` in front of the context. -/
theorem diff_is_derivative (render : ℝ → String) (e : Expression ℝ) (x : String)
    (ctx : Context ℝ) (t0 : ℝ) (hx : ctx.find x = some t0)
    (h : Admissible (realNumeric render) e ctx) :
    ∃ d, eval (realNumeric render) (diff (realNumeric render) e x) ctx = .ok d
      ∧ HasDerivAt (fun t => evalOrZero (realNumeric render) e ((x, t) :: ctx)) d t0 := by
  obtain ⟨hd, ha, he⟩ := value_hasDerivAt render x ctx t0 hx e h
  refine ⟨value (diff (realNumeric render) e x) ctx, eval_eq_value render ctx _ ha, ?_⟩
  refine hd.congr_of_eventuallyEq (he.mono (fun t ht => ?_))
  show evalOrZero (realNumeric render) e ((x, t) :: ctx) = value e ((x, t) :: ctx)
  unfold evalOrZero
  rw [eval_eq_value render _ e ht]

/-- Witness of C20 on `x ^ x` at `x = 2`: the conditions hold, and the value `d` of the
derivative expression is the derivative of `t ↦ t ^ t` as evaluated by `eval`. -/
theorem diff_is_derivative_witness :
    Context.find [("x", (2 : ℝ))] "x" = some 2
      ∧ Admissible (realNumeric (fun _ => "")) (OperationPow (Variable "x") (Variable "x"))
          [("x", 2)]
      ∧ ∃ d, eval (realNumeric (fun _ => ""))
            (diff (realNumeric (fun _ => "")) (OperationPow (Variable "x") (Variable "x")) "x")
            [("x", 2)] = .ok d
          ∧ HasDerivAt (fun t => evalOrZero (realNumeric (fun _ => ""))
              (OperationPow (Variable "x") (Variable "x")) [("x", t), ("x", 2)]) d 2 := by
  have hx : Context.find [("x", (2 : ℝ))] "x" = some 2 := by
    simp [Context.find, List.lookup]
  have ha : Admissible (realNumeric (fun _ => "")) (OperationPow (Variable "x") (Variable "x"))
      [("x", 2)] := by
    simp [Admissible, eval, hx]
  exact ⟨hx, ha, diff_is_derivative (fun _ => "") _ "x" [("x", 2)] 2 hx ha⟩

end Expression

namespace Expression

variable {T : Type}

/-! ### What `eval` has evaluated when it returns -/

theorem eval_binary_ok (A : Numeric T) (l r : Expression T) (ctx : Context T) (v : T) :
    (eval A (OperationAdd l r) ctx = .ok v →
        ∃ a b, eval A l ctx = .ok a ∧ eval A r ctx = .ok b ∧ v = A.add a b)
      ∧ (eval A (OperationMul l r) ctx = .ok v →
        ∃ a b, eval A l ctx = .ok a ∧ eval A r ctx = .ok b ∧ v = A.mul a b)
      ∧ (eval A (OperationSub l r) ctx = .ok v →
        ∃ a b, eval A l ctx = .ok a ∧ eval A r ctx = .ok b ∧ v = A.sub a b)
      ∧ (eval A (OperationPow l r) ctx = .ok v →
        ∃ a b, eval A l ctx = .ok a ∧ eval A r ctx = .ok b ∧ v = A.pow a b)
      ∧ (eval A (OperationDiv l r) ctx = .ok v →
        ∃ a b, eval A l ctx = .ok a ∧ eval A r ctx = .ok b ∧ A.eq b A.zero = false
          ∧ v = A.div a b) := by
  refine ⟨fun h => ?_, fun h => ?_, fun h => ?_, fun h => ?_, fun h => ?_⟩
  iterate 4
    simp only [eval] at h
    cases hl : eval A l ctx with
    | error e => simp [hl] at h
    | ok a =>
      cases hr : eval A r ctx with
      | error e => simp [hl, hr] at h
      | ok b =>
        simp only [hl, hr, Except.ok.injEq] at h
        exact ⟨a, b, rfl, rfl, h.symm⟩
  · simp only [eval] at h
    cases hr : eval A r ctx with
    | error e => simp [hr] at h
    | ok b =>
      cases hz : A.eq b A.zero with
      | true => simp [hr, hz] at h
      | false =>
        cases hl : eval A l ctx with
        | error e => simp [hl, hr, hz] at h
        | ok a =>
          simp only [hl, hr, hz, Bool.false_eq_true, if_false, Except.ok.injEq] at h
          exact ⟨a, b, rfl, rfl, hz, h.symm⟩

theorem eval_unary_ok (A : Numeric T) (u : Expression T) (ctx : Context T) (v : T) :
    (eval A (OperationSin u) ctx = .ok v → ∃ a, eval A u ctx = .ok a ∧ v = A.sin a)
      ∧ (eval A (OperationCos u) ctx = .ok v → ∃ a, eval A u ctx = .ok a ∧ v = A.cos a)
      ∧ (eval A (OperationLn u) ctx = .ok v → ∃ a, eval A u ctx = .ok a ∧ v = A.log a)
      ∧ (eval A (OperationExp u) ctx = .ok v → ∃ a, eval A u ctx = .ok a ∧ v = A.exp a) := by
  refine ⟨fun h => ?_, fun h => ?_, fun h => ?_, fun h => ?_⟩
  all_goals
    simp only [eval] at h
    cases hu : eval A u ctx with
    | error e => simp [hu] at h
    | ok a =>
      simp [hu] at h
      exact ⟨a, rfl, h.symm⟩

theorem eval_visits (A : Numeric T) (ctx : Context T) :
    ∀ (e : Expression T) (v : T), eval A e ctx = .ok v →
      (∀ x ∈ variableNames e, ∃ w, ctx.find x = some w)
        ∧ (∀ d ∈ denominators e, ∃ w, eval A d ctx = .ok w ∧ A.eq w A.zero = false) := by
  intro e
  induction e with
  | Value value => intro v _; exact ⟨(fun x hx => nomatch hx), (fun d hd => nomatch hd)⟩
  | Variable name =>
    intro v h
    refine ⟨fun x hx => ?_, (fun d hd => nomatch hd)⟩
    simp only [variableNames, List.mem_singleton] at hx
    subst hx
    simp only [eval] at h
    cases hf : ctx.find x with
    | none => simp [hf] at h
    | some w => exact ⟨w, rfl⟩
  | OperationAdd l r ihl ihr =>
    intro v h
    obtain ⟨a, b, ha, hb, _⟩ := (eval_binary_ok A l r ctx v).1 h
    simp only [variableNames, denominators, List.mem_append]
    exact ⟨fun x hx => hx.elim ((ihl a ha).1 x) ((ihr b hb).1 x),
      fun d hd => hd.elim ((ihl a ha).2 d) ((ihr b hb).2 d)⟩
  | OperationMul l r ihl ihr =>
    intro v h
    obtain ⟨a, b, ha, hb, _⟩ := (eval_binary_ok A l r ctx v).2.1 h
    simp only [variableNames, denominators, List.mem_append]
    exact ⟨fun x hx => hx.elim ((ihl a ha).1 x) ((ihr b hb).1 x),
      fun d hd => hd.elim ((ihl a ha).2 d) ((ihr b hb).2 d)⟩
  | OperationSub l r ihl ihr =>
    intro v h
    obtain ⟨a, b, ha, hb, _⟩ := (eval_binary_ok A l r ctx v).2.2.1 h
    simp only [variableNames, denominators, List.mem_append]
    exact ⟨fun x hx => hx.elim ((ihl a ha).1 x) ((ihr b hb).1 x),
      fun d hd => hd.elim ((ihl a ha).2 d) ((ihr b hb).2 d)⟩
  | OperationPow l r ihl ihr =>
    intro v h
    obtain ⟨a, b, ha, hb, _⟩ := (eval_binary_ok A l r ctx v).2.2.2.1 h
    simp only [variableNames, denominators, List.mem_append]
    exact ⟨fun x hx => hx.elim ((ihl a ha).1 x) ((ihr b hb).1 x),
      fun d hd => hd.elim ((ihl a ha).2 d) ((ihr b hb).2 d)⟩
  | OperationDiv l r ihl ihr =>
    intro v h
    obtain ⟨a, b, ha, hb, hz, _⟩ := (eval_binary_ok A l r ctx v).2.2.2.2 h
    simp only [variableNames, denominators, List.mem_append, List.mem_cons]
    refine ⟨fun x hx => hx.elim ((ihl a ha).1 x) ((ihr b hb).1 x), fun d hd => ?_⟩
    rcases hd with hd | hd | hd
    · subst hd; exact ⟨b, hb, hz⟩
    · exact (ihl a ha).2 d hd
    · exact (ihr b hb).2 d hd
  | OperationSin u ih =>
    intro v h
    obtain ⟨a, ha, _⟩ := (eval_unary_ok A u ctx v).1 h
    exact ih a ha
  | OperationCos u ih =>
    intro v h
    obtain ⟨a, ha, _⟩ := (eval_unary_ok A u ctx v).2.1 h
    exact ih a ha
  | OperationLn u ih =>
    intro v h
    obtain ⟨a, ha, _⟩ := (eval_unary_ok A u ctx v).2.2.1 h
    exact ih a ha
  | OperationExp u ih =>
    intro v h
    obtain ⟨a, ha, _⟩ := (eval_unary_ok A u ctx v).2.2.2 h
    exact ih a ha

/-! ### The derivative by a variable that does not occur -/

theorem simplify_diff_absent (A : Numeric T) (h0 : A.render A.zero = "0") (x : String) :
    ∀ e : Expression T, x ∉ variableNames e → simplify A (diff A e x) = Value A.zero := by
  intro e
  induction e with
  | Value value => intro _; rfl
  | Variable name =>
    intro hx
    have hne : name ≠ x := fun h => hx (by simp [variableNames, h])
    simp [diff, hne, simplify]
  | OperationAdd l r ihl ihr =>
    intro hx
    simp only [variableNames, List.mem_append, not_or] at hx
    simp [diff, simplify, ihl hx.1, ihr hx.2, to_string, h0]
  | OperationMul l r ihl ihr =>
    intro hx
    simp only [variableNames, List.mem_append, not_or] at hx
    simp [diff, simplify, ihl hx.1, ihr hx.2, to_string, h0]
  | OperationSub l r ihl ihr =>
    intro hx
    simp only [variableNames, List.mem_append, not_or] at hx
    simp [diff, simplify, ihl hx.1, ihr hx.2, to_string, h0]
  | OperationDiv l r ihl ihr =>
    intro hx
    simp only [variableNames, List.mem_append, not_or] at hx
    simp [diff, simplify, ihl hx.1, ihr hx.2, to_string, h0]
  | OperationPow l r ihl ihr =>
    intro hx
    simp only [variableNames, List.mem_append, not_or] at hx
    simp [diff, simplify, ihl hx.1, ihr hx.2, to_string, h0]
  | OperationSin u ih => intro hx; simp [diff, simplify, ih hx, to_string, h0]
  | OperationCos u ih => intro hx; simp [diff, simplify, ih hx, to_string, h0]
  | OperationLn u ih => intro hx; simp [diff, simplify, ih hx, to_string, h0]
  | OperationExp u ih => intro hx; simp [diff, simplify, ih hx, to_string, h0]

/-! ### The value of a simplified expression -/

/-- A rendering that is `0` or `1` is the rendering of a `Value` or the name of a
`Variable`: every other node renders with a bracket. -/
theorem to_string_eq_digit (A : Numeric T) (s : String) (hs : s = "0" ∨ s = "1")
    (e : Expression T) (h : to_string A e = s) :
    (∃ v, e = Value v ∧ A.render v = s) ∨ e = Variable s := by
  cases e with
  | Value value => exact Or.inl ⟨value, rfl, h⟩
  | Variable name => exact Or.inr (by rw [← h]; rfl)
  | _ =>
    exfalso
    rcases hs with hs | hs <;> subst hs <;>
    · have := congrArg String.data h
      simp [to_string, String.data_append] at this

theorem variableNames_simplify (A : Numeric T) (x : String) :
    ∀ e : Expression T, x ∈ variableNames (simplify A e) → x ∈ variableNames e := by
  intro e
  induction e with
  | Value value => exact fun h => h
  | Variable name => exact fun h => h
  | OperationAdd l r ihl ihr =>
    simp only [simplify, variableNames, List.mem_append]
    split_ifs
    · exact fun h => Or.inr (ihr h)
    · exact fun h => Or.inl (ihl h)
    · simp only [variableNames, List.mem_append]
      exact fun h => h.imp ihl ihr
  | OperationMul l r ihl ihr =>
    simp only [simplify, variableNames, List.mem_append]
    split_ifs
    · exact fun h => nomatch h
    · exact fun h => Or.inr (ihr h)
    · exact fun h => Or.inl (ihl h)
    · simp only [variableNames, List.mem_append]
      exact fun h => h.imp ihl ihr
  | OperationSub l r ihl ihr =>
    simp only [simplify, variableNames, List.mem_append]
    split_ifs
    · exact fun h => Or.inl (ihl h)
    · simp only [variableNames, List.mem_append]
      exact fun h => h.imp ihl ihr
  | OperationDiv l r ihl ihr =>
    simp only [simplify, variableNames, List.mem_append]
    split_ifs
    · exact fun h => nomatch h
    · exact fun h => Or.inl (ihl h)
    · simp only [variableNames, List.mem_append]
      exact fun h => h.imp ihl ihr
  | OperationPow l r ihl ihr =>
    simp only [simplify, variableNames, List.mem_append]
    split_ifs
    · exact fun h => nomatch h
    · exact fun h => nomatch h
    · simp only [variableNames, List.mem_append]
      exact fun h => h.imp ihl ihr
  | OperationSin u ih => exact ih
  | OperationCos u ih => exact ih
  | OperationLn u ih => exact ih
  | OperationExp u ih => exact ih

/-- An expression without a variable of the name `s` that renders as `s`, for `s` one
of `0` and `1`, evaluates to a value that renders as `s`. -/
theorem eval_of_renders (A : Numeric T) (s : String) (hs : s = "0" ∨ s = "1")
    (e : Expression T) (ctx : Context T) (a : T) (h : to_string A e = s)
    (hv : s ∉ variableNames e) (ha : eval A e ctx = .ok a) : A.render a = s := by
  rcases to_string_eq_digit A s hs e h with ⟨v, he, hr⟩ | he
  · subst he
    simp only [eval, Except.ok.injEq] at ha
    rw [← ha]; exact hr
  · subst he
    exact absurd (by simp [variableNames]) hv

theorem eval_simplify [Field T] (A : Numeric T) (hA : A.ExactField) (hR : A.RendersExactly)
    (ctx : Context T) :
    ∀ e : Expression T, hasPow e = false → "0" ∉ variableNames e → "1" ∉ variableNames e →
      ∀ v, eval A e ctx = .ok v → eval A (simplify A e) ctx = .ok v := by
  obtain ⟨hzero, hone, hadd, hsub, hmul, hdiv⟩ := hA
  have zero_of : ∀ (e : Expression T) (a : T), to_string A (simplify A e) = "0" →
      "0" ∉ variableNames e → eval A (simplify A e) ctx = .ok a → a = 0 := by
    intro e a h hv ha
    rw [← hzero]
    exact hR.1 a (eval_of_renders A "0" (Or.inl rfl) _ ctx a h
      (fun hm => hv (variableNames_simplify A "0" e hm)) ha)
  have one_of : ∀ (e : Expression T) (a : T), to_string A (simplify A e) = "1" →
      "1" ∉ variableNames e → eval A (simplify A e) ctx = .ok a → a = 1 := by
    intro e a h hv ha
    rw [← hone]
    exact hR.2 a (eval_of_renders A "1" (Or.inr rfl) _ ctx a h
      (fun hm => hv (variableNames_simplify A "1" e hm)) ha)
  intro e
  induction e with
  | Value value => exact fun _ _ _ v h => h
  | Variable name => exact fun _ _ _ v h => h
  | OperationAdd l r ihl ihr =>
    intro hp h0 h1 v h
    simp only [hasPow, Bool.or_eq_false_iff] at hp
    simp only [variableNames, List.mem_append, not_or] at h0 h1
    obtain ⟨a, b, ha, hb, hv⟩ := (eval_binary_ok A l r ctx v).1 h
    have ha' := ihl hp.1 h0.1 h1.1 a ha
    have hb' := ihr hp.2 h0.2 h1.2 b hb
    subst hv
    simp only [simplify]
    split_ifs with c1 c2
    · rw [hadd, zero_of l a c1 h0.1 ha', zero_add]; exact hb'
    · rw [hadd, zero_of r b c2 h0.2 hb', add_zero]; exact ha'
    · simp only [eval, ha', hb']
  | OperationMul l r ihl ihr =>
    intro hp h0 h1 v h
    simp only [hasPow, Bool.or_eq_false_iff] at hp
    simp only [variableNames, List.mem_append, not_or] at h0 h1
    obtain ⟨a, b, ha, hb, hv⟩ := (eval_binary_ok A l r ctx v).2.1 h
    have ha' := ihl hp.1 h0.1 h1.1 a ha
    have hb' := ihr hp.2 h0.2 h1.2 b hb
    subst hv
    simp only [simplify]
    split_ifs with c1 c2 c3
    · rcases c1 with c1 | c1
      · rw [hmul, zero_of l a c1 h0.1 ha', zero_mul, ← hzero]; rfl
      · rw [hmul, zero_of r b c1 h0.2 hb', mul_zero, ← hzero]; rfl
    · rw [hmul, one_of l a c2 h1.1 ha', one_mul]; exact hb'
    · rw [hmul, one_of r b c3 h1.2 hb', mul_one]; exact ha'
    · simp only [eval, ha', hb']
  | OperationSub l r ihl ihr =>
    intro hp h0 h1 v h
    simp only [hasPow, Bool.or_eq_false_iff] at hp
    simp only [variableNames, List.mem_append, not_or] at h0 h1
    obtain ⟨a, b, ha, hb, hv⟩ := (eval_binary_ok A l r ctx v).2.2.1 h
    have ha' := ihl hp.1 h0.1 h1.1 a ha
    have hb' := ihr hp.2 h0.2 h1.2 b hb
    subst hv
    simp only [simplify]
    split_ifs with c1
    · rw [hsub, zero_of r b c1 h0.2 hb', sub_zero]; exact ha'
    · simp only [eval, ha', hb']
  | OperationDiv l r ihl ihr =>
    intro hp h0 h1 v h
    simp only [hasPow, Bool.or_eq_false_iff] at hp
    simp only [variableNames, List.mem_append, not_or] at h0 h1
    obtain ⟨a, b, ha, hb, hz, hv⟩ := (eval_binary_ok A l r ctx v).2.2.2.2 h
    have ha' := ihl hp.1 h0.1 h1.1 a ha
    have hb' := ihr hp.2 h0.2 h1.2 b hb
    subst hv
    simp only [simplify]
    split_ifs with c1 c2
    · rw [hdiv, zero_of l a c1 h0.1 ha', zero_div, ← hzero]; rfl
    · rw [hdiv, one_of r b c2 h1.2 hb', div_one]; exact ha'
    · simp only [eval, ha', hb', hz, Bool.false_eq_true, if_false]
  | OperationPow l r _ _ => intro hp; exact absurd hp (by simp [hasPow])
  | OperationSin u ih =>
    intro hp h0 h1 v h
    obtain ⟨a, ha, hv⟩ := (eval_unary_ok A u ctx v).1 h
    simp only [simplify, eval, ih hp h0 h1 a ha, hv]
  | OperationCos u ih =>
    intro hp h0 h1 v h
    obtain ⟨a, ha, hv⟩ := (eval_unary_ok A u ctx v).2.1 h
    simp only [simplify, eval, ih hp h0 h1 a ha, hv]
  | OperationLn u ih =>
    intro hp h0 h1 v h
    obtain ⟨a, ha, hv⟩ := (eval_unary_ok A u ctx v).2.2.1 h
    simp only [simplify, eval, ih hp h0 h1 a ha, hv]
  | OperationExp u ih =>
    intro hp h0 h1 v h
    obtain ⟨a, ha, hv⟩ := (eval_unary_ok A u ctx v).2.2.2 h
    simp only [simplify, eval, ih hp h0 h1 a ha, hv]

end Expression

/-! ### The instantiation with exact output -/

theorem toDigitsCore_length_pos (fuel n : Nat) (ds : List Char) :
    ds.length + 1 ≤ (Nat.toDigitsCore 10 (fuel + 1) n ds).length := by
  induction fuel generalizing n ds with
  | zero =>
    simp only [Nat.toDigitsCore]
    split_ifs <;> simp [Nat.toDigitsCore]
  | succ fuel ih =>
    rw [Nat.toDigitsCore]
    split_ifs
    · simp
    · have := ih (n / 10) (Nat.digitChar (n % 10) :: ds)
      simp only [List.length_cons] at this
      omega

theorem toDigits_singleton (n : Nat) (c : Char) (h : Nat.toDigits 10 n = [c]) :
    n < 10 ∧ c = Nat.digitChar n := by
  unfold Nat.toDigits at h
  rw [Nat.toDigitsCore] at h
  by_cases hn : n / 10 = 0
  · have hlt : n < 10 := by omega
    simp only [hn, if_true, List.cons.injEq, and_true] at h
    rw [Nat.mod_eq_of_lt hlt] at h
    exact ⟨hlt, h.symm⟩
  · simp only [hn, if_false] at h
    exfalso
    cases n with
    | zero => simp at hn
    | succ m =>
      have := toDigitsCore_length_pos m ((m + 1) / 10) [Nat.digitChar ((m + 1) % 10)]
      rw [h] at this
      simp at this

theorem toDigits_length_pos (n : Nat) : 1 ≤ (Nat.toDigits 10 n).length := by
  have := toDigitsCore_length_pos n n []
  simpa [Nat.toDigits] using this

/-- A value that `renderExact` writes as one digit is a natural number below ten. -/
theorem renderExact_digit (q : ℚ) (c : Char) (hc : c ≠ '-')
    (h : renderExact q = String.mk [c]) :
    q.den = 1 ∧ 0 ≤ q.num ∧ q.num.natAbs < 10 ∧ c = Nat.digitChar q.num.natAbs := by
  unfold renderExact at h
  have h' := congrArg String.data h
  simp only at h'
  by_cases hneg : q.num < 0
  · simp only [hneg, if_true, List.cons_append, List.nil_append, List.cons.injEq] at h'
    exact absurd h'.1.symm hc
  · simp only [hneg, if_false, List.nil_append] at h'
    by_cases hd : q.den = 1
    · simp only [hd, if_true, List.append_nil] at h'
      obtain ⟨h1, h2⟩ := toDigits_singleton _ c h'
      exact ⟨hd, by omega, h1, h2⟩
    · exfalso
      simp only [hd, if_false] at h'
      have hlen := congrArg List.length h'
      have h3 := toDigits_length_pos q.num.natAbs
      simp only [List.length_append, List.length_cons, List.length_singleton,
        List.length_nil] at hlen
      omega

/-- The instantiation `exactNumeric` writes `0` only for zero and `1` only for one. -/
theorem exactNumeric_renders : exactNumeric.RendersExactly := by
  constructor
  · intro v h
    obtain ⟨_, _, h3, h4⟩ := renderExact_digit v '0' (by decide) h
    have hn : v.num.natAbs = 0 := by
      revert h4
      generalize v.num.natAbs = k at h3 ⊢
      intro h4
      interval_cases k <;> first | rfl | exact absurd h4 (by decide)
    exact Rat.zero_of_num_zero (Int.natAbs_eq_zero.1 hn)
  · intro v h
    obtain ⟨h1, h2, h3, h4⟩ := renderExact_digit v '1' (by decide) h
    have hn : v.num.natAbs = 1 := by
      revert h4
      generalize v.num.natAbs = k at h3 ⊢
      intro h4
      interval_cases k <;> first | rfl | exact absurd h4 (by decide)
    have hnum : v.num = 1 := by omega
    show v = 1
    exact Rat.ext hnum h1

/-- The arithmetic of `exactNumeric` is the arithmetic of the field of the rationals. -/
theorem exactNumeric_exact : exactNumeric.ExactField :=
  ⟨rfl, rfl, fun _ _ => rfl, fun _ _ => rfl, fun _ _ => rfl, fun _ _ => rfl⟩

namespace Expression

variable {T : Type}

/-- C21: simplification preserves the value on the fragment without `Pow`. Over the
exact arithmetic of a field, in an instantiation that writes a `Value` as `0` only when
it is zero and as `1` only when it is one, for every expression `e` that has no `Pow`
node and no `Variable` named `0` or `1`, and for every context: if `eval(e, ctx)` returns
`v`, then `eval(simplify(e), ctx)` returns `v` too. -/
theorem simplify_preserves_value [Field T] (A : Numeric T) (e : Expression T)
    (ctx : Context T) (v : T) (hA : A.ExactField) (hR : A.RendersExactly)
    (hpow : hasPow e = false) (h0 : "0" ∉ variableNames e) (h1 : "1" ∉ variableNames e)
    (h : eval A e ctx = .ok v) :
    eval A (simplify A e) ctx = .ok v :=
  eval_simplify A hA hR ctx e hpow h0 h1 v h

/-- Witness of C21 in the instantiation with exact output: `((1 * x) + (0 / y))`, which
simplifies to `x`, has the value `3` before and after, where `x` is `3` and `y` is `2`. -/
theorem simplify_preserves_value_witness :
    simplify exactNumeric
        (OperationAdd (OperationMul (Value 1) (Variable "x"))
          (OperationDiv (Value 0) (Variable "y"))) = Variable "x"
      ∧ eval exactNumeric
        (OperationAdd (OperationMul (Value 1) (Variable "x"))
          (OperationDiv (Value 0) (Variable "y"))) [("x", 3), ("y", 2)] = .ok 3
      ∧ eval exactNumeric
        (simplify exactNumeric
          (OperationAdd (OperationMul (Value 1) (Variable "x"))
            (OperationDiv (Value 0) (Variable "y")))) [("x", 3), ("y", 2)] = .ok 3 :=
  ⟨by decide!, by decide!,
   simplify_preserves_value exactNumeric _ [("x", 3), ("y", 2)] 3 exactNumeric_exact
     exactNumeric_renders (by decide) (by decide) (by decide) (by decide!)⟩

/-- C22: the derivative of an expression that does not mention the variable simplifies
to zero. In every instantiation that writes the value `0` as `0` (the real one does),
for every expression `e` and every name `x` that no `Variable` node of `e` bears,
`simplify(diff(e, x))` is the `Value` zero, and so `simplify(diff(e, x)).to_string()` is
`0`. -/
theorem diff_absent_variable_is_zero (A : Numeric T) (e : Expression T) (x : String)
    (h0 : A.render A.zero = "0") (hx : x ∉ variableNames e) :
    simplify A (diff A e x) = Value A.zero
      ∧ to_string A (simplify A (diff A e x)) = "0" := by
  have h := simplify_diff_absent A h0 x e hx
  exact ⟨h, by rw [h]; exact h0⟩

/-- Witness of C22 in the rational instantiation: the derivative of `(y ^ sin(2)) / 3`
by `x` simplifies to `0`. -/
theorem diff_absent_variable_is_zero_witness :
    ratNumeric.render ratNumeric.zero = "0"
      ∧ to_string ratNumeric (simplify ratNumeric (diff ratNumeric
          (OperationDiv (OperationPow (Variable "y") (OperationSin (Value 2))) (Value 3))
          "x")) = "0" :=
  ⟨by decide,
   (diff_absent_variable_is_zero ratNumeric
      (OperationDiv (OperationPow (Variable "y") (OperationSin (Value 2))) (Value 3)) "x"
      (by decide) (by decide)).2⟩

/-- C27: `eval` never skips an operand. If `eval(e, ctx)` returns a value, then every
name of a `Variable` node anywhere in `e` is a key of `ctx`, and the denominator of
every `Div` node anywhere in `e` evaluates under `ctx` to a value that the test
`== T(0)` of the code tells apart from zero. Read the other way: a variable that is
absent, or a denominator that is zero, anywhere in the tree makes `eval` throw. -/
theorem eval_never_skips (A : Numeric T) (e : Expression T) (ctx : Context T) (v : T)
    (h : eval A e ctx = .ok v) :
    (∀ x ∈ variableNames e, ∃ w, ctx.find x = some w)
      ∧ (∀ d ∈ denominators e, ∃ w, eval A d ctx = .ok w ∧ A.eq w A.zero = false) :=
  eval_visits A ctx e v h

/-- Witness of C27 in the rational instantiation: `(0 * x) / (y + 1)` evaluates to `0`
where `x` is `6` and `y` is `2`, so `x` and `y` are bound and `y + 1` is not zero; where
`x` is absent, the same expression throws, though `x` is multiplied by zero. -/
theorem eval_never_skips_witness :
    eval ratNumeric
        (OperationDiv (OperationMul (Value 0) (Variable "x"))
          (OperationAdd (Variable "y") (Value 1))) [("x", 6), ("y", 2)] = .ok 0
      ∧ ((∀ x ∈ variableNames (OperationDiv (OperationMul (Value (0 : ℚ)) (Variable "x"))
            (OperationAdd (Variable "y") (Value 1))),
          ∃ w, Context.find [("x", (6 : ℚ)), ("y", 2)] x = some w)
        ∧ (∀ d ∈ denominators (OperationDiv (OperationMul (Value (0 : ℚ)) (Variable "x"))
            (OperationAdd (Variable "y") (Value 1))),
          ∃ w, eval ratNumeric d [("x", 6), ("y", 2)] = .ok w
            ∧ ratNumeric.eq w ratNumeric.zero = false))
      ∧ eval ratNumeric
        (OperationDiv (OperationMul (Value 0) (Variable "x"))
          (OperationAdd (Variable "y") (Value 1))) [("y", 2)]
        = .error (.UndefinedVariable "x") :=
  ⟨by decide!,
   eval_never_skips ratNumeric
     (OperationDiv (OperationMul (Value 0) (Variable "x"))
       (OperationAdd (Variable "y") (Value 1))) [("x", 6), ("y", 2)] 0 (by decide!),
   by decide!⟩

end Expression

namespace Parser

/-! ### The cursor after `match` -/

theorem skip_whitespace_loop_pos (input : List Char) :
    ∀ (n pos : Nat), input.length - pos ≤ n →
      skip_whitespace_loop input n pos = pos + ((input.drop pos).takeWhile isspace).length := by
  intro n
  induction n with
  | zero =>
    intro pos h
    have hle : input.length ≤ pos := by omega
    simp [skip_whitespace_loop, List.drop_eq_nil_of_le hle]
  | succ n ih =>
    intro pos h
    unfold skip_whitespace_loop
    cases hc : input[pos]? with
    | none =>
      have hle : input.length ≤ pos := List.getElem?_eq_none_iff.1 hc
      simp [List.drop_eq_nil_of_le hle]
    | some c =>
      obtain ⟨hlt, hget⟩ := List.getElem?_eq_some_iff.1 hc
      have hd : input.drop pos = c :: input.drop (pos + 1) := by
        rw [List.drop_eq_getElem_cons hlt, hget]
      by_cases hs : isspace c = true
      · simp only [hs, if_true, hd, List.takeWhile_cons, List.length_cons]
        rw [ih (pos + 1) (by omega)]
        omega
      · simp only [hs, if_false, hd, List.takeWhile_cons, Bool.false_eq_true, List.length_nil,
          Nat.add_zero]

/-- The method `skip_whitespace` moves the cursor over the whitespace at the cursor. -/
theorem skip_whitespace_pos (p : Parser) :
    p.skip_whitespace = { input := p.input, pos := p.pos + p.gap } := by
  show ({ input := p.input, pos := skip_whitespace_loop p.input (p.input.length - p.pos) p.pos }
    : Parser) = _
  rw [skip_whitespace_loop_pos p.input _ p.pos (Nat.le_refl _)]
  rfl

theorem advance_pos (p : Parser) :
    p.advance = { input := p.input, pos := p.pos + p.gap + 1 } := by
  unfold advance
  rw [skip_whitespace_pos]

end Parser


namespace Parser

variable {T : Type}

/-! ### The parser reads the text without its whitespace -/

theorem filter_dropWhile_isspace (s : List Char) :
    (s.dropWhile isspace).filter (fun c => !isspace c) = s.filter (fun c => !isspace c) := by
  induction s with
  | nil => rfl
  | cons c t ih =>
    by_cases hs : isspace c = true
    · rw [List.dropWhile_cons, if_pos hs, ih, List.filter_cons]
      simp [hs]
    · rw [List.dropWhile_cons, if_neg hs]

theorem head?_filter_isspace (s : List Char) :
    (s.filter (fun c => !isspace c)).head? = firstChar s := by
  unfold firstChar
  induction s with
  | nil => rfl
  | cons c t ih =>
    by_cases hs : isspace c = true
    · rw [List.dropWhile_cons, if_pos hs, ← ih, List.filter_cons]
      simp [hs]
    · rw [List.dropWhile_cons, if_neg hs, List.filter_cons]
      simp [hs]

theorem isspace_of_alpha (c : Char) (h : isalpha c = true) : isspace c = false := by
  cases hs : isspace c with
  | false => rfl
  | true => rw [isalpha_not_space c hs] at h; exact absurd h (by decide)

theorem isspace_of_number (c : Char) (h : isNumberChar c = true) : isspace c = false := by
  cases hs : isspace c with
  | false => rfl
  | true => rw [isNumberChar_not_space c hs] at h; exact absurd h (by decide)

/-- The name collected and the text left by the loop of `parse_function`, on the text
without its whitespace. -/
theorem letterRun_filter (s : List Char) :
    letterRun s = (s.filter (fun c => !isspace c)).takeWhile isalpha
      ∧ (afterLetters s).filter (fun c => !isspace c)
        = (s.filter (fun c => !isspace c)).dropWhile isalpha := by
  induction s with
  | nil => exact ⟨rfl, rfl⟩
  | cons c t ih =>
    by_cases hs : isspace c = true
    · rw [(letterRun_cons_space c t hs).1, (letterRun_cons_space c t hs).2, List.filter_cons]
      simpa [hs] using ih
    · have hs' : isspace c = false := by simpa using hs
      by_cases ha : isalpha c = true
      · rw [(letterRun_cons_alpha c t ha).1, (letterRun_cons_alpha c t ha).2, List.filter_cons]
        simp only [hs', Bool.not_false, if_true, List.takeWhile_cons, ha, List.dropWhile_cons]
        exact ⟨by rw [ih.1], ih.2⟩
      · have ha' : isalpha c = false := by simpa using ha
        rw [(letterRun_cons_other c t ha' hs').1, (letterRun_cons_other c t ha' hs').2]
        simp [List.filter_cons, hs', List.takeWhile_cons, List.dropWhile_cons, ha']

/-- The text collected and the text left by the loop of `parse_number`, on the text
without its whitespace. -/
theorem numberRun_filter (s : List Char) :
    numberRun s = (s.filter (fun c => !isspace c)).takeWhile isNumberChar
      ∧ (afterNumber s).filter (fun c => !isspace c)
        = (s.filter (fun c => !isspace c)).dropWhile isNumberChar := by
  induction s with
  | nil => exact ⟨rfl, rfl⟩
  | cons c t ih =>
    by_cases hs : isspace c = true
    · rw [(numberRun_cons_space c t hs).1, (numberRun_cons_space c t hs).2, List.filter_cons]
      simpa [hs] using ih
    · have hs' : isspace c = false := by simpa using hs
      by_cases ha : isNumberChar c = true
      · rw [(numberRun_cons_number c t ha).1, (numberRun_cons_number c t ha).2,
          List.filter_cons]
        simp only [hs', Bool.not_false, if_true, List.takeWhile_cons, ha, List.dropWhile_cons]
        exact ⟨by rw [ih.1], ih.2⟩
      · have ha' : isNumberChar c = false := by simpa using ha
        rw [(numberRun_cons_other c t ha' hs').1, (numberRun_cons_other c t ha' hs').2]
        simp [List.filter_cons, hs', List.takeWhile_cons, List.dropWhile_cons, ha']

/-- A run taken from a text stops before a tail whose first character is not of the
run. -/
theorem takeWhile_append_stop (f : Char → Bool) (l tail : List Char)
    (h : ∀ c, tail.head? = some c → f c = false) :
    (l ++ tail).takeWhile f = l.takeWhile f
      ∧ (l ++ tail).dropWhile f = l.dropWhile f ++ tail := by
  induction l with
  | nil =>
    cases tail with
    | nil => exact ⟨rfl, rfl⟩
    | cons c t =>
      have := h c rfl
      simp [List.takeWhile_cons, List.dropWhile_cons, this]
  | cons d l ih =>
    by_cases hd : f d = true
    · simp only [List.cons_append, List.takeWhile_cons, List.dropWhile_cons, hd, if_true]
      exact ⟨by rw [ih.1], ih.2⟩
    · simp [List.takeWhile_cons, List.dropWhile_cons, hd]

theorem view_of_Sees (p : Parser) (s : List Char) (h : Sees p s) :
    p.view = s.filter (fun c => !isspace c) := by
  unfold Sees at h
  unfold view
  rw [← filter_dropWhile_isspace (p.input.drop p.pos), h, filter_dropWhile_isspace]

theorem next_eq_head?_view (p : Parser) : p.next = p.view.head? :=
  (head?_filter_isspace _).symm

theorem view_skip_whitespace (p : Parser) : p.skip_whitespace.view = p.view :=
  view_of_Sees _ _ (Sees_skip_whitespace p _ (Sees_refl p))

theorem view_advance (p : Parser) (c : Char) (h : p.next = some c) :
    p.view = c :: p.advance.view := by
  have hsp := next_not_space p c h
  unfold next firstChar at h
  cases hd : (p.input.drop p.pos).dropWhile isspace with
  | nil => rw [hd] at h; cases h
  | cons d rest =>
    rw [hd] at h
    simp only [List.head?_cons, Option.some.injEq] at h
    subst h
    have hadv := Sees_advance p _ rest d (Sees_refl p) hd
    rw [view_of_Sees _ _ hadv]
    unfold view
    rw [← filter_dropWhile_isspace, hd, List.filter_cons]
    simp [hsp]

/-! ### Two states that read the same text, one of them followed by a tail -/

theorem sim_hit (tail : List Char) (p q : Parser) (hv : q.view = p.view ++ tail) (c : Char)
    (hp : p.next = some c) :
    q.next = some c ∧ q.advance.view = p.advance.view ++ tail := by
  have h1 := view_advance p c hp
  have hq : q.next = some c := by rw [next_eq_head?_view, hv, h1]; rfl
  have h2 := view_advance q c hq
  rw [hv, h1] at h2
  exact ⟨hq, (List.cons.inj h2).2.symm⟩

theorem sim_next_none (tail : List Char) (p q : Parser) (hv : q.view = p.view ++ tail)
    (hp : p.next = none) : q.next = tail.head? := by
  rw [next_eq_head?_view] at hp ⊢
  have : p.view = [] := List.head?_eq_none_iff.1 hp
  rw [hv, this]
  rfl

theorem sim_next_nil (p q : Parser) (hv : q.view = p.view ++ []) : q.next = p.next := by
  rw [next_eq_head?_view, next_eq_head?_view, hv, List.append_nil]

/-- A character other than `)` is the next one in both states or in neither. -/
theorem sim_next (tail : List Char) (hc : Closing tail) (p q : Parser)
    (hv : q.view = p.view ++ tail) (c : Char) (hne : c ≠ ')') :
    q.next = some c ↔ p.next = some c := by
  constructor
  · intro hq
    cases hp : p.next with
    | none =>
      rw [sim_next_none tail p q hv hp] at hq
      exact absurd (hc c hq) hne
    | some d =>
      rw [(sim_hit tail p q hv d hp).1] at hq
      exact hq
  · intro hp
    exact (sim_hit tail p q hv c hp).1

/-- A class of characters that holds neither `)` nor `\0` sees the same in both
states. -/
theorem sim_class (tail : List Char) (hc : Closing tail) (p q : Parser)
    (hv : q.view = p.view ++ tail) (f : Char → Bool) (hf : f ')' = false)
    (hf0 : f (Char.ofNat 0) = false) :
    f (q.next.getD (Char.ofNat 0)) = f (p.next.getD (Char.ofNat 0)) := by
  cases hp : p.next with
  | none =>
    have hq := sim_next_none tail p q hv hp
    cases ht : tail.head? with
    | none => rw [hq, ht]
    | some d =>
      rw [hq, ht, hc d ht]
      simp [hf, hf0]
  | some d => rw [(sim_hit tail p q hv d hp).1]

theorem sim_skip (tail : List Char) (p q : Parser) (hv : q.view = p.view ++ tail) :
    q.skip_whitespace.view = p.skip_whitespace.view ++ tail := by
  rw [view_skip_whitespace, view_skip_whitespace, hv]

theorem Agrees_ok {α : Type} (tail : List Char) (a : α) (p q : Parser)
    (h : q.view = p.view ++ tail) :
    Agrees tail (.ok (a, p)) (.ok (a, q)) :=
  ⟨q, rfl, h⟩

theorem Agrees_error {α : Type} (tail : List Char) (e : ParseError) :
    Agrees tail (.error e : Except ParseError (α × Parser)) (.error e) :=
  fun _ => rfl

/-- Two steps in sequence agree when the first steps agree and the second steps agree
on the states that the first steps return. -/
theorem Agrees_andThen {α β : Type} (tail : List Char)
    (rp rq : Except ParseError (α × Parser))
    (k : α → Parser → Except ParseError (β × Parser)) (h : Agrees tail rp rq)
    (hk : ∀ a p q, q.view = p.view ++ tail → Agrees tail (k a p) (k a q)) :
    Agrees tail (andThen rp k) (andThen rq k) := by
  cases rp with
  | error e =>
    intro ht
    rw [h ht]
    rfl
  | ok r =>
    obtain ⟨a, p⟩ := r
    obtain ⟨q, hq, hv⟩ := h
    rw [hq]
    exact hk a p q hv

/-- The method `parse_number` on the text without its whitespace. -/
theorem parse_number_view (A : Numeric T) (p : Parser) :
    ∃ q, q.view = p.view.dropWhile isNumberChar
      ∧ parse_number A p =
        match stod A (p.view.takeWhile isNumberChar) with
        | .ok value => .ok (.Value value, q)
        | .error e => .error e := by
  obtain ⟨q, hq, h⟩ := parse_number_run A p
  refine ⟨q, ?_, ?_⟩
  · rw [view_of_Sees q _ hq, (numberRun_filter _).2]
    rfl
  · rw [h, (numberRun_filter _).1]
    rfl

/-- The loop of `parse_function` on the text without its whitespace. -/
theorem parse_function_loop_view (p : Parser) :
    ∃ q, parse_function_loop (p.input.length - p.pos) [] p
        = .ok (p.view.takeWhile isalpha, q)
      ∧ q.view = p.view.dropWhile isalpha := by
  obtain ⟨q, h, hq⟩ := parse_function_loop_run p
  refine ⟨q, ?_, ?_⟩
  · rw [h, (letterRun_filter _).1]
    rfl
  · rw [view_of_Sees q _ hq, (letterRun_filter _).2]
    rfl

theorem Agrees_parse_number (A : Numeric T) (tail : List Char) (hc : Closing tail)
    (p q : Parser) (hv : q.view = p.view ++ tail) :
    Agrees tail (parse_number A p) (parse_number A q) := by
  obtain ⟨p1, hp1, hp⟩ := parse_number_view A p
  obtain ⟨q1, hq1, hq⟩ := parse_number_view A q
  have hstop := takeWhile_append_stop isNumberChar p.view tail
    (fun c h => by rw [hc c h]; decide)
  rw [hv, hstop.1] at hq
  rw [hv, hstop.2, ← hp1] at hq1
  rw [hp, hq]
  cases stod A (List.takeWhile isNumberChar p.view) with
  | error e => exact Agrees_error tail e
  | ok v => exact Agrees_ok tail _ p1 q1 hq1

/-! ### Every parsing method reads the text without its whitespace -/

theorem sim_expression (A : Numeric T) (tail : List Char) (n : Nat)
    (hT : ∀ p q, q.view = p.view ++ tail →
      Agrees tail (parse_term A n p) (parse_term A n q))
    (hEL : ∀ left p q, q.view = p.view ++ tail →
      Agrees tail (parse_expression_loop A n left p) (parse_expression_loop A n left q)) :
    ∀ p q, q.view = p.view ++ tail →
      Agrees tail (parse_expression A (n + 1) p) (parse_expression A (n + 1) q) := by
  intro p q hv
  rw [parse_expression_eq, parse_expression_eq]
  exact Agrees_andThen tail _ _ _ (hT p q hv) (fun left p1 q1 hv1 => hEL left p1 q1 hv1)

theorem sim_term (A : Numeric T) (tail : List Char) (n : Nat)
    (hF : ∀ p q, q.view = p.view ++ tail →
      Agrees tail (parse_factor A n p) (parse_factor A n q))
    (hTL : ∀ left p q, q.view = p.view ++ tail →
      Agrees tail (parse_term_loop A n left p) (parse_term_loop A n left q)) :
    ∀ p q, q.view = p.view ++ tail →
      Agrees tail (parse_term A (n + 1) p) (parse_term A (n + 1) q) := by
  intro p q hv
  rw [parse_term_eq, parse_term_eq]
  exact Agrees_andThen tail _ _ _ (hF p q hv) (fun left p1 q1 hv1 => hTL left p1 q1 hv1)

theorem sim_factor (A : Numeric T) (tail : List Char) (hc : Closing tail) (n : Nat)
    (hP : ∀ p q, q.view = p.view ++ tail →
      Agrees tail (parse_primary A n p) (parse_primary A n q))
    (hF : ∀ p q, q.view = p.view ++ tail →
      Agrees tail (parse_factor A n p) (parse_factor A n q)) :
    ∀ p q, q.view = p.view ++ tail →
      Agrees tail (parse_factor A (n + 1) p) (parse_factor A (n + 1) q) := by
  intro p q hv
  rw [parse_factor_eq, parse_factor_eq]
  refine Agrees_andThen tail _ _ _ (hP p q hv) (fun left p1 q1 hv1 => ?_)
  dsimp only
  by_cases h : p1.next = some '^'
  · have hq := sim_hit tail p1 q1 hv1 '^' h
    rw [if_pos h, if_pos hq.1]
    exact Agrees_andThen tail _ _ _ (hF _ _ hq.2)
      (fun right r1 r2 hr => Agrees_ok tail _ r1 r2 hr)
  · have hq : ¬ q1.next = some '^' :=
      fun hq => h ((sim_next tail hc p1 q1 hv1 '^' (by decide)).1 hq)
    rw [if_neg h, if_neg hq]
    exact Agrees_ok tail _ _ _ (sim_skip tail p1 q1 hv1)

theorem sim_term_loop (A : Numeric T) (tail : List Char) (hc : Closing tail) (n : Nat)
    (hF : ∀ p q, q.view = p.view ++ tail →
      Agrees tail (parse_factor A n p) (parse_factor A n q))
    (hTL : ∀ left p q, q.view = p.view ++ tail →
      Agrees tail (parse_term_loop A n left p) (parse_term_loop A n left q)) :
    ∀ left p q, q.view = p.view ++ tail →
      Agrees tail (parse_term_loop A (n + 1) left p) (parse_term_loop A (n + 1) left q) := by
  intro left p q hv
  rw [parse_term_loop_eq, parse_term_loop_eq]
  by_cases h1 : p.next = some '*'
  · have hq := sim_hit tail p q hv '*' h1
    rw [if_pos h1, if_pos hq.1]
    exact Agrees_andThen tail _ _ _ (hF _ _ hq.2)
      (fun right p1 q1 hv1 => hTL _ p1 q1 hv1)
  · have hq1 : ¬ q.next = some '*' :=
      fun hq => h1 ((sim_next tail hc p q hv '*' (by decide)).1 hq)
    rw [if_neg h1, if_neg hq1]
    by_cases h2 : p.next = some '/'
    · have hq := sim_hit tail p q hv '/' h2
      rw [if_pos h2, if_pos hq.1]
      exact Agrees_andThen tail _ _ _ (hF _ _ hq.2)
        (fun right p1 q1 hv1 => hTL _ p1 q1 hv1)
    · have hq2 : ¬ q.next = some '/' :=
        fun hq => h2 ((sim_next tail hc p q hv '/' (by decide)).1 hq)
      rw [if_neg h2, if_neg hq2]
      exact Agrees_ok tail _ _ _ (sim_skip tail p q hv)

theorem sim_expression_loop (A : Numeric T) (tail : List Char) (hc : Closing tail) (n : Nat)
    (hT : ∀ p q, q.view = p.view ++ tail →
      Agrees tail (parse_term A n p) (parse_term A n q))
    (hEL : ∀ left p q, q.view = p.view ++ tail →
      Agrees tail (parse_expression_loop A n left p) (parse_expression_loop A n left q)) :
    ∀ left p q, q.view = p.view ++ tail →
      Agrees tail (parse_expression_loop A (n + 1) left p)
        (parse_expression_loop A (n + 1) left q) := by
  intro left p q hv
  rw [parse_expression_loop_eq, parse_expression_loop_eq]
  by_cases h1 : p.next = some '+'
  · have hq := sim_hit tail p q hv '+' h1
    rw [if_pos h1, if_pos hq.1]
    exact Agrees_andThen tail _ _ _ (hT _ _ hq.2)
      (fun right p1 q1 hv1 => hEL _ p1 q1 hv1)
  · have hq1 : ¬ q.next = some '+' :=
      fun hq => h1 ((sim_next tail hc p q hv '+' (by decide)).1 hq)
    rw [if_neg h1, if_neg hq1]
    by_cases h2 : p.next = some '-'
    · have hq := sim_hit tail p q hv '-' h2
      rw [if_pos h2, if_pos hq.1]
      exact Agrees_andThen tail _ _ _ (hT _ _ hq.2)
        (fun right p1 q1 hv1 => hEL _ p1 q1 hv1)
    · have hq2 : ¬ q.next = some '-' :=
        fun hq => h2 ((sim_next tail hc p q hv '-' (by decide)).1 hq)
      rw [if_neg h2, if_neg hq2]
      exact Agrees_ok tail _ _ _ (sim_skip tail p q hv)

theorem sim_primary (A : Numeric T) (tail : List Char) (hc : Closing tail) (n : Nat)
    (hE : ∀ p q, q.view = p.view ++ tail →
      Agrees tail (parse_expression A n p) (parse_expression A n q))
    (hFN : ∀ p q, q.view = p.view ++ tail →
      Agrees tail (parse_function A n p) (parse_function A n q)) :
    ∀ p q, q.view = p.view ++ tail →
      Agrees tail (parse_primary A (n + 1) p) (parse_primary A (n + 1) q) := by
  intro p q hv
  by_cases h1 : p.next = some '('
  · have hq := sim_hit tail p q hv '(' h1
    rw [parse_primary_paren_eq A n p h1, parse_primary_paren_eq A n q hq.1]
    refine Agrees_andThen tail _ _ _ (hE _ _ hq.2) (fun expr p1 q1 hv1 => ?_)
    dsimp only
    by_cases h2 : p1.next = some ')'
    · have hq2 := sim_hit tail p1 q1 hv1 ')' h2
      rw [if_pos h2, if_pos hq2.1]
      exact Agrees_ok tail _ _ _ hq2.2
    · rw [if_neg h2]
      intro ht
      subst ht
      rw [if_neg (by rw [sim_next_nil p1 q1 hv1]; exact h2)]
  · have hq1 : ¬ q.next = some '(' :=
      fun hq => h1 ((sim_next tail hc p q hv '(' (by decide)).1 hq)
    have ha : isalpha (q.next.getD (Char.ofNat 0)) = isalpha (p.next.getD (Char.ofNat 0)) :=
      sim_class tail hc p q hv isalpha (by decide) (by decide)
    have hd : (isdigit (q.next.getD (Char.ofNat 0)) || q.next.getD (Char.ofNat 0) == '.')
        = (isdigit (p.next.getD (Char.ofNat 0)) || p.next.getD (Char.ofNat 0) == '.') :=
      sim_class tail hc p q hv (fun c => isdigit c || c == '.') (by decide) (by decide)
    rw [parse_primary_eq, parse_primary_eq, if_neg h1, if_neg hq1, ha, hd]
    by_cases h2 : isalpha (p.next.getD (Char.ofNat 0)) = true
    · rw [if_pos h2, if_pos h2]
      cases hn : p.next with
      | none => rw [hn] at h2; exact absurd h2 (by decide)
      | some c =>
        have hq := sim_hit tail p q hv c hn
        rw [hq.1]
        by_cases h3 : c = 'x' ∨ c = 'y'
        · simp only [Option.some.injEq, h3, if_true, Option.getD_some]
          exact Agrees_ok tail _ _ _ hq.2
        · simp only [Option.some.injEq, h3, if_false]
          exact hFN _ _ (sim_skip tail p q hv)
    · rw [if_neg h2, if_neg h2]
      by_cases h4 : (isdigit (p.next.getD (Char.ofNat 0))
          || p.next.getD (Char.ofNat 0) == '.') = true
      · rw [if_pos h4, if_pos h4]
        exact Agrees_parse_number A tail hc _ _ (sim_skip tail p q hv)
      · rw [if_neg h4, if_neg h4]
        exact Agrees_error tail _

theorem sim_function (A : Numeric T) (tail : List Char) (hc : Closing tail) (n : Nat)
    (hP : ∀ p q, q.view = p.view ++ tail →
      Agrees tail (parse_primary A n p) (parse_primary A n q)) :
    ∀ p q, q.view = p.view ++ tail →
      Agrees tail (parse_function A (n + 1) p) (parse_function A (n + 1) q) := by
  intro p q hv
  obtain ⟨p1, hl1, hv1⟩ := parse_function_loop_view p
  obtain ⟨q1, hl2, hv2⟩ := parse_function_loop_view q
  have hstop := takeWhile_append_stop isalpha p.view tail
    (fun c h => by rw [hc c h]; decide)
  rw [hv, hstop.1] at hl2
  rw [hv, hstop.2, ← hv1] at hv2
  rw [parse_function_andThen A n p p1 _ hl1, parse_function_andThen A n q q1 _ hl2]
  have hP1 := hP p1 q1 hv2
  split_ifs
  · exact Agrees_andThen tail _ _ _ hP1 (fun arg r1 r2 hr => Agrees_ok tail _ r1 r2 hr)
  · exact Agrees_andThen tail _ _ _ hP1 (fun arg r1 r2 hr => Agrees_ok tail _ r1 r2 hr)
  · exact Agrees_andThen tail _ _ _ hP1 (fun arg r1 r2 hr => Agrees_ok tail _ r1 r2 hr)
  · exact Agrees_andThen tail _ _ _ hP1 (fun arg r1 r2 hr => Agrees_ok tail _ r1 r2 hr)
  · exact Agrees_error tail _

/-- With every recursion budget, the parsing methods read the text without its
whitespace, and go on in the same way when the text is followed by a `)`. -/
theorem simulates_all (A : Numeric T) (tail : List Char) (hc : Closing tail) :
    ∀ n, Simulates A tail n := by
  intro n
  induction n with
  | zero =>
    refine ⟨fun p q _ => ?_, fun p q _ => ?_, fun p q _ => ?_, fun p q _ => ?_,
      fun l p q _ => ?_, fun l p q _ => ?_, fun p q _ => ?_⟩
    · simp only [parse_primary]; exact Agrees_error tail _
    · simp only [parse_factor]; exact Agrees_error tail _
    · simp only [parse_term]; exact Agrees_error tail _
    · simp only [parse_expression]; exact Agrees_error tail _
    · simp only [parse_term_loop]; exact Agrees_error tail _
    · simp only [parse_expression_loop]; exact Agrees_error tail _
    · simp only [parse_function]; exact Agrees_error tail _
  | succ n ih =>
    obtain ⟨hP, hF, hT, hE, hTL, hEL, hFN⟩ := ih
    exact ⟨sim_primary A tail hc n hE hFN, sim_factor A tail hc n hP hF,
      sim_term A tail n hF hTL, sim_expression A tail n hT hEL,
      sim_term_loop A tail hc n hF hTL, sim_expression_loop A tail hc n hT hEL,
      sim_function A tail hc n hP⟩

/-- The method `parse` reads the text without its whitespace, and goes on in the same
way when the text is followed by a `)`. -/
theorem parse_agrees (A : Numeric T) (tail : List Char) (hc : Closing tail) (p q : Parser)
    (hv : q.view = p.view ++ tail) : Agrees tail (parse A p) (parse A q) := by
  have h := (simulates_all A tail hc (4 * p.input.length + 4 + 4 * q.input.length)).2.2.2.1
    p q hv
  rw [parse_expression_budget A p (4 * q.input.length)] at h
  rw [show 4 * p.input.length + 4 + 4 * q.input.length
    = 4 * q.input.length + 4 + 4 * p.input.length by omega,
    parse_expression_budget A q (4 * p.input.length)] at h
  exact h

theorem from_string_agrees (A : Numeric T) (tail : List Char) (hc : Closing tail)
    (s s' : String)
    (hv : (s'.toList).filter (fun c => !isspace c)
      = (s.toList).filter (fun c => !isspace c) ++ tail) :
    (∀ e, Expression.from_string A s = .ok e → Expression.from_string A s' = .ok e)
      ∧ (tail = [] → Expression.from_string A s' = Expression.from_string A s) := by
  have h := parse_agrees A tail hc { input := s.toList, pos := 0 }
    { input := s'.toList, pos := 0 } hv
  unfold Expression.from_string
  cases hp : parse A { input := s.toList, pos := 0 } with
  | error e =>
    rw [hp] at h
    refine ⟨(fun e' he => nomatch he), fun ht => ?_⟩
    rw [h ht]
  | ok r =>
    obtain ⟨a, p1⟩ := r
    rw [hp] at h
    obtain ⟨q1, hq, _⟩ := h
    rw [hq]
    exact ⟨fun e' he => he, fun _ => rfl⟩

end Parser

namespace Expression

variable {T : Type}

/-- C23: whitespace is invisible to the parser everywhere, inside numbers and names
too. For every input `s`, `parse(s)` and `parse` of `s` with every whitespace character
deleted have the same outcome: the same expression or the same exception; `parse("1 2")`
yields the same `Value` as `parse("12")`, the value `12` in the rational instantiation,
and `s i n ( 1 . 5 )` parses as `sin(1.5)` does. -/
theorem whitespace_invisible (A : Numeric T) (s : String) :
    from_string A (String.mk (s.toList.filter (fun c => !Derivative.isspace c)))
        = from_string A s
      ∧ from_string A "1 2" = from_string A "12"
      ∧ from_string ratNumeric "1 2" = .ok (Value 12)
      ∧ from_string A "s i n ( 1 . 5 )" = from_string A "sin(1.5)" := by
  have key : ∀ s : String,
      from_string A (String.mk (s.toList.filter (fun c => !Derivative.isspace c)))
        = from_string A s := by
    intro s
    refine (Parser.from_string_agrees A [] (fun c h => nomatch h) s _ ?_).2 rfl
    simp [List.filter_filter]
  exact ⟨key s, (key "1 2").symm, by decide!, (key "s i n ( 1 . 5 )").symm⟩

/-- C24: `parse` does not require the whole input to be consumed. For every input `s` on
which `parse` returns an expression `e`, and every text `t`, `parse(s + ")" + t)` returns
the same `e`: the text from the `)` on is ignored; `parse("x)")` and `parse("x) + 1")`
both yield `Variable x`. -/
theorem trailing_text_ignored (A : Numeric T) (s t : String) (e : Expression T)
    (h : from_string A s = .ok e) :
    from_string A (s ++ ")" ++ t) = .ok e
      ∧ from_string A "x)" = .ok (Variable "x")
      ∧ from_string A "x) + 1" = .ok (Variable "x") := by
  refine ⟨?_, rfl, rfl⟩
  refine (Parser.from_string_agrees A (')' :: t.toList.filter (fun c => !Derivative.isspace c))
    ?_ s _ ?_).1 e h
  · intro c hc
    simp only [List.head?_cons, Option.some.injEq] at hc
    exact hc.symm
  · simp [String.toList, String.data_append, List.filter_cons, Derivative.isspace]

/-- Witness of C24 in the rational instantiation: `3 * x` parses to `3 * x`, and so does
`3 * x) / 2`. -/
theorem trailing_text_ignored_witness :
    from_string ratNumeric "3 * x" = .ok (OperationMul (Value 3) (Variable "x"))
      ∧ from_string ratNumeric "3 * x) / 2" = .ok (OperationMul (Value 3) (Variable "x")) :=
  ⟨by decide!,
   (trailing_text_ignored ratNumeric "3 * x" " / 2" (OperationMul (Value 3) (Variable "x"))
      (by decide!)).1⟩

end Expression

namespace Parser

variable {T : Type}

/-! ### The exception of `consume` does not leave `parse` -/

theorem andThen_ne_error {α β : Type} (e0 : ParseError)
    (res : Except ParseError (α × Parser)) (k : α → Parser → Except ParseError (β × Parser))
    (h : res ≠ .error e0) (hk : ∀ a q, k a q ≠ .error e0) : andThen res k ≠ .error e0 := by
  cases res with
  | error e =>
    intro he
    simp only [andThen] at he
    injection he with he
    exact h (by rw [he])
  | ok r => exact hk r.1 r.2

theorem stod_ne_end (A : Numeric T) (num : List Char) :
    stod A num ≠ .error .UnexpectedEndOfInput := by
  unfold stod
  simp only
  split_ifs
  · simp
  · split <;> simp

theorem parse_number_ne_end (A : Numeric T) (p : Parser) :
    parse_number A p ≠ .error .UnexpectedEndOfInput := by
  obtain ⟨q, _, h⟩ := parse_number_run A p
  rw [h]
  have := stod_ne_end A (numberRun (p.input.drop p.pos))
  cases hs : stod A (numberRun (p.input.drop p.pos)) with
  | error e =>
    rw [hs] at this
    intro he
    injection he with he
    exact this (by rw [he])
  | ok v => simp

/-- With every recursion budget, no parsing method throws the exception of `consume`. -/
theorem no_end_all (A : Numeric T) : ∀ n : Nat,
    (∀ p, parse_primary A n p ≠ .error .UnexpectedEndOfInput)
      ∧ (∀ p, parse_factor A n p ≠ .error .UnexpectedEndOfInput)
      ∧ (∀ p, parse_term A n p ≠ .error .UnexpectedEndOfInput)
      ∧ (∀ p, parse_expression A n p ≠ .error .UnexpectedEndOfInput)
      ∧ (∀ left p, parse_term_loop A n left p ≠ .error .UnexpectedEndOfInput)
      ∧ (∀ left p, parse_expression_loop A n left p ≠ .error .UnexpectedEndOfInput)
      ∧ (∀ p, parse_function A n p ≠ .error .UnexpectedEndOfInput) := by
  intro n
  induction n with
  | zero =>
    refine ⟨fun p => ?_, fun p => ?_, fun p => ?_, fun p => ?_, fun l p => ?_, fun l p => ?_,
      fun p => ?_⟩
    · simp [parse_primary]
    · simp [parse_factor]
    · simp [parse_term]
    · simp [parse_expression]
    · simp [parse_term_loop]
    · simp [parse_expression_loop]
    · simp [parse_function]
  | succ n ih =>
    obtain ⟨hP, hF, hT, hE, hTL, hEL, hFN⟩ := ih
    refine ⟨fun p => ?_, fun p => ?_, fun p => ?_, fun p => ?_, fun l p => ?_, fun l p => ?_,
      fun p => ?_⟩
    · by_cases h1 : p.next = some '('
      · rw [parse_primary_paren_eq A n p h1]
        refine andThen_ne_error _ _ _ (hE _) (fun expr q => ?_)
        dsimp only
        split_ifs <;> simp
      · rw [parse_primary_eq, if_neg h1]
        split_ifs
        · simp
        · exact hFN _
        · exact parse_number_ne_end A _
        · simp
    · rw [parse_factor_eq]
      refine andThen_ne_error _ _ _ (hP p) (fun left q => ?_)
      dsimp only
      split_ifs
      · exact andThen_ne_error _ _ _ (hF _) (fun _ _ => by simp)
      · simp
    · rw [parse_term_eq]
      exact andThen_ne_error _ _ _ (hF p) (fun left q => hTL left q)
    · rw [parse_expression_eq]
      exact andThen_ne_error _ _ _ (hT p) (fun left q => hEL left q)
    · rw [parse_term_loop_eq]
      split_ifs
      · exact andThen_ne_error _ _ _ (hF _) (fun right q => hTL _ q)
      · exact andThen_ne_error _ _ _ (hF _) (fun right q => hTL _ q)
      · simp
    · rw [parse_expression_loop_eq]
      split_ifs
      · exact andThen_ne_error _ _ _ (hT _) (fun right q => hEL _ q)
      · exact andThen_ne_error _ _ _ (hT _) (fun right q => hEL _ q)
      · simp
    · obtain ⟨func, q, hl, _, _⟩ := parse_function_loop_forward (p.input.length - p.pos) [] p
      rw [parse_function_andThen A n p q func hl]
      split_ifs
      · exact andThen_ne_error _ _ _ (hP q) (fun _ _ => by simp)
      · exact andThen_ne_error _ _ _ (hP q) (fun _ _ => by simp)
      · exact andThen_ne_error _ _ _ (hP q) (fun _ _ => by simp)
      · exact andThen_ne_error _ _ _ (hP q) (fun _ _ => by simp)
      · simp

/-- Where the input has ended, `parse_primary` throws `UnexpectedCharacter`. -/
theorem parse_primary_at_end (A : Numeric T) (n : Nat) (p : Parser) (h : p.next = none) :
    parse_primary A (n + 1) p = .error .UnexpectedCharacter := by
  rw [parse_primary_eq, h]
  simp [isalpha, isdigit]

theorem next_none_of_whitespace (input : List Char) (h : ∀ c ∈ input, isspace c = true) :
    Parser.next { input := input, pos := 0 } = none := by
  unfold next firstChar
  have : input.dropWhile isspace = [] := List.dropWhile_eq_nil_iff.2 h
  simp [this]

end Parser

namespace Expression

variable {T : Type}

/-- C26: the end-of-input exception of `consume` is unreachable from `parse`. For every
input, and from every state, `parse` never fails with `UnexpectedEndOfInput`. The method
`consume` throws it exactly when no character is left but whitespace, and it is called
only after `peek` has returned a letter, a digit or a dot, where it returns that
character. Where a primary is expected and the input has ended, `parse_primary` fails
with `UnexpectedCharacter`: so do the empty string, every string of whitespace only, and
`3 +`. -/
theorem end_of_input_unreachable (A : Numeric T) (input : String) :
    from_string A input ≠ .error .UnexpectedEndOfInput
      ∧ (∀ p, Parser.parse A p ≠ .error .UnexpectedEndOfInput)
      ∧ (∀ p : Parser, p.consume = .error .UnexpectedEndOfInput ↔ p.next = none)
      ∧ (∀ p : Parser,
          isalpha p.peek.1 = true ∨ isdigit p.peek.1 = true ∨ p.peek.1 = '.' →
            ∃ q, p.peek.2.consume = .ok (p.peek.1, q))
      ∧ (∀ (n : Nat) (p : Parser), p.next = none →
          Parser.parse_primary A (n + 1) p = .error .UnexpectedCharacter)
      ∧ ((∀ c ∈ input.toList, isspace c = true) →
          from_string A input = .error .UnexpectedCharacter)
      ∧ from_string A "" = .error .UnexpectedCharacter
      ∧ from_string A "   " = .error .UnexpectedCharacter
      ∧ from_string ratNumeric "3 +" = .error .UnexpectedCharacter := by
  refine ⟨?_, fun p => (Parser.no_end_all A _).2.2.2.1 p, fun p => ?_, fun p h => ?_,
    fun n p h => Parser.parse_primary_at_end A n p h, fun h => ?_, rfl, rfl, by decide!⟩
  · have h := (Parser.no_end_all A (4 * input.toList.length + 4)).2.2.2.1
      { input := input.toList, pos := 0 }
    unfold from_string Parser.parse
    cases hp : Parser.parse_expression A (4 * input.toList.length + 4)
        { input := input.toList, pos := 0 } with
    | error e =>
      rw [hp] at h
      intro he
      exact h (by simpa using he)
    | ok r => simp
  · rw [Parser.consume_eq]
    cases p.next with
    | none => simp
    | some c => simp
  · rw [Parser.peek_eq] at h ⊢
    dsimp only at h ⊢
    cases hn : p.next with
    | none =>
      rw [hn] at h
      rcases h with h | h | h <;> exact absurd h (by decide)
    | some c =>
      rw [Parser.consume_eq, Parser.next_skip_whitespace, hn]
      exact ⟨_, rfl⟩
  · apply Parser.from_string_error_of_primary
    exact Parser.parse_primary_at_end A _ _ (Parser.next_none_of_whitespace _ h)

end Expression


namespace Parser

variable {T : Type}

/-! ### Parsing the rendering of a tree -/

/-- The characters of the rendering of a binary node, followed by `rest`. -/
theorem toList_binary (a m b : String) (rest : List Char) :
    ("(" ++ a ++ m ++ b ++ ")").toList ++ rest
      = '(' :: (a.toList ++ (m.toList ++ (b.toList ++ ')' :: rest))) := by
  simp [String.toList, String.data_append]

/-- The characters of the rendering of a unary node, followed by `rest`. -/
theorem toList_unary (f a : String) (rest : List Char) :
    (f ++ a ++ ")").toList ++ rest = f.toList ++ (a.toList ++ ')' :: rest) := by
  simp [String.toList, String.data_append]

/-- The first character of a text that begins with `)`. -/
theorem firstChar_close_ne (rest : List Char) (c : Char) (h : c ≠ ')') :
    firstChar (')' :: rest) ≠ some c := by
  rw [firstChar_of_dropWhile _ rest ')' (dropWhile_isspace_cons ')' rest (by decide))]
  exact fun he => h (Option.some.inj he).symm

theorem dropWhile_close (rest : List Char) :
    (')' :: rest).dropWhile isspace = ')' :: rest :=
  dropWhile_isspace_cons ')' rest (by decide)

/-- A primary before `)`, as a term. -/
theorem term_before_close (A : Numeric T) (k : Nat) (s rest : List Char) (e : Expression T)
    (h : Yields (parse_primary A k) (s ++ ')' :: rest) e (')' :: rest)) :
    Yields (parse_term A (k + 2)) (s ++ ')' :: rest) e (')' :: rest) :=
  term_rule A _ _ _ _ _ _ (factor_atom A _ _ _ _ h (firstChar_close_ne rest _ (by decide)))
    (term_loop_done A _ _ _ (firstChar_close_ne rest _ (by decide))
      (firstChar_close_ne rest _ (by decide)))

/-- A primary before `)`, as an expression. -/
theorem expression_before_close (A : Numeric T) (k : Nat) (s rest : List Char)
    (e : Expression T) (h : Yields (parse_primary A k) (s ++ ')' :: rest) e (')' :: rest)) :
    Yields (parse_expression A (k + 3)) (s ++ ')' :: rest) e (')' :: rest) :=
  expression_rule A _ _ _ _ _ _ (term_before_close A k s rest e h)
    (expression_loop_done A _ _ _ (firstChar_close_ne rest _ (by decide))
      (firstChar_close_ne rest _ (by decide)))

/-- A primary before a blank and an operator other than `^`, as a factor. -/
theorem factor_before_op (A : Numeric T) (k : Nat) (s rest : List Char) (o : Char)
    (e : Expression T) (ho : isspace o = false) (hcaret : o ≠ '^')
    (h : Yields (parse_primary A k) (s ++ ' ' :: o :: rest) e (' ' :: o :: rest)) :
    Yields (parse_factor A (k + 1)) (s ++ ' ' :: o :: rest) e (' ' :: o :: rest) :=
  factor_atom A _ _ _ _ h
    (by rw [firstChar_space_op o rest ho]; exact fun he => hcaret (Option.some.inj he))

/-- The rendering `(l + r)` or `(l - r)`, from its two operands as primaries. -/
theorem group_add_sub (A : Numeric T) (k : Nat) (ls rs rest : List Char)
    (l r : Expression T) (o : Char) (ho : o = '+' ∨ o = '-')
    (hl : Yields (parse_primary A (k + 2)) (ls ++ ' ' :: o :: ' ' :: (rs ++ ')' :: rest)) l
      (' ' :: o :: ' ' :: (rs ++ ')' :: rest)))
    (hr : Yields (parse_primary A (k + 1)) (rs ++ ')' :: rest) r (')' :: rest)) :
    (o = '+' → Yields (parse_primary A (k + 6))
        ('(' :: (ls ++ ' ' :: o :: ' ' :: (rs ++ ')' :: rest))) (.OperationAdd l r) rest)
      ∧ (o = '-' → Yields (parse_primary A (k + 6))
        ('(' :: (ls ++ ' ' :: o :: ' ' :: (rs ++ ')' :: rest))) (.OperationSub l r) rest) := by
  have hsp : isspace o = false := by rcases ho with h | h <;> subst h <;> decide
  have hterm : Yields (parse_term A (k + 4)) (ls ++ ' ' :: o :: ' ' :: (rs ++ ')' :: rest)) l
      (' ' :: o :: ' ' :: (rs ++ ')' :: rest)) :=
    term_rule A _ _ _ _ _ _
      (factor_before_op A _ _ _ o l hsp (by rcases ho with h | h <;> subst h <;> decide) hl)
      (term_loop_done A _ _ _
        (by rw [firstChar_space_op o _ hsp]; rcases ho with h | h <;> subst h <;> decide)
        (by rw [firstChar_space_op o _ hsp]; rcases ho with h | h <;> subst h <;> decide))
  have hright : Yields (parse_term A (k + 3)) (' ' :: (rs ++ ')' :: rest)) r (')' :: rest) :=
    Yields_space _ _ _ _ (term_before_close A _ _ _ _ hr)
  constructor
  · intro h
    subst h
    exact Yields_paren A _ _ _ _ _
      (expression_rule A _ _ _ _ _ _ hterm
        (expression_loop_add A _ _ _ _ _ _ _ _ (dropWhile_space_op '+' _ (by decide)) hright
          (expression_loop_done A _ _ _ (firstChar_close_ne rest _ (by decide))
            (firstChar_close_ne rest _ (by decide)))))
      (dropWhile_close rest)
  · intro h
    subst h
    exact Yields_paren A _ _ _ _ _
      (expression_rule A _ _ _ _ _ _ hterm
        (expression_loop_sub A _ _ _ _ _ _ _ _ (dropWhile_space_op '-' _ (by decide)) hright
          (expression_loop_done A _ _ _ (firstChar_close_ne rest _ (by decide))
            (firstChar_close_ne rest _ (by decide)))))
      (dropWhile_close rest)

/-- The rendering `(l * r)` or `(l / r)`, from its two operands as primaries. -/
theorem group_mul_div (A : Numeric T) (k : Nat) (ls rs rest : List Char)
    (l r : Expression T) (o : Char) (ho : o = '*' ∨ o = '/')
    (hl : Yields (parse_primary A (k + 2)) (ls ++ ' ' :: o :: ' ' :: (rs ++ ')' :: rest)) l
      (' ' :: o :: ' ' :: (rs ++ ')' :: rest)))
    (hr : Yields (parse_primary A (k + 1)) (rs ++ ')' :: rest) r (')' :: rest)) :
    (o = '*' → Yields (parse_primary A (k + 6))
        ('(' :: (ls ++ ' ' :: o :: ' ' :: (rs ++ ')' :: rest))) (.OperationMul l r) rest)
      ∧ (o = '/' → Yields (parse_primary A (k + 6))
        ('(' :: (ls ++ ' ' :: o :: ' ' :: (rs ++ ')' :: rest))) (.OperationDiv l r) rest) := by
  have hsp : isspace o = false := by rcases ho with h | h <;> subst h <;> decide
  have hfactor : Yields (parse_factor A (k + 3)) (ls ++ ' ' :: o :: ' ' :: (rs ++ ')' :: rest))
      l (' ' :: o :: ' ' :: (rs ++ ')' :: rest)) :=
    factor_before_op A _ _ _ o l hsp (by rcases ho with h | h <;> subst h <;> decide) hl
  have hright : Yields (parse_factor A (k + 2)) (' ' :: (rs ++ ')' :: rest)) r (')' :: rest) :=
    Yields_space _ _ _ _ (factor_atom A _ _ _ _ hr (firstChar_close_ne rest _ (by decide)))
  constructor
  · intro h
    subst h
    exact Yields_paren A _ _ _ _ _
      (expression_rule A _ _ _ _ _ _
        (term_rule A _ _ _ _ _ _ hfactor
          (term_loop_mul A _ _ _ _ _ _ _ _ (dropWhile_space_op '*' _ (by decide)) hright
            (term_loop_done A _ _ _ (firstChar_close_ne rest _ (by decide))
            (firstChar_close_ne rest _ (by decide)))))
        (expression_loop_done A _ _ _ (firstChar_close_ne rest _ (by decide))
            (firstChar_close_ne rest _ (by decide))))
      (dropWhile_close rest)
  · intro h
    subst h
    exact Yields_paren A _ _ _ _ _
      (expression_rule A _ _ _ _ _ _
        (term_rule A _ _ _ _ _ _ hfactor
          (term_loop_div A _ _ _ _ _ _ _ _ (dropWhile_space_op '/' _ (by decide)) hright
            (term_loop_done A _ _ _ (firstChar_close_ne rest _ (by decide))
            (firstChar_close_ne rest _ (by decide)))))
        (expression_loop_done A _ _ _ (firstChar_close_ne rest _ (by decide))
            (firstChar_close_ne rest _ (by decide))))
      (dropWhile_close rest)

/-- The rendering `(l ^ r)`, from its two operands as primaries. -/
theorem group_pow (A : Numeric T) (k : Nat) (ls rs rest : List Char) (l r : Expression T)
    (hl : Yields (parse_primary A (k + 2)) (ls ++ ' ' :: '^' :: ' ' :: (rs ++ ')' :: rest)) l
      (' ' :: '^' :: ' ' :: (rs ++ ')' :: rest)))
    (hr : Yields (parse_primary A (k + 1)) (rs ++ ')' :: rest) r (')' :: rest)) :
    Yields (parse_primary A (k + 6))
      ('(' :: (ls ++ ' ' :: '^' :: ' ' :: (rs ++ ')' :: rest))) (.OperationPow l r) rest := by
  have hright : Yields (parse_factor A (k + 2)) (' ' :: (rs ++ ')' :: rest)) r (')' :: rest) :=
    Yields_space _ _ _ _ (factor_atom A _ _ _ _ hr (firstChar_close_ne rest _ (by decide)))
  exact Yields_paren A _ _ _ _ _
    (expression_rule A _ _ _ _ _ _
      (term_rule A _ _ _ _ _ _
        (factor_pow A _ _ _ _ _ _ _ hl (dropWhile_space_op '^' _ (by decide)) hright)
        (term_loop_done A _ _ _ (firstChar_close_ne rest _ (by decide))
            (firstChar_close_ne rest _ (by decide))))
      (expression_loop_done A _ _ _ (firstChar_close_ne rest _ (by decide))
            (firstChar_close_ne rest _ (by decide))))
    (dropWhile_close rest)

/-- The rendering `(a)` of the argument of a call, from the argument as a primary. -/
theorem group_of_primary (A : Numeric T) (k : Nat) (s rest : List Char) (a : Expression T)
    (h : Yields (parse_primary A k) (s ++ ')' :: rest) a (')' :: rest)) :
    Yields (parse_primary A (k + 4)) ('(' :: (s ++ ')' :: rest)) a rest :=
  Yields_paren A _ _ _ _ _ (expression_before_close A k s rest a h) (dropWhile_close rest)

/-- The rendering of a call, from the argument as a primary. -/
theorem call_of_primary (A : Numeric T) (k : Nat) (s rest : List Char) (a : Expression T)
    (h : Yields (parse_primary A k) (s ++ ')' :: rest) a (')' :: rest)) :
    Yields (parse_primary A (k + 6)) ("sin(".toList ++ (s ++ ')' :: rest))
        (.OperationSin a) rest
      ∧ Yields (parse_primary A (k + 6)) ("cos(".toList ++ (s ++ ')' :: rest))
        (.OperationCos a) rest
      ∧ Yields (parse_primary A (k + 6)) ("ln(".toList ++ (s ++ ')' :: rest))
        (.OperationLn a) rest
      ∧ Yields (parse_primary A (k + 6)) ("exp(".toList ++ (s ++ ')' :: rest))
        (.OperationExp a) rest := by
  have hg := group_of_primary A k s rest a h
  refine ⟨?_, ?_, ?_, ?_⟩
  · exact (Yields_function A (k + 4) ("sin(".toList ++ (s ++ ')' :: rest)) rest 's' a rfl
      (by decide) (by decide) (by decide) hg).1 rfl
  · exact (Yields_function A (k + 4) ("cos(".toList ++ (s ++ ')' :: rest)) rest 'c' a rfl
      (by decide) (by decide) (by decide) hg).2.1 rfl
  · exact (Yields_function A (k + 4) ("ln(".toList ++ (s ++ ')' :: rest)) rest 'l' a rfl
      (by decide) (by decide) (by decide) hg).2.2.1 rfl
  · exact (Yields_function A (k + 4) ("exp(".toList ++ (s ++ ')' :: rest)) rest 'e' a rfl
      (by decide) (by decide) (by decide) hg).2.2.2 rfl

theorem firstChar_close (rest : List Char) : firstChar (')' :: rest) = some ')' :=
  firstChar_of_dropWhile _ rest ')' (dropWhile_close rest)

/-- The rendering of an expressible tree, as a primary: with a recursion budget of six
for each level of the tree, `parse_primary` yields the tree and leaves what follows the
rendering, provided that this is not a digit or a dot. -/
theorem primary_to_string (A : Numeric T) :
    ∀ e : Expression T, Expression.Expressible A e → ∀ (N : Nat) (rest : List Char),
      6 * Expression.height e ≤ N →
      isdigit ((firstChar rest).getD (Char.ofNat 0)) = false →
      ((firstChar rest).getD (Char.ofNat 0) == '.') = false →
      Yields (parse_primary A N) ((Expression.to_string A e).toList ++ rest) e rest := by
  have hclose : ∀ rest : List Char,
      isdigit ((firstChar (')' :: rest)).getD (Char.ofNat 0)) = false
        ∧ ((firstChar (')' :: rest)).getD (Char.ofNat 0) == '.') = false := by
    intro rest
    rw [firstChar_close]
    exact ⟨by decide, by decide⟩
  have hop : ∀ (o : Char) (rest : List Char), isspace o = false → isdigit o = false →
      (o == '.') = false →
      isdigit ((firstChar (' ' :: o :: rest)).getD (Char.ofNat 0)) = false
        ∧ ((firstChar (' ' :: o :: rest)).getD (Char.ofNat 0) == '.') = false := by
    intro o rest h1 h2 h3
    rw [firstChar_space_op o rest h1]
    exact ⟨h2, h3⟩
  intro e
  induction e with
  | Value value =>
    intro hE N rest hN hd hdot
    obtain ⟨hne, hdig, hst⟩ := hE
    simp only [Expression.height] at hN
    obtain ⟨k, rfl⟩ : ∃ k, N = k + 1 := ⟨N - 1, by omega⟩
    exact primary_operand A k (A.render value) _ rest
      (Operand.number _ value hne (fun c hc => Or.inl (hdig c hc)) hst) hd hdot
  | Variable name =>
    intro hE N rest hN hd hdot
    simp only [Expression.height] at hN
    obtain ⟨k, rfl⟩ : ∃ k, N = k + 1 := ⟨N - 1, by omega⟩
    rcases hE with h | h
    · subst h; exact primary_operand A k "x" _ rest Operand.x hd hdot
    · subst h; exact primary_operand A k "y" _ rest Operand.y hd hdot
  | OperationAdd l r ihl ihr =>
    intro hE N rest hN _ _
    simp only [Expression.height] at hN
    obtain ⟨k, rfl⟩ : ∃ k, N = k + 6 := ⟨N - 6, by omega⟩
    have hr := ihr hE.2 (k + 1) (')' :: rest) (by omega) (hclose rest).1 (hclose rest).2
    have hl := ihl hE.1 (k + 2) (' ' :: '+' :: ' ' :: ((Expression.to_string A r).toList
      ++ ')' :: rest)) (by omega) (hop '+' _ (by decide) (by decide) (by decide)).1
      (hop '+' _ (by decide) (by decide) (by decide)).2
    rw [Expression.to_string, toList_binary]
    exact (group_add_sub A k _ _ rest l r '+' (Or.inl rfl) hl hr).1 rfl
  | OperationSub l r ihl ihr =>
    intro hE N rest hN _ _
    simp only [Expression.height] at hN
    obtain ⟨k, rfl⟩ : ∃ k, N = k + 6 := ⟨N - 6, by omega⟩
    have hr := ihr hE.2 (k + 1) (')' :: rest) (by omega) (hclose rest).1 (hclose rest).2
    have hl := ihl hE.1 (k + 2) (' ' :: '-' :: ' ' :: ((Expression.to_string A r).toList
      ++ ')' :: rest)) (by omega) (hop '-' _ (by decide) (by decide) (by decide)).1
      (hop '-' _ (by decide) (by decide) (by decide)).2
    rw [Expression.to_string, toList_binary]
    exact (group_add_sub A k _ _ rest l r '-' (Or.inr rfl) hl hr).2 rfl
  | OperationMul l r ihl ihr =>
    intro hE N rest hN _ _
    simp only [Expression.height] at hN
    obtain ⟨k, rfl⟩ : ∃ k, N = k + 6 := ⟨N - 6, by omega⟩
    have hr := ihr hE.2 (k + 1) (')' :: rest) (by omega) (hclose rest).1 (hclose rest).2
    have hl := ihl hE.1 (k + 2) (' ' :: '*' :: ' ' :: ((Expression.to_string A r).toList
      ++ ')' :: rest)) (by omega) (hop '*' _ (by decide) (by decide) (by decide)).1
      (hop '*' _ (by decide) (by decide) (by decide)).2
    rw [Expression.to_string, toList_binary]
    exact (group_mul_div A k _ _ rest l r '*' (Or.inl rfl) hl hr).1 rfl
  | OperationDiv l r ihl ihr =>
    intro hE N rest hN _ _
    simp only [Expression.height] at hN
    obtain ⟨k, rfl⟩ : ∃ k, N = k + 6 := ⟨N - 6, by omega⟩
    have hr := ihr hE.2 (k + 1) (')' :: rest) (by omega) (hclose rest).1 (hclose rest).2
    have hl := ihl hE.1 (k + 2) (' ' :: '/' :: ' ' :: ((Expression.to_string A r).toList
      ++ ')' :: rest)) (by omega) (hop '/' _ (by decide) (by decide) (by decide)).1
      (hop '/' _ (by decide) (by decide) (by decide)).2
    rw [Expression.to_string, toList_binary]
    exact (group_mul_div A k _ _ rest l r '/' (Or.inr rfl) hl hr).2 rfl
  | OperationPow l r ihl ihr =>
    intro hE N rest hN _ _
    simp only [Expression.height] at hN
    obtain ⟨k, rfl⟩ : ∃ k, N = k + 6 := ⟨N - 6, by omega⟩
    have hr := ihr hE.2 (k + 1) (')' :: rest) (by omega) (hclose rest).1 (hclose rest).2
    have hl := ihl hE.1 (k + 2) (' ' :: '^' :: ' ' :: ((Expression.to_string A r).toList
      ++ ')' :: rest)) (by omega) (hop '^' _ (by decide) (by decide) (by decide)).1
      (hop '^' _ (by decide) (by decide) (by decide)).2
    rw [Expression.to_string, toList_binary]
    exact group_pow A k _ _ rest l r hl hr
  | OperationSin u ih =>
    intro hE N rest hN _ _
    simp only [Expression.height] at hN
    obtain ⟨k, rfl⟩ : ∃ k, N = k + 6 := ⟨N - 6, by omega⟩
    have hu := ih hE k (')' :: rest) (by omega) (hclose rest).1 (hclose rest).2
    rw [Expression.to_string, toList_unary]
    exact (call_of_primary A k _ rest u hu).1
  | OperationCos u ih =>
    intro hE N rest hN _ _
    simp only [Expression.height] at hN
    obtain ⟨k, rfl⟩ : ∃ k, N = k + 6 := ⟨N - 6, by omega⟩
    have hu := ih hE k (')' :: rest) (by omega) (hclose rest).1 (hclose rest).2
    rw [Expression.to_string, toList_unary]
    exact (call_of_primary A k _ rest u hu).2.1
  | OperationLn u ih =>
    intro hE N rest hN _ _
    simp only [Expression.height] at hN
    obtain ⟨k, rfl⟩ : ∃ k, N = k + 6 := ⟨N - 6, by omega⟩
    have hu := ih hE k (')' :: rest) (by omega) (hclose rest).1 (hclose rest).2
    rw [Expression.to_string, toList_unary]
    exact (call_of_primary A k _ rest u hu).2.2.1
  | OperationExp u ih =>
    intro hE N rest hN _ _
    simp only [Expression.height] at hN
    obtain ⟨k, rfl⟩ : ∃ k, N = k + 6 := ⟨N - 6, by omega⟩
    have hu := ih hE k (')' :: rest) (by omega) (hclose rest).1 (hclose rest).2
    rw [Expression.to_string, toList_unary]
    exact (call_of_primary A k _ rest u hu).2.2.2

/-- The rendering of an expressible tree parses to the tree. -/
theorem from_string_to_string (A : Numeric T) (e : Expression T)
    (h : Expression.Expressible A e) :
    Expression.from_string A (Expression.to_string A e) = .ok e := by
  have hy := expression_of_primary A _ _ e
    (primary_to_string A e h
      (4 * (Expression.to_string A e).toList.length + 1 + 6 * Expression.height e) []
      (by omega) (by decide) (by decide))
  obtain ⟨q, hq, _⟩ := hy { input := (Expression.to_string A e).toList, pos := 0 }
    (by unfold Sees; simp)
  have hb := parse_expression_budget A { input := (Expression.to_string A e).toList, pos := 0 }
    (6 * Expression.height e)
  rw [show 4 * (Expression.to_string A e).toList.length + 1 + 6 * Expression.height e + 3
    = 4 * (Expression.to_string A e).toList.length + 4 + 6 * Expression.height e by omega] at hq
  simp only [Expression.from_string]
  rw [← hb]
  simp only [hq]

end Parser

namespace Expression

variable {T : Type}

/-- C25: parsing undoes rendering on the trees that the parser can express. For every
expression `e` all of whose `Variable` nodes are named `x` or `y` and all of whose
`Value`s render as a run of digits that converts back to the same value,
`parse(to_string(e))` returns a tree equal to `e` node by node, and so a tree with the
same rendering. -/
theorem parse_undoes_rendering (A : Numeric T) (e : Expression T) (h : Expressible A e) :
    from_string A (to_string A e) = .ok e
      ∧ ∀ e', from_string A (to_string A e) = .ok e' → to_string A e' = to_string A e := by
  have hrt := Parser.from_string_to_string A e h
  refine ⟨hrt, fun e' he => ?_⟩
  rw [hrt] at he
  injection he with he
  rw [he]

/-- Witness of C25 in the rational instantiation: the tree of `(3 + x) / sin(y ^ 12)`
renders as `((3 + x) / sin((y ^ 12)))`, and this text parses to the tree. -/
theorem parse_undoes_rendering_witness :
    to_string ratNumeric
        (OperationDiv (OperationAdd (Value 3) (Variable "x"))
          (OperationSin (OperationPow (Variable "y") (Value 12))))
        = "((3 + x) / sin((y ^ 12)))"
      ∧ from_string ratNumeric "((3 + x) / sin((y ^ 12)))"
        = .ok (OperationDiv (OperationAdd (Value 3) (Variable "x"))
          (OperationSin (OperationPow (Variable "y") (Value 12)))) :=
  ⟨by decide!,
   (parse_undoes_rendering ratNumeric
      (OperationDiv (OperationAdd (Value 3) (Variable "x"))
        (OperationSin (OperationPow (Variable "y") (Value 12))))
      (by simp only [Expressible]; decide!)).1⟩

end Expression


namespace Expression

/-- C28, as stated, fails: on a miss the cursor does not stay where it was when
whitespace lies at the cursor. With the cursor at `0` in the text ` x`, `match('+')`
returns false with the cursor at `1`; in a text of two blanks, it returns false with
the cursor at `2`, the end of the input. -/
theorem match_frame_counterexample :
    Parser.match_ { input := " x".toList, pos := 0 } '+'
        = (false, { input := " x".toList, pos := 1 })
      ∧ (Parser.match_ { input := " x".toList, pos := 0 } '+').2.pos ≠ 0
      ∧ Parser.match_ { input := "  ".toList, pos := 0 } '+'
        = (false, { input := "  ".toList, pos := 2 }) := by
  decide

/-- C28, amended: `match(expected)` never changes the input. If the next character
that is not whitespace equals `expected`, it returns true and the cursor ends just past
that character. Otherwise it returns false and the cursor ends on the next character
that is not whitespace, or at the end of the input when there is none: it has moved
over the whitespace that lay at the cursor, it is where it was before the call exactly
when no whitespace lay at the cursor, and what the parser reads from the cursor on is
what it read before the call. -/
theorem match_frame (p : Parser) (expected : Char) :
    (p.match_ expected).2.input = p.input
      ∧ (p.next = some expected →
          p.match_ expected = (true, { input := p.input, pos := p.pos + p.gap + 1 })
            ∧ p.input[p.pos + p.gap]? = some expected)
      ∧ (p.next ≠ some expected →
          p.match_ expected = (false, { input := p.input, pos := p.pos + p.gap })
            ∧ p.input[p.pos + p.gap]? = p.next
            ∧ ((p.match_ expected).2 = p ↔ p.gap = 0)
            ∧ (p.match_ expected).2.view = p.view) := by
  have hnext : p.input[p.pos + p.gap]? = p.next := by
    rw [Parser.next_eq_getElem?, Parser.skip_whitespace_pos]
  refine ⟨?_, fun h => ?_, fun h => ?_⟩
  · rw [Parser.match_eq]
    split_ifs <;> rfl
  · rw [Parser.match_eq, if_pos h, Parser.advance_pos]
    exact ⟨rfl, by rw [hnext, h]⟩
  · have hview : (p.match_ expected).2.view = p.view := by
      rw [Parser.match_eq, if_neg h]
      exact Parser.view_skip_whitespace p
    rw [Parser.match_eq, if_neg h, Parser.skip_whitespace_pos] at hview ⊢
    refine ⟨rfl, hnext, ?_, hview⟩
    constructor
    · intro he
      have := congrArg Parser.pos he
      simp only at this
      omega
    · intro he
      rw [he]
      rfl

/-- Witness of C28 in the text ` +x`, with the cursor at `0`: `match('+')` returns true
with the cursor at `2`, and `match('-')` returns false with the cursor at `1`. -/
theorem match_frame_witness :
    Parser.match_ { input := " +x".toList, pos := 0 } '+'
        = (true, { input := " +x".toList, pos := 2 })
      ∧ Parser.match_ { input := " +x".toList, pos := 0 } '-'
        = (false, { input := " +x".toList, pos := 1 }) :=
  ⟨((match_frame { input := " +x".toList, pos := 0 } '+').2.1 (by decide)).1,
   ((match_frame { input := " +x".toList, pos := 0 } '-').2.2 (by decide)).1⟩

end Expression

end Derivative
